import Mathlib

/-!
# xtz-lib-go: transaction store, broadcaster, block indexer, node client

A shallow embedding of the `xtz` packages: the relational table `xtz_tx`
is a list of rows, each SQL statement of `transaction-storage.go` is a pure
function on that list, the broadcaster job of `broadcaster.go` is a
fold of its worker over the selected rows, the indexer job of
`block-fetcher.go` is a function on the two tables and the trace of its
calls, the methods of `client.go` are functions of what the node answers, and
the validation middleware of `validation.go` is a function from services to
services.

Conventions.
* A nullable column or pointer field is an `Option`.
* A comparison with a NULL column is not satisfied (SQL three-valued logic
  in a `WHERE` clause).
* Row ids (`UUID DEFAULT gen_random_uuid()`) are natural numbers drawn from
  a counter kept with the table; `0` is the zero value of a struct field
  that was not scanned.
* Times are integers; `time.Now()` and `NOW()` are an explicit argument.
* Failures of the database connection itself are not modelled for the
  operations of the transaction store; the indexer takes the failures of its
  other store calls from an oracle (`Faults`).
* A loop without a static bound takes a bound on its rounds as an argument
  and returns `none` when the bound is exhausted.
* A hash or address that a method writes into the text of a statement between
  apostrophes is compared as a value, which is what the text means when the
  value holds no apostrophe. `MarkPinned` is given the database as an
  argument: it builds the text of each round (`pinQuery`), and a text in
  which an address holds an apostrophe is answered by that database.
* The `uint64` arithmetic of the indexer is arithmetic modulo `2^64`; the
  `int` indices of `storeTransactions` into its batch are natural numbers (a
  batch and its windows stay far below `2^63`).
* A pointer is the value it points to when the function returns.
* The goroutines of one window of `storeTransactions` run one after the
  other, in the order they are launched.
-/

namespace common_model

/-- Lifecycle enum `common_model.Status`. -/
inductive Status where
  | NEW
  | PENDING
  | SUCCESS
  | FAILURE
  | INVALID
  | TIMEOUT
  deriving DecidableEq, Repr

/-- Modelled from the spec: `common_model.FromStatus` (package
`pkg/common/model` is not under src/). The wire form is the lowercase word,
`temporary_failure` for FAILURE. -/
def FromStatus : Status → String
  | .NEW => "new"
  | .PENDING => "pending"
  | .SUCCESS => "success"
  | .FAILURE => "temporary_failure"
  | .INVALID => "invalid"
  | .TIMEOUT => "timeout"

/-- Modelled from the spec: `Status.String()` (package `pkg/common/model` is
not under src/), the same wire form as `FromStatus`. -/
def Status.String (s : Status) : String := FromStatus s

/-- Modelled from the spec: `common_model.ToStatus` (package
`pkg/common/model` is not under src/), the inverse of `FromStatus` on the six
wire words. The spec calls the mapping total without naming the image of any
other word; such a word is sent to `NEW`, the zero value of the enum. -/
def ToStatus (s : String) : Status :=
  if s = "new" then .NEW
  else if s = "pending" then .PENDING
  else if s = "success" then .SUCCESS
  else if s = "temporary_failure" then .FAILURE
  else if s = "invalid" then .INVALID
  else if s = "timeout" then .TIMEOUT
  else .NEW

end common_model

namespace model

/-- The struct `model.Transaction` (the `Attributes` map, which no statement
of the store reads or writes, is left out). -/
structure Transaction where
  ID : Nat
  Hash : String
  Index : Nat
  BlockNumber : Option Nat
  SourceAddress : Option String
  DestinationAddress : Option String
  Amount : Option Int
  Fee : Option Int
  Counter : Option Int
  Status : String
  RawTransaction : Option String
  Pinned : Bool
  Broadcasted : Bool
  Message : Option String
  Timestamp : Option Int
  CreatedAt : Option Int
  CreatedAtBlockNumber : Option Nat
  BroadcastedAtBlock : Option Nat
  deriving DecidableEq, Repr

end model

namespace cockroach

open common_model

/-- The struct `transaction` of `model.go`: one row of the table `xtz_tx`. -/
structure transaction where
  ID : Nat
  Hash : String
  Index : Nat
  BlockNumber : Option Int
  SourceAddress : Option String
  DestinationAddress : Option String
  Amount : Option Int
  Fee : Option Int
  Counter : Option Int
  Status : Status
  RawTransaction : Option String
  Pinned : Bool
  Broadcasted : Bool
  Message : Option String
  Timestamp : Option Int
  CreatedAt : Option Int
  CreatedAtBlockNumber : Option Nat
  BroadcastedAtBlock : Option Nat
  deriving DecidableEq, Repr

/-- Modelled from the spec: `helper.BlockNumberPtrToUint64Ptr` (package
`pkg/helper` is not under src/). A mined height is kept, the sentinel `-1`
(not mined) and NULL become nil. -/
def BlockNumberPtrToUint64Ptr : Option Int → Option Nat
  | some b => if 0 ≤ b then some b.toNat else none
  | none => none

/-- The function `toModelTransaction` of `model.go`. -/
def toModelTransaction (t : transaction) : model.Transaction :=
  { ID := t.ID
    Hash := t.Hash
    Index := t.Index
    BlockNumber := BlockNumberPtrToUint64Ptr t.BlockNumber
    SourceAddress := t.SourceAddress
    DestinationAddress := t.DestinationAddress
    Amount := t.Amount
    Fee := t.Fee
    Counter := t.Counter
    Status := FromStatus t.Status
    RawTransaction := t.RawTransaction
    Pinned := t.Pinned
    Broadcasted := t.Broadcasted
    Message := t.Message
    Timestamp := t.Timestamp
    CreatedAt := t.CreatedAt
    CreatedAtBlockNumber := t.CreatedAtBlockNumber
    BroadcastedAtBlock := t.BroadcastedAtBlock }

/-- The function `toModelTransactions` of `model.go`. -/
def toModelTransactions (legacyTransactions : List transaction) : List model.Transaction :=
  legacyTransactions.map toModelTransaction

/-- The table `xtz_tx` together with the source of fresh row ids. -/
structure Store where
  rows : List transaction
  nextID : Nat
  deriving DecidableEq, Repr

/-- The table right after the migration: no row. -/
def Store.empty : Store := { rows := [], nextID := 1 }

/-- Two rows collide on the constraint `UNIQUE (hash, idx)`. -/
def sameKey (a b : transaction) : Bool :=
  a.Hash == b.Hash && a.Index == b.Index

/-- The row stored under `(hash, idx)`, if any. -/
def Store.lookup (s : Store) (hash : String) (idx : Nat) : Option transaction :=
  s.rows.find? (fun r => r.Hash == hash && r.Index == idx)

/-- One row of `INSERT INTO xtz_tx ... VALUES ... ON CONFLICT (hash, idx) DO
UPDATE SET ...`: a row with the key of `excluded` is rewritten by `set`,
otherwise `excluded` is inserted under a fresh id. -/
def insertOnConflict (set : transaction → transaction → transaction)
    (s : Store) (excluded : transaction) : Store :=
  if s.rows.any (sameKey excluded) then
    { s with rows := s.rows.map (fun r => if sameKey excluded r then set r excluded else r) }
  else
    { rows := s.rows ++ [{ excluded with ID := s.nextID }], nextID := s.nextID + 1 }

/-- The `VALUES` tuple `CreateTransactions` formats for one transaction;
columns the statement does not name are NULL. -/
def createValues (now : Int) (tx : model.Transaction) : transaction :=
  { ID := 0
    Hash := tx.Hash
    Index := tx.Index
    BlockNumber := tx.BlockNumber.map Int.ofNat
    DestinationAddress := tx.DestinationAddress
    SourceAddress := tx.SourceAddress
    Amount := tx.Amount
    Fee := tx.Fee
    Counter := tx.Counter
    Timestamp := tx.Timestamp
    Pinned := tx.Pinned
    Broadcasted := false
    Status := ToStatus tx.Status
    CreatedAt := some now
    RawTransaction := none
    Message := none
    CreatedAtBlockNumber := none
    BroadcastedAtBlock := none }

/-- The `DO UPDATE SET (block_number, addr_to, addr_from, amount, fee,
counter, timestamp, status) = (excluded. ...)` clause of `CreateTransactions`. -/
def createConflict (old excluded : transaction) : transaction :=
  { old with
    BlockNumber := excluded.BlockNumber
    DestinationAddress := excluded.DestinationAddress
    SourceAddress := excluded.SourceAddress
    Amount := excluded.Amount
    Fee := excluded.Fee
    Counter := excluded.Counter
    Timestamp := excluded.Timestamp
    Status := excluded.Status }

/-- The validation loop of `CreateTransactions`: the first nil transaction,
nil amount or hash outside the alphabet ends the call with its error.
`IsBase64Alphabet` is `helper.IsBase64Alphabet`, which is not under src/. -/
def createCheck (IsBase64Alphabet : String → Bool) :
    List (Option model.Transaction) → Except String (List model.Transaction)
  | [] => .ok []
  | none :: _ => .error "transaction should not be nil"
  | some tx :: rest =>
    if tx.Amount = none then .error "transaction.Amount should not be nil"
    else if !IsBase64Alphabet tx.Hash then
      .error "Invalid character detected in transaction hash"
    else
      match createCheck IsBase64Alphabet rest with
      | .ok txs => .ok (tx :: txs)
      | .error e => .error e

/-- The keys `(hash, idx)` of a batch. -/
def batchKeys (txs : List model.Transaction) : List (String × Nat) :=
  txs.map (fun tx => (tx.Hash, tx.Index))

/-- The method `TransactionStorage.CreateTransactions`. The database rejects
an `INSERT ... ON CONFLICT DO UPDATE` whose tuples name one key twice (the
command cannot affect a row a second time); the statement is atomic, so the
table is then unchanged. -/
def CreateTransactions (IsBase64Alphabet : String → Bool) (now : Int) (s : Store)
    (transactions : List (Option model.Transaction)) : Except String Store :=
  if transactions.length = 0 then .ok s
  else
    match createCheck IsBase64Alphabet transactions with
    | .error e => .error e
    | .ok txs =>
      if (batchKeys txs).Nodup then
        .ok (txs.foldl (fun st tx => insertOnConflict createConflict st (createValues now tx)) s)
      else .error "could not execute sql batch statement"

/-- A run of calls to `CreateTransactions`, each with the reading of the clock
at its time, applied one after the other; a call that fails ends the run with
its error. -/
def createAll (IsBase64Alphabet : String → Bool) :
    List (Int × List (Option model.Transaction)) → Store → Except String Store
  | [], s => .ok s
  | call :: rest, s =>
    match CreateTransactions IsBase64Alphabet call.1 s call.2 with
    | .ok s' => createAll IsBase64Alphabet rest s'
    | .error e => .error e

/-- The keys `(hash, idx)` of all transfers handed over in a run of calls. -/
def appliedKeys (calls : List (Int × List (Option model.Transaction))) : List (String × Nat) :=
  batchKeys ((calls.map (fun call => call.2.filterMap id)).flatten)

/-- The statement of `eraseErrorMessage`: `UPDATE xtz_tx SET message = NULL
WHERE hash = $1`; its error is dropped by the caller. -/
def eraseErrorMessage (s : Store) (hash : String) : Store :=
  { s with rows := s.rows.map (fun r => if r.Hash == hash then { r with Message := none } else r) }

/-- The read-repair loop shared by the three readers: a scanned row with
status SUCCESS and a message has the message erased in the table and in the
value returned. -/
def readRepair : List transaction → Store → List transaction × Store
  | [], s => ([], s)
  | storedTransaction :: rest, s =>
    if storedTransaction.Status = .SUCCESS ∧ storedTransaction.Message ≠ none then
      let res := readRepair rest (eraseErrorMessage s storedTransaction.Hash)
      ({ storedTransaction with Message := none } :: res.1, res.2)
    else
      let res := readRepair rest s
      (storedTransaction :: res.1, res.2)

/-- The loop that inlines identifiers into a query: the first one outside the
alphabet ends the call with an error naming it. -/
def firstInvalid (IsBase64Alphabet : String → Bool) : List String → Option String
  | [] => none
  | a :: rest => if !IsBase64Alphabet a then some a else firstInvalid IsBase64Alphabet rest

/-- The method `TransactionStorage.GetTransactions`: the rows `WHERE hash in
(...)`, read-repaired; the table after the repair is returned with them. -/
def GetTransactions (IsBase64Alphabet : String → Bool) (s : Store) (hashes : List String) :
    Except String (List model.Transaction × Store) :=
  if hashes.length = 0 then .ok ([], s)
  else
    match firstInvalid IsBase64Alphabet hashes with
    | some hash => .error ("invalid character detected in hash " ++ hash)
    | none =>
      let res := readRepair (s.rows.filter (fun r => hashes.contains r.Hash)) s
      .ok (toModelTransactions res.1, res.2)

/-- The condition `col in (addresses)`; a NULL address is in no list. -/
def addrIn (addresses : List String) : Option String → Bool
  | some a => addresses.contains a
  | none => false

/-- The condition `block_number >= $1 AND block_number <= $2`. -/
def blockBetween (fromBlock toBlock : Nat) : Option Int → Bool
  | some b => decide ((fromBlock : Int) ≤ b) && decide (b ≤ (toBlock : Int))
  | none => false

/-- The condition `timestamp >= $1 AND timestamp <= $2`. -/
def dateBetween (fromDate toDate : Int) : Option Int → Bool
  | some t => decide (fromDate ≤ t) && decide (t ≤ toDate)
  | none => false

/-- The rows a range query matches through `addr_from` followed by those it
matches through `addr_to`, before the `UNION` removes duplicates. -/
def matchedRows (addresses : List String) (inRange : transaction → Bool)
    (rows : List transaction) : List transaction :=
  rows.filter (fun r => addrIn addresses r.SourceAddress && inRange r) ++
    rows.filter (fun r => addrIn addresses r.DestinationAddress && inRange r)

/-- The page query of the range readers: `SELECT id, hash, ... UNION SELECT
id, hash, ...` over all columns, then `LIMIT $3 OFFSET $4`. -/
def pageQuery (addresses : List String) (inRange : transaction → Bool)
    (limit offset : Nat) (rows : List transaction) : List transaction :=
  (((matchedRows addresses inRange rows).dedup).drop offset).take limit

/-- The count query of the range readers: `SELECT count(*) FROM (SELECT hash
... UNION SELECT hash ...)`, a `UNION` of the column `hash` alone. -/
def countQuery (addresses : List String) (inRange : transaction → Bool)
    (rows : List transaction) : Nat :=
  (((matchedRows addresses inRange rows).map (fun r => r.Hash)).dedup).length

/-- The body shared by `GetTransactionsBetweenBlocks` and
`GetTransactionsBetweenDates`, which differ in the range condition only. -/
def getTransactionsBetween (IsBase64Alphabet : String → Bool) (s : Store)
    (addresses : List String) (inRange : transaction → Bool) (limit offset : Nat) :
    Except String (List model.Transaction × Nat × Store) :=
  if addresses.length = 0 then .ok ([], 0, s)
  else
    match firstInvalid IsBase64Alphabet addresses with
    | some address => .error ("invalid character detected in address " ++ address)
    | none =>
      let res := readRepair (pageQuery addresses inRange limit offset s.rows) s
      .ok (toModelTransactions res.1, countQuery addresses inRange res.2.rows, res.2)

/-- The method `TransactionStorage.GetTransactionsBetweenBlocks`. -/
def GetTransactionsBetweenBlocks (IsBase64Alphabet : String → Bool) (s : Store)
    (addresses : List String) (fromBlock toBlock limit offset : Nat) :
    Except String (List model.Transaction × Nat × Store) :=
  getTransactionsBetween IsBase64Alphabet s addresses
    (fun r => blockBetween fromBlock toBlock r.BlockNumber) limit offset

/-- The method `TransactionStorage.GetTransactionsBetweenDates`. -/
def GetTransactionsBetweenDates (IsBase64Alphabet : String → Bool) (s : Store)
    (addresses : List String) (fromDate toDate : Int) (limit offset : Nat) :
    Except String (List model.Transaction × Nat × Store) :=
  getTransactionsBetween IsBase64Alphabet s addresses
    (fun r => dateBetween fromDate toDate r.Timestamp) limit offset

/-- The `VALUES` tuple of `Broadcast`: `(:hash, 0, -1, false, true, 0, :rawtx,
:timestamp, NOW(), :created_at_block, 0)`; status `0` is NEW. -/
def broadcastValues (now : Int) (tx : model.Transaction) : transaction :=
  { ID := 0
    Hash := tx.Hash
    Index := 0
    BlockNumber := some (-1)
    SourceAddress := none
    DestinationAddress := none
    Amount := none
    Fee := none
    Counter := none
    Pinned := false
    Broadcasted := true
    Status := .NEW
    RawTransaction := tx.RawTransaction
    Message := none
    Timestamp := tx.Timestamp
    CreatedAt := some now
    CreatedAtBlockNumber := tx.CreatedAtBlockNumber
    BroadcastedAtBlock := some 0 }

/-- The `DO UPDATE SET (broadcasted, status, message, created_at_block,
broadcasted_at_block) = (true, excluded.status, NULL,
excluded.created_at_block, 0)` clause of `Broadcast`. -/
def broadcastConflict (old excluded : transaction) : transaction :=
  { old with
    Broadcasted := true
    Status := excluded.Status
    Message := none
    CreatedAtBlockNumber := excluded.CreatedAtBlockNumber
    BroadcastedAtBlock := some 0 }

/-- The method `TransactionStorage.Broadcast`. -/
def Broadcast (now : Int) (s : Store) (tx : model.Transaction) : Store :=
  insertOnConflict broadcastConflict s (broadcastValues now tx)

/-- The `WHERE` clause of `GetPendingBroadcasts`: `broadcasted = true AND
status IN (NEW, PENDING, FAILURE) AND block_number = -1 AND
broadcasted_at_block <= $1`. -/
def pendingWhere (broadcastedBeforeBlock : Nat) (r : transaction) : Bool :=
  r.Broadcasted &&
    (r.Status == .NEW || r.Status == .PENDING || r.Status == .FAILURE) &&
    r.BlockNumber == some (-1) &&
    (match r.BroadcastedAtBlock with
      | some b => decide (b ≤ broadcastedBeforeBlock)
      | none => false)

/-- The struct scanned from `SELECT hash, status, rawtx`: the three columns,
every other field at its zero value. -/
def scanHashStatusRawtx (r : transaction) : transaction :=
  { ID := 0
    Hash := r.Hash
    Index := 0
    BlockNumber := none
    SourceAddress := none
    DestinationAddress := none
    Amount := none
    Fee := none
    Counter := none
    Status := r.Status
    RawTransaction := r.RawTransaction
    Pinned := false
    Broadcasted := false
    Message := none
    Timestamp := none
    CreatedAt := none
    CreatedAtBlockNumber := none
    BroadcastedAtBlock := none }

/-- The method `TransactionStorage.GetPendingBroadcasts`; `LIMIT` without an
order keeps the first matching rows of the table. -/
def GetPendingBroadcasts (s : Store) (broadcastedBeforeBlock limit : Nat) :
    List model.Transaction :=
  toModelTransactions
    (((s.rows.filter (pendingWhere broadcastedBeforeBlock)).take limit).map scanHashStatusRawtx)

/-- The method `TransactionStorage.UpdateBroadcast`: `UPDATE xtz_tx SET
(broadcasted_at_block, status, message) = ($2, $3, $4) WHERE hash = $1`. -/
def UpdateBroadcast (s : Store) (hash status message : String) (broadcastedAtBlock : Nat) :
    Store :=
  let st := ToStatus status
  { s with
    rows := s.rows.map (fun r =>
      if r.Hash == hash then
        { r with BroadcastedAtBlock := some broadcastedAtBlock, Status := st, Message := some message }
      else r) }

/-- The `WHERE` clause of `getTransactionIDs`: `pinned = false AND broadcasted
= false AND block_number <= $1`. -/
def gcWhere (beforeBlock : Nat) (r : transaction) : Bool :=
  !r.Pinned && !r.Broadcasted &&
    (match r.BlockNumber with
      | some b => decide (b ≤ (beforeBlock : Int))
      | none => false)

/-- The method `TransactionStorage.getTransactionIDs`. -/
def getTransactionIDs (s : Store) (limit beforeBlock : Nat) : List Nat :=
  ((s.rows.filter (gcWhere beforeBlock)).take limit).map (fun r => r.ID)

/-- The method `TransactionStorage.deleteTransactionIDs`: `DELETE FROM xtz_tx
WHERE id IN (...)`. -/
def deleteTransactionIDs (s : Store) (ids : List Nat) : Store :=
  { s with rows := s.rows.filter (fun r => !ids.contains r.ID) }

/-- Modelled from the spec: `pool.Do` (package `internal/worker` is not under
src/). The range `[0, total)` is cut in chunks of `batchSize`, `batcher from
to` builds the input of a chunk and every chunk is handed to the worker once;
the chunks are taken in increasing order. -/
def poolDo {σ β : Type} (worker : σ → β → σ) (batcher : Nat → Nat → β)
    (total batchSize : Nat) (init : σ) : σ :=
  (List.range ((total + batchSize - 1) / batchSize)).foldl
    (fun st k => worker st (batcher (k * batchSize) (min ((k + 1) * batchSize) total))) init

/-- The loop of `GarbageCollectTransactions` with the id batch size as an
argument: select up to `limit` ids, return when there is none, else delete them
in chunks of 100 and start over. `fuel` bounds the number of rounds; `none` is
an exhausted bound. -/
def gcLoop (limit beforeBlock : Nat) : Nat → Store → Option Store
  | 0, _ => none
  | fuel + 1, s =>
    let ids := getTransactionIDs s limit beforeBlock
    if ids.length = 0 then some s
    else
      gcLoop limit beforeBlock fuel
        (poolDo deleteTransactionIDs (fun a b => (ids.take b).drop a) ids.length 100 s)

/-- The method `TransactionStorage.GarbageCollectTransactions`, which selects
ids 50000 at a time. -/
def GarbageCollectTransactions (fuel : Nat) (s : Store) (beforeBlock : Nat) : Option Store :=
  gcLoop 50000 beforeBlock fuel s

/-- The `WHERE` clause of `GetBroadcastsToGarbageCollect`: `broadcasted = true
AND status IN (PENDING, FAILURE) AND block_number = -1 AND created_at_block <=
$1`. -/
def gcBroadcastWhere (beforeBlock : Nat) (r : transaction) : Bool :=
  r.Broadcasted &&
    (r.Status == .PENDING || r.Status == .FAILURE) &&
    r.BlockNumber == some (-1) &&
    (match r.CreatedAtBlockNumber with
      | some b => decide (b ≤ beforeBlock)
      | none => false)

/-- The method `TransactionStorage.GetBroadcastsToGarbageCollect`. -/
def GetBroadcastsToGarbageCollect (s : Store) (beforeBlock : Nat) : List String :=
  (s.rows.filter (gcBroadcastWhere beforeBlock)).map (fun r => r.Hash)

/-- The statement of `GarbageCollectBroadcasts`: `UPDATE xtz_tx SET status =
TIMEOUT WHERE hash in (args)`. The hashes are compared as values, which is
what the statement means when every hash stays inside the literal it is
written into, that is, holds no apostrophe; the hashes a broadcast row is
stored with are base58 strings. -/
def updateTimeout (s : Store) (args : List String) : Store :=
  { s with
    rows := s.rows.map (fun r => if args.contains r.Hash then { r with Status := .TIMEOUT } else r) }

/-- The loop of `GarbageCollectBroadcasts`. Each round computes `max`, the size
of the next batch, builds `args` by ranging over `broadcastHashes` (the whole
remaining list), runs the update and drops the first `max` hashes. The second
component collects, statement by statement, the hashes each `UPDATE` names.
`fuel` bounds the number of rounds; `none` is an exhausted bound. -/
def gcBroadcastsLoop : Nat → List String → Store × List (List String) →
    Option (Store × List (List String))
  | 0, _, _ => none
  | fuel + 1, broadcastHashes, st =>
    if broadcastHashes.length = 0 then some st
    else
      let max := if 100 > broadcastHashes.length then broadcastHashes.length else 100
      let args := broadcastHashes
      gcBroadcastsLoop fuel (broadcastHashes.drop max) (updateTimeout st.1 args, st.2 ++ [args])

/-- The method `TransactionStorage.GarbageCollectBroadcasts`: the table it
leaves and the hashes named by each statement it ran. -/
def GarbageCollectBroadcasts (fuel : Nat) (s : Store) (broadcastHashes : List String) :
    Option (Store × List (List String)) :=
  gcBroadcastsLoop fuel broadcastHashes (s, [])

/-- The `WHERE` clause of `getTransactionIDsForBlock`: `block_number = $1`. -/
def blockWhere (blockNumber : Nat) (r : transaction) : Bool :=
  r.BlockNumber == some (blockNumber : Int)

/-- The method `TransactionStorage.getTransactionIDsForBlock`. -/
def getTransactionIDsForBlock (s : Store) (limit blockNumber : Nat) : List Nat :=
  ((s.rows.filter (blockWhere blockNumber)).take limit).map (fun r => r.ID)

/-- The loop of `DeleteBlockTransactions` with the id batch size as an
argument, like `gcLoop`. -/
def deleteBlockLoop (limit blockNumber : Nat) : Nat → Store → Option Store
  | 0, _ => none
  | fuel + 1, s =>
    let ids := getTransactionIDsForBlock s limit blockNumber
    if ids.length = 0 then some s
    else
      deleteBlockLoop limit blockNumber fuel
        (poolDo deleteTransactionIDs (fun a b => (ids.take b).drop a) ids.length 100 s)

/-- The method `TransactionStorage.DeleteBlockTransactions`, which selects ids
50000 at a time. -/
def DeleteBlockTransactions (fuel : Nat) (s : Store) (blockNumber : Nat) : Option Store :=
  deleteBlockLoop 50000 blockNumber fuel s

/-- A value stays inside the string literal it is written into when it holds
no apostrophe, the character that closes the literal, and no NUL character. -/
def staysInLiteral (value : String) : Bool :=
  value.toList.all (fun c => c != Char.ofNat 39 && c != Char.ofNat 0)

/-- The text `MarkPinned` appends to `query` for one address: the address is
written between two apostrophes as it is, twice. -/
def pinStatements (address : String) : String :=
  "UPDATE xtz_tx SET pinned = true WHERE addr_from = \x27" ++ address ++
    "\x27 AND pinned = false;\n" ++
  "UPDATE xtz_tx SET pinned = true WHERE addr_to = \x27" ++ address ++
    "\x27 AND pinned = false;\n"

/-- The `query` of one round of `MarkPinned`: the text of every address of the
round, in order. -/
def pinQuery (addresses : List String) : String :=
  addresses.foldl (fun query address => query ++ pinStatements address) ""

/-- What the two statements of `pinStatements` mean for an address that stays
inside its literals: `UPDATE xtz_tx SET pinned = true WHERE addr_from = 'a'
AND pinned = false` and the same for `addr_to`. -/
def pinAddress (s : Store) (address : String) : Store :=
  let s1 : Store :=
    { s with
      rows := s.rows.map (fun r =>
        if r.SourceAddress == some address && r.Pinned == false then { r with Pinned := true }
        else r) }
  { s1 with
    rows := s1.rows.map (fun r =>
      if r.DestinationAddress == some address && r.Pinned == false then { r with Pinned := true }
      else r) }

/-- The call `s.db.ExecContext(ctx, query)` of one round of `MarkPinned`. When
every address of the round stays inside its literals the text is the list of
the statements of `pinAddress` and the database runs them in order. Otherwise
the text is not that list: an apostrophe of an address closes a literal and
what follows it is read as part of the statement; the answer to such a text,
an error or another table, is that of the database `db`. -/
def execPinQuery (db : String → Store → Except String Store) (s : Store)
    (addresses : List String) : Except String Store :=
  if addresses.all staysInLiteral then .ok (addresses.foldl pinAddress s)
  else db (pinQuery addresses) s

/-- The rounds of the loop of `MarkPinned`: round `k` takes `i = 1000 * k` and
runs the query of `addresses[i : min(i + 1000, len)]`; the first round that
fails ends the loop with the wrapped error, the rounds before it having
changed the table. -/
def markPinnedRounds (db : String → Store → Except String Store) (addresses : List String) :
    List Nat → Store → Option String × Store
  | [], s => (none, s)
  | k :: ks, s =>
    match execPinQuery db s
        ((addresses.take (min (k * 1000 + 1000) addresses.length)).drop (k * 1000)) with
    | .error err => (some ("failed to batch mark pinned: " ++ err), s)
    | .ok s1 => markPinnedRounds db addresses ks s1

/-- The method `TransactionStorage.MarkPinned`: the error it returns, if any,
and the table it leaves. `db` is the database behind `s.db`, asked only for a
text in which an address does not stay inside its literals. -/
def MarkPinned (db : String → Store → Except String Store) (s : Store)
    (addresses : List String) : Option String × Store :=
  markPinnedRounds db addresses (List.range ((addresses.length + 1000 - 1) / 1000)) s

/-- The constraint `UNIQUE (hash, idx)` of the migration. -/
def Store.KeysUnique (s : Store) : Prop :=
  (s.rows.map (fun r => (r.Hash, r.Index))).Nodup

/-- The constraint `id UUID PRIMARY KEY` of the migration. -/
def Store.IdsUnique (s : Store) : Prop :=
  (s.rows.map (fun r => r.ID)).Nodup

/-- Only `Broadcast` sets `broadcasted`, and it writes `idx = 0`: every
broadcasted row has index 0. -/
def Store.BroadcastAtIndexZero (s : Store) : Prop :=
  ∀ r ∈ s.rows, r.Broadcasted = true → r.Index = 0

end cockroach

namespace client

/-- The two kinds of error `BroadcastTransaction` returns: a
`*ErrBroadcastRetryable` carrying its message, or the error of the node as it
came. -/
inductive BroadcastError where
  | ErrBroadcastRetryable (msg : String)
  | nodeError (msg : String)
  deriving DecidableEq, Repr

/-- The method `Error()` of the returned error. -/
def BroadcastError.Error : BroadcastError → String
  | .ErrBroadcastRetryable msg => msg
  | .nodeError msg => msg

/-- The first list starts with the second one. -/
def startsWith : List Char → List Char → Bool
  | _, [] => true
  | [], _ :: _ => false
  | a :: s, b :: t => a == b && startsWith s t

/-- The second list occurs in the first one as a contiguous block. -/
def containsChars : List Char → List Char → Bool
  | [], substr => startsWith [] substr
  | a :: s, substr => startsWith (a :: s) substr || containsChars s substr

/-- The library function `strings.Contains`. -/
def stringsContains (s substr : String) : Bool :=
  containsChars s.toList substr.toList

/-- The variable `retryableErrorsMessages` of `client.go`. -/
def retryableErrorsMessages : List String :=
  ["Client.Timeout exceeded while awaiting headers"]

/-- The loop of `BroadcastTransaction` over the retryable messages, for a node
error with text `err`. -/
def classify (err : String) : List String → BroadcastError
  | [] => .nodeError err
  | msg :: rest =>
    if stringsContains err msg then .ErrBroadcastRetryable ("temporary failure: " ++ err)
    else classify err rest

/-- The method `Client.BroadcastTransaction`. `InjectionOperation` is the call
to the node: it answers a raw transaction with nil or with an error text. -/
def BroadcastTransaction (InjectionOperation : String → Option String)
    (rawTransaction : String) : Option BroadcastError :=
  match InjectionOperation rawTransaction with
  | some err => some (classify err retryableErrorsMessages)
  | none => none

end client

namespace job

open common_model cockroach

/-- The constant `currency` of `broadcaster.go`. -/
def currency : String := "XTZ"

/-- The struct `common_model.BroadcastTrail` as the worker fills it. -/
structure BroadcastTrail where
  Currency : String
  Action : String
  TransactionHash : String
  BroadcastStatus : String
  Date : Int
  deriving DecidableEq, Repr

/-- The fields of `Broadcaster` that decide the selection. -/
structure Broadcaster where
  BroadcastBlockInterval : Nat
  BatchSize : Nat
  deriving DecidableEq, Repr

/-- What a tick of the broadcaster writes to: the table `xtz_tx` and the
append-only broadcast trail. -/
structure State where
  store : Store
  trails : List BroadcastTrail
  deriving DecidableEq, Repr

/-- The status the worker derives from the status it read and the result of
the submit (lines 89 to 113 of `broadcaster.go`). -/
def workerStatus (transaction : model.Transaction) : Option client.BroadcastError → Status
  | none => .PENDING
  | some err =>
    if ToStatus transaction.Status = .NEW then
      match err with
      | .ErrBroadcastRetryable _ => .FAILURE
      | .nodeError _ => .INVALID
    else .FAILURE

/-- The message the worker derives from the result of the submit. -/
def workerMessage (transaction : model.Transaction) : Option client.BroadcastError → String
  | none => ""
  | some err => "could not send transaction \"" ++ transaction.Hash ++ "\": " ++ err.Error

/-- The closure `worker` of `Broadcaster.Do`, run on one selected transaction
at tip `blockNumber`. An error of the trail insert is only logged. -/
def worker (InjectionOperation : String → Option String) (now : Int) (blockNumber : Nat)
    (st : State) (transaction : model.Transaction) : State :=
  match transaction.RawTransaction with
  | none =>
    { st with
      store := UpdateBroadcast st.store transaction.Hash (FromStatus .INVALID)
        "raw transaction is nil" blockNumber }
  | some rawTransaction =>
    let err := client.BroadcastTransaction InjectionOperation rawTransaction
    let status := workerStatus transaction err
    let message := workerMessage transaction err
    { store := UpdateBroadcast st.store transaction.Hash (FromStatus status) message blockNumber
      trails := st.trails ++
        [{ Currency := currency
           Action := "broadcast"
           TransactionHash := transaction.Hash
           BroadcastStatus := status.String
           Date := now }] }

/-- The method `Broadcaster.Do`: one tick. `GetHeight` is the answer of the
node for its tip. The pool hands every selected transaction to the worker once;
the workers are run here one after the other in the order of the selection. -/
def Do (j : Broadcaster) (GetHeight : Except String Nat)
    (InjectionOperation : String → Option String) (now : Int) (st : State) : State :=
  match GetHeight with
  | .error _ => st
  | .ok blockNumber =>
    if j.BroadcastBlockInterval > blockNumber then st
    else
      let pendingTransactions :=
        GetPendingBroadcasts st.store (blockNumber - j.BroadcastBlockInterval) j.BatchSize
      if pendingTransactions.length = 0 then st
      else pendingTransactions.foldl (worker InjectionOperation now blockNumber) st

/-- The inputs of one tick: the configuration and what the node and the clock
answer during it. -/
structure Tick where
  j : Broadcaster
  GetHeight : Except String Nat
  InjectionOperation : String → Option String
  now : Int

/-- A sequence of ticks, one after the other. -/
def runTicks (ticks : List Tick) (st : State) : State :=
  ticks.foldl (fun s t => Do t.j t.GetHeight t.InjectionOperation t.now s) st

/-- The status transition table of the broadcaster as the specification
writes it, row by row; a prior status outside the table has no entry. -/
def specTransition : Status → Option client.BroadcastError → Option Status
  | .NEW, none => some .PENDING
  | .NEW, some (.ErrBroadcastRetryable _) => some .FAILURE
  | .NEW, some (.nodeError _) => some .INVALID
  | .PENDING, none => some .PENDING
  | .FAILURE, none => some .PENDING
  | .PENDING, some _ => some .FAILURE
  | .FAILURE, some _ => some .FAILURE
  | _, _ => none

end job

namespace common_model

/-- Modelled from the spec: the struct `common_model.Block` (package
`pkg/common/model` is not under src/), with the four fields
`Client.GetBlock` fills. -/
structure Block where
  Number : Nat
  Hash : Option String
  PreviousHash : Option String
  Timestamp : Option Int
  deriving DecidableEq, Repr

end common_model

namespace service

open common_model

/-- Modelled from the spec: `BlockStore.GetLastBlock` (the block store of
`pkg/common/store/cockroach` is not under src/): the marker with the greatest
block number; `none` is `ErrNoBlock`, the answer of an empty table. -/
def BlockStore.GetLastBlock (blocks : List Block) : Option Block :=
  blocks.foldl
    (fun acc b =>
      match acc with
      | none => some b
      | some a => if a.Number < b.Number then some b else some a)
    none

/-- Modelled from the spec: `BlockStore.GetBlock`: the marker stored under a
block number; `none` is the error for a number without marker. -/
def BlockStore.GetBlock (blocks : List Block) (blockNumber : Nat) : Option Block :=
  blocks.find? (fun b => b.Number == blockNumber)

/-- Modelled from the spec: `BlockStore.CreateBlock`: one marker per block
number (`block_number` is the primary key); a second marker for a number is
refused. -/
def BlockStore.CreateBlock (blocks : List Block) (block : Block) : Except String (List Block) :=
  if blocks.any (fun b => b.Number == block.Number) then .error "duplicate block number"
  else .ok (blocks ++ [block])

/-- Modelled from the spec: `BlockStore.DeleteBlocks`: the markers of the
given block numbers are removed. -/
def BlockStore.DeleteBlocks (blocks : List Block) (blockNumbers : List Nat) : List Block :=
  blocks.filter (fun b => !blockNumbers.contains b.Number)

end service

namespace job

open common_model cockroach service

/-- The number of values of a `uint64`. -/
def two64 : Nat := 18446744073709551616

/-- Subtraction of `uint64` values: it wraps around below zero. -/
def subU64 (a b : Nat) : Nat := (a + two64 - b % two64) % two64

/-- Addition of `uint64` values: it wraps around at `2^64`. -/
def addU64 (a b : Nat) : Nat := (a + b) % two64

/-- The configuration fields of `BlockFetcher`. -/
structure BlockFetcher where
  BatchSize : Nat
  ParallelBatch : Nat
  MaxOffset : Nat
  StartBlock : Nat
  deriving DecidableEq, Repr

/-- What the node answers during one tick of the indexer, and the reading of
the clock. -/
structure Node where
  GetHeight : Except String Nat
  GetBlock : Nat → Except String Block
  GetTransactions : Nat → Except String (List model.Transaction)
  now : Int

/-- Which calls to the stores fail during one tick, for a reason of their own
(a lost connection); a failing call leaves its store as it was. -/
structure Faults where
  GetLastBlock : Bool
  GetBlock : Nat → Bool
  DeleteBlockTransactions : Nat → Bool
  DeleteBlocks : List Nat → Bool
  CreateBlock : Nat → Bool
  MetricPut : Nat → Bool

/-- No store call fails. -/
def Faults.none : Faults :=
  { GetLastBlock := false
    GetBlock := fun _ => false
    DeleteBlockTransactions := fun _ => false
    DeleteBlocks := fun _ => false
    CreateBlock := fun _ => false
    MetricPut := fun _ => false }

/-- The calls of a tick that reach the node for a block or write to a store,
in the order they are made. -/
inductive Event where
  | fetchBlock (blockNumber : Nat)
  | fetchTransactions (blockNumber : Nat)
  | createTransactions (txs : List model.Transaction) (ok : Bool)
  | createBlock (blockNumber : Nat)
  | deleteBlockTransactions (blockNumber : Nat)
  | deleteBlocks (blockNumbers : List Nat)
  deriving DecidableEq, Repr

/-- What the indexer writes to: the table `xtz_tx`, the block markers, and the
record of its calls. -/
structure IndexerState where
  transactions : Store
  blocks : List Block
  trace : List Event
  deriving DecidableEq, Repr

/-- The loop over `j` of `storeTransactions` for the window `[min, max)`:
with `n` rounds left at index `j`, the slices handed to the goroutines. -/
def windowSlices (BatchSize : Nat) (batch : List model.Transaction) (min max : Nat) :
    Nat → Nat → List (List model.Transaction)
  | 0, _ => []
  | n + 1, j =>
    let minBatch := min + BatchSize * j
    let maxBatch :=
      if min + BatchSize * (j + 1) > max then max else min + BatchSize * (j + 1)
    if minBatch > max then []
    else (batch.take maxBatch).drop minBatch :: windowSlices BatchSize batch min max n (j + 1)

/-- The goroutines of one window: every slice is handed to
`CreateTransactions`; the errors are aggregated as they come in (`aggr`). The
goroutines are run here one after the other in the order they were
launched. -/
def insertBatches (IsBase64Alphabet : String → Bool) (now : Int) :
    List (List model.Transaction) → IndexerState → Option String →
      IndexerState × Option String
  | [], st, aggr => (st, aggr)
  | txs :: rest, st, aggr =>
    match CreateTransactions IsBase64Alphabet now st.transactions (txs.map some) with
    | .ok s' =>
      insertBatches IsBase64Alphabet now rest
        { st with transactions := s', trace := st.trace ++ [.createTransactions txs true] } aggr
    | .error e =>
      insertBatches IsBase64Alphabet now rest
        { st with trace := st.trace ++ [.createTransactions txs false] }
        (some (match aggr with
          | none => e
          | some a => e ++ ": " ++ a))

/-- The loop over the windows of `storeTransactions`, at index `i`. `fuel`
bounds the number of windows; `none` is an exhausted bound. -/
def storeLoop (bf : BlockFetcher) (IsBase64Alphabet : String → Bool) (now : Int)
    (batch : List model.Transaction) :
    Nat → Nat → IndexerState → Option (Option String × IndexerState)
  | 0, _, _ => none
  | fuel + 1, i, st =>
    if i < batch.length then
      let max :=
        if i + bf.BatchSize * bf.ParallelBatch > batch.length then batch.length
        else i + bf.BatchSize * bf.ParallelBatch
      let res := insertBatches IsBase64Alphabet now
        (windowSlices bf.BatchSize batch i max bf.ParallelBatch 0) st none
      match res.2 with
      | some e => some (some e, res.1)
      | none =>
        storeLoop bf IsBase64Alphabet now batch fuel (i + bf.BatchSize * bf.ParallelBatch) res.1
    else some (none, st)

/-- The method `BlockFetcher.storeTransactions`: the error it returns, if
any, and the state it leaves. -/
def BlockFetcher.storeTransactions (bf : BlockFetcher) (IsBase64Alphabet : String → Bool)
    (now : Int) (fuel : Nat) (batch : List model.Transaction) (st : IndexerState) :
    Option (Option String × IndexerState) :=
  storeLoop bf IsBase64Alphabet now batch fuel 0 st

/-- The index pairs `(minBatch, maxBatch)` of the slice expressions
`batch[minBatch:maxBatch]` that the inner loop of `storeTransactions` evaluates
in one window, from round `j` on, with at most `n` rounds left. -/
def windowBounds (BatchSize : Nat) (min max : Nat) : Nat → Nat → List (Nat × Nat)
  | 0, _ => []
  | n + 1, j =>
    let minBatch := min + BatchSize * j
    let maxBatch :=
      if min + BatchSize * (j + 1) > max then max else min + BatchSize * (j + 1)
    if minBatch > max then []
    else (minBatch, maxBatch) :: windowBounds BatchSize min max n (j + 1)

/-- The index pairs of all windows of `storeTransactions` on a batch of
`len` transfers, from index `i` on, when no window ends with an error. `fuel`
bounds the number of windows. -/
def storeWindows (bf : BlockFetcher) (len : Nat) : Nat → Nat → List (List (Nat × Nat))
  | 0, _ => []
  | fuel + 1, i =>
    if i < len then
      let max :=
        if i + bf.BatchSize * bf.ParallelBatch > len then len
        else i + bf.BatchSize * bf.ParallelBatch
      windowBounds bf.BatchSize i max bf.ParallelBatch 0 ::
        storeWindows bf len fuel (i + bf.BatchSize * bf.ParallelBatch)
    else []

/-- How the loop of `reorgs` ended: by one of its `return false, 0`
(`aborted`) or by `break`, with the values of its variables. -/
structure Walk where
  aborted : Bool
  blockNumber : Nat
  previousBlock : Nat
  blocksToDelete : List Nat
  st : IndexerState
  deriving DecidableEq, Repr

/-- The loop of `BlockFetcher.reorgs`. `n` bounds the number of rounds and
`fuel` the rounds of each `DeleteBlockTransactions`; `none` is an exhausted
bound. -/
def reorgsLoop (node : Node) (faults : Faults) (fuel : Nat) :
    Nat → Nat → Nat → List Nat → IndexerState → Option Walk
  | 0, _, _, _, _ => none
  | n + 1, blockNumber, previousBlock, blocksToDelete, st =>
    let abort : Option Walk := some
      { aborted := true, blockNumber := blockNumber, previousBlock := previousBlock
        blocksToDelete := blocksToDelete, st := st }
    if faults.GetBlock previousBlock then abort
    else
      match BlockStore.GetBlock st.blocks previousBlock with
      | none => abort
      | some previousStoredBlock =>
        match node.GetBlock blockNumber with
        | .error _ => abort
        | .ok block =>
          match previousStoredBlock.Hash with
          | none => abort
          | some storedHash =>
            match block.PreviousHash with
            | none => abort
            | some previousHash =>
              if storedHash = previousHash then
                some
                  { aborted := false, blockNumber := blockNumber, previousBlock := previousBlock
                    blocksToDelete := blocksToDelete, st := st }
              else if faults.DeleteBlockTransactions previousBlock then abort
              else
                match DeleteBlockTransactions fuel st.transactions previousBlock with
                | none => none
                | some s' =>
                  reorgsLoop node faults fuel n (subU64 blockNumber 1) (subU64 previousBlock 1)
                    (blocksToDelete ++ [previousBlock])
                    { st with
                      transactions := s'
                      trace := st.trace ++ [.deleteBlockTransactions previousBlock] }

/-- The method `BlockFetcher.reorgs`: its two results and the state it
leaves. -/
def BlockFetcher.reorgs (node : Node) (faults : Faults) (fuel : Nat) (processedBlock : Nat)
    (st : IndexerState) : Option (Bool × Nat × IndexerState) :=
  match reorgsLoop node faults fuel fuel processedBlock (subU64 processedBlock 1) [] st with
  | none => none
  | some w =>
    if w.aborted then some (false, 0, w.st)
    else if w.blockNumber = processedBlock then some (false, 0, w.st)
    else if faults.DeleteBlocks w.blocksToDelete then some (false, 0, w.st)
    else
      some (true, w.previousBlock,
        { w.st with
          blocks := BlockStore.DeleteBlocks w.st.blocks w.blocksToDelete
          trace := w.st.trace ++ [.deleteBlocks w.blocksToDelete] })

/-- How the body of the loop of `BlockFetcher.Do` ended for one block: by a
`return` with an error, by the `continue` of a reorg, or at its end. -/
inductive Step where
  | failed (err : String) (st : IndexerState)
  | rewound (reorgsFromBlockNumber : Nat) (st : IndexerState)
  | indexed (st : IndexerState)
  deriving DecidableEq, Repr

/-- The body of the loop of `BlockFetcher.Do` for `processedBlock`. -/
def BlockFetcher.indexBlock (bf : BlockFetcher) (IsBase64Alphabet : String → Bool)
    (node : Node) (faults : Faults) (fuel : Nat) (processedBlock : Nat) (st : IndexerState) :
    Option Step :=
  let st1 : IndexerState := { st with trace := st.trace ++ [.fetchBlock processedBlock] }
  match node.GetBlock processedBlock with
  | .error e => some (.failed e st1)
  | .ok block =>
    match BlockFetcher.reorgs node faults fuel processedBlock st1 with
    | none => none
    | some (true, reorgsFromBlockNumber, st2) => some (.rewound reorgsFromBlockNumber st2)
    | some (false, _, st2) =>
      let st3 : IndexerState :=
        { st2 with trace := st2.trace ++ [.fetchTransactions processedBlock] }
      match node.GetTransactions processedBlock with
      | .error e => some (.failed e st3)
      | .ok transactions =>
        match bf.storeTransactions IsBase64Alphabet node.now fuel transactions st3 with
        | none => none
        | some (some e, st4) => some (.failed e st4)
        | some (none, st4) =>
          if faults.CreateBlock processedBlock then some (.failed "could not create block" st4)
          else
            match BlockStore.CreateBlock st4.blocks block with
            | .error e => some (.failed e st4)
            | .ok blocks =>
              let st5 : IndexerState :=
                { st4 with blocks := blocks, trace := st4.trace ++ [.createBlock processedBlock] }
              if faults.MetricPut processedBlock then some (.failed "could not store metric" st5)
              else some (.indexed st5)

/-- The loop of `BlockFetcher.Do` from `processedBlock` up to `headBlock`.
`n` bounds the number of rounds; `none` is an exhausted bound. -/
def doLoop (bf : BlockFetcher) (IsBase64Alphabet : String → Bool) (node : Node)
    (faults : Faults) (fuel : Nat) :
    Nat → Nat → Nat → IndexerState → Option (Option String × IndexerState)
  | 0, _, _, _ => none
  | n + 1, processedBlock, headBlock, st =>
    if processedBlock ≤ headBlock then
      match bf.indexBlock IsBase64Alphabet node faults fuel processedBlock st with
      | none => none
      | some (.failed e st') => some (some e, st')
      | some (.rewound reorgsFromBlockNumber st') =>
        doLoop bf IsBase64Alphabet node faults fuel n (addU64 reorgsFromBlockNumber 1) headBlock st'
      | some (.indexed st') =>
        doLoop bf IsBase64Alphabet node faults fuel n (addU64 processedBlock 1) headBlock st'
    else some (none, st)

/-- The method `BlockFetcher.Do`: one tick of the indexer; the error it
returns, if any, and the state it leaves. `fuel` bounds every loop of the
tick. -/
def BlockFetcher.Do (bf : BlockFetcher) (IsBase64Alphabet : String → Bool) (node : Node)
    (faults : Faults) (fuel : Nat) (st : IndexerState) : Option (Option String × IndexerState) :=
  match node.GetHeight with
  | .error e => some (some e, st)
  | .ok height =>
    let headBlock := subU64 height bf.MaxOffset
    if faults.GetLastBlock then some (some "could not get next block", st)
    else
      let nextBlock :=
        match BlockStore.GetLastBlock st.blocks with
        | none => bf.StartBlock
        | some currentBlock => addU64 currentBlock.Number 1
      doLoop bf IsBase64Alphabet node faults fuel fuel nextBlock headBlock st

/-- The state a step of the loop leaves. -/
def Step.st : Step → IndexerState
  | .failed _ st => st
  | .rewound _ st => st
  | .indexed st => st

/-- The transfers of the batches that `CreateTransactions` stored, in the
order of the calls. -/
def insertedTransfers : List Event → List model.Transaction
  | [] => []
  | .createTransactions txs true :: rest => txs ++ insertedTransfers rest
  | _ :: rest => insertedTransfers rest

/-- A batch insert of the trace returned an error. -/
def hasFailedBatch : List Event → Bool
  | [] => false
  | .createTransactions _ false :: _ => true
  | _ :: rest => hasFailedBatch rest

/-- The block numbers of the markers written, in the order of the calls. -/
def createdBlocks : List Event → List Nat
  | [] => []
  | .createBlock n :: rest => n :: createdBlocks rest
  | _ :: rest => createdBlocks rest

/-- A sequence of ticks of the indexer, one after the other, each with the
answers of the node at its time; the error a tick returns is dropped, as the
scheduler does. `none` is an exhausted bound. -/
def runIndexer (bf : BlockFetcher) (IsBase64Alphabet : String → Bool) (faults : Faults)
    (fuel : Nat) : List Node → IndexerState → Option IndexerState
  | [], st => some st
  | node :: rest, st =>
    match bf.Do IsBase64Alphabet node faults fuel st with
    | none => none
    | some res => runIndexer bf IsBase64Alphabet faults fuel rest res.2

end job

namespace client

open common_model

/-- The fields of `gotezos.Contents` that `GetTransactions` reads; `Amount`,
`Counter` and `Fee` are the `Big` pointers of the three numbers. -/
structure Contents where
  Kind : String
  Source : String
  Destination : String
  Amount : Option Int
  Counter : Option Int
  Fee : Option Int
  deriving DecidableEq, Repr

/-- The fields of `gotezos.Operations` that `GetTransactions` reads. -/
structure Operations where
  Hash : String
  Contents : List Contents
  deriving DecidableEq, Repr

/-- The fields of `gotezos.Block` that `GetTransactions` reads: the timestamp of
the header and the operations, a list of lists. -/
structure Block where
  Timestamp : Int
  Operations : List (List Operations)
  deriving DecidableEq, Repr

/-- The conversion `int(blockNumber)` of a `uint64` to the 64-bit `int`. -/
def toInt (blockNumber : Nat) : Int :=
  if blockNumber % 18446744073709551616 < 9223372036854775808 then
    (blockNumber % 18446744073709551616 : Nat)
  else (blockNumber % 18446744073709551616 : Nat) - 18446744073709551616

/-- The body of `for _, content := range operation.Contents` in
`GetTransactions`, on the map `transactionIndex` and the slice `transactions`.
`content` is one variable for all iterations of the loop over the contents of
one operation (the loop semantics of Go before 1.22, for which this code was
written), so `&content.Source` and `&content.Destination` are the same two
pointers in every transfer of the operation; when the function returns they
point to the strings of the content assigned last, the last content of the
operation. `content.Amount.Big`, `content.Counter.Big` and `content.Fee.Big`
are pointer values copied at the time, and `ts` is a fresh variable of each
iteration. The counter of the map is a `uint64`; a block holds fewer than 2^64
contents, so the increment does not wrap. -/
def contentStep (blockNumber : Nat) (ts : Int) (operation : Operations)
    (st : (String → Nat) × List model.Transaction) (content : Contents) :
    (String → Nat) × List model.Transaction :=
  if content.Kind = "transaction" then
    (Function.update st.1 operation.Hash (st.1 operation.Hash + 1),
      st.2 ++
        [{ ID := 0
           Hash := operation.Hash
           Index := st.1 operation.Hash
           BlockNumber := some blockNumber
           SourceAddress := operation.Contents.getLast?.map (fun last => last.Source)
           DestinationAddress := operation.Contents.getLast?.map (fun last => last.Destination)
           Amount := content.Amount
           Counter := content.Counter
           Fee := content.Fee
           Timestamp := some ts
           Status := Status.String .SUCCESS
           RawTransaction := none
           Pinned := false
           Broadcasted := false
           Message := none
           CreatedAt := none
           CreatedAtBlockNumber := none
           BroadcastedAtBlock := none }])
  else st

/-- The three nested loops of `GetTransactions` over the operations of a
block. -/
def blockTransfers (blockNumber : Nat) (block : Block) : List model.Transaction :=
  (block.Operations.foldl
    (fun st operations =>
      operations.foldl
        (fun st operation =>
          operation.Contents.foldl (contentStep blockNumber block.Timestamp operation) st)
        st)
    ((fun _ => 0), [])).2

/-- The method `Client.GetTransactions`; `Block` is the answer of the node to
`c.client.Block`. -/
def GetTransactions (Block : Int → Except String Block) (blockNumber : Nat) :
    Except String (List model.Transaction) :=
  match Block (toInt blockNumber) with
  | .error e => .error e
  | .ok block => .ok (blockTransfers blockNumber block)

end client

namespace model

/-- The struct `model.BlockchainInfo`. -/
structure BlockchainInfo where
  Height : Nat
  ConfirmationBlockHash : String
  deriving DecidableEq, Repr

/-- The struct `model.Balance`; the error is its message. -/
structure Balance where
  Address : String
  BalanceAtBlock : Option Int
  BalanceAtTip : Option Int
  Error : Option String
  deriving DecidableEq, Repr

/-- The struct `model.Counter`; the error is its message. -/
structure Counter where
  Address : String
  Counter : Nat
  Error : Option String
  deriving DecidableEq, Repr

/-- The struct `model.Fees`. -/
structure Fees where
  MinimalFees : Option Int
  MinimalNanotezPerGasUnit : Option Int
  MinimalNanotezPerByte : Option Int
  deriving DecidableEq, Repr

end model

namespace service

/-- The struct `AddAddressesReq`. -/
structure AddAddressesReq where
  Network : String
  Addresses : List String
  deriving DecidableEq, Repr

/-- The struct `BroadcastByCustomerReq`; a nil map of attributes is `none`. -/
structure BroadcastByCustomerReq where
  Network : String
  CustomerID : String
  RawTransaction : String
  Attributes : Option (List (String × String))
  deriving DecidableEq, Repr

/-- The struct `GetBlockchainInfoReq`. -/
structure GetBlockchainInfoReq where
  Network : String
  deriving DecidableEq, Repr

/-- The struct `GetEstimatedFeeReq`. -/
structure GetEstimatedFeeReq where
  Network : String
  deriving DecidableEq, Repr

/-- The struct `GetBalancesReq`. -/
structure GetBalancesReq where
  Network : String
  Addresses : List String
  BlockNumber : Nat
  deriving DecidableEq, Repr

/-- The struct `GetCountersReq`. -/
structure GetCountersReq where
  Network : String
  Addresses : List String
  deriving DecidableEq, Repr

/-- The struct `GetTransactionsByHashesByCustomerReq`. -/
structure GetTransactionsByHashesByCustomerReq where
  Network : String
  CustomerID : String
  Hashes : List String
  deriving DecidableEq, Repr

/-- The struct `GetTransactionsByBlocksByCustomerReq`. -/
structure GetTransactionsByBlocksByCustomerReq where
  Network : String
  CustomerID : String
  Addresses : List String
  FromBlock : Nat
  ToBlock : Nat
  Limit : Nat
  Offset : Nat
  deriving DecidableEq, Repr

/-- The struct `GetTransactionsByDatesByCustomerReq`. -/
structure GetTransactionsByDatesByCustomerReq where
  Network : String
  CustomerID : String
  Addresses : List String
  FromDate : Int
  ToDate : Int
  Limit : Nat
  Offset : Nat
  deriving DecidableEq, Repr

/-- The struct `GetTransactionsByAttributesByCustomerReq`. -/
structure GetTransactionsByAttributesByCustomerReq where
  Network : String
  CustomerID : String
  AttributeKey : String
  AttributeValue : String
  deriving DecidableEq, Repr

/-- What a method of the validation middleware hands to `validate.Struct`: the
pointer to the request it received, `none` for a nil pointer. -/
inductive Request where
  | AddAddresses (req : Option AddAddressesReq)
  | Broadcast (req : Option BroadcastByCustomerReq)
  | GetBlockchainInfo (req : Option GetBlockchainInfoReq)
  | GetEstimatedFee (req : Option GetEstimatedFeeReq)
  | GetBalances (req : Option GetBalancesReq)
  | GetCounters (req : Option GetCountersReq)
  | GetTransactionsByHashes (req : Option GetTransactionsByHashesByCustomerReq)
  | GetTransactionsByBlocks (req : Option GetTransactionsByBlocksByCustomerReq)
  | GetTransactionsByDates (req : Option GetTransactionsByDatesByCustomerReq)
  | GetTransactionsByAttributes (req : Option GetTransactionsByAttributesByCustomerReq)
  deriving DecidableEq, Repr

/-- The interface `XTZFronter`. A method is run on the state `σ` of what lies
behind the service (the chain and the stores) and returns its results and the
state it leaves; an `error` is its message, `none` for nil; a nil slice is the
empty list. -/
structure XTZFronter (σ : Type) where
  AddAddresses : Option AddAddressesReq → σ → Option String × σ
  Broadcast : Option BroadcastByCustomerReq → σ → (String × Option String) × σ
  GetBlockchainInfo :
    Option GetBlockchainInfoReq → σ → (Option model.BlockchainInfo × Option String) × σ
  GetEstimatedFee : Option GetEstimatedFeeReq → σ → (Option model.Fees × Option String) × σ
  GetBalances : Option GetBalancesReq → σ → (List model.Balance × Option String) × σ
  GetCounters : Option GetCountersReq → σ → (List model.Counter × Option String) × σ
  GetTransactionsByHashes :
    Option GetTransactionsByHashesByCustomerReq → σ →
      (List model.Transaction × Nat × Option String) × σ
  GetTransactionsByBlocks :
    Option GetTransactionsByBlocksByCustomerReq → σ →
      (List model.Transaction × Nat × Nat × Option String) × σ
  GetTransactionsByDates :
    Option GetTransactionsByDatesByCustomerReq → σ →
      (List model.Transaction × Nat × Nat × Option String) × σ
  GetTransactionsByAttributes :
    Option GetTransactionsByAttributesByCustomerReq → σ →
      (List model.Transaction × Nat × Option String) × σ

end service

namespace middleware

open service

/-- The function `Validation` of `validation.go`: the service `next` behind the
ten methods of the struct `validation`. `validate` is `mw.validate.Struct` of
`go-playground/validator`, which is not under src/: the error it returns for a
request, `none` for nil. -/
def Validation {σ : Type} (validate : Request → Option String) (next : XTZFronter σ) :
    XTZFronter σ :=
  { AddAddresses := fun req s =>
      match validate (.AddAddresses req) with
      | some err => (some err, s)
      | none => next.AddAddresses req s
    Broadcast := fun req s =>
      match validate (.Broadcast req) with
      | some err => (("", some err), s)
      | none => next.Broadcast req s
    GetBlockchainInfo := fun req s =>
      match validate (.GetBlockchainInfo req) with
      | some err => ((none, some err), s)
      | none => next.GetBlockchainInfo req s
    GetEstimatedFee := fun req s =>
      match validate (.GetEstimatedFee req) with
      | some err => ((none, some err), s)
      | none => next.GetEstimatedFee req s
    GetBalances := fun req s =>
      match validate (.GetBalances req) with
      | some err => (([], some err), s)
      | none => next.GetBalances req s
    GetCounters := fun req s =>
      match validate (.GetCounters req) with
      | some err => (([], some err), s)
      | none => next.GetCounters req s
    GetTransactionsByHashes := fun req s =>
      match validate (.GetTransactionsByHashes req) with
      | some err => (([], 0, some err), s)
      | none => next.GetTransactionsByHashes req s
    GetTransactionsByBlocks := fun req s =>
      match validate (.GetTransactionsByBlocks req) with
      | some err => (([], 0, 0, some err), s)
      | none => next.GetTransactionsByBlocks req s
    GetTransactionsByDates := fun req s =>
      match validate (.GetTransactionsByDates req) with
      | some err => (([], 0, 0, some err), s)
      | none => next.GetTransactionsByDates req s
    GetTransactionsByAttributes := fun req s =>
      match validate (.GetTransactionsByAttributes req) with
      | some err => (([], 0, some err), s)
      | none => next.GetTransactionsByAttributes req s }

end middleware

namespace client

/-- The value of a hexadecimal digit, as the table of `encoding/hex` gives it;
`none` for any other character. -/
def fromHexChar (c : Char) : Option Nat :=
  if 48 ≤ c.toNat ∧ c.toNat ≤ 57 then some (c.toNat - 48)
  else if 97 ≤ c.toNat ∧ c.toNat ≤ 102 then some (c.toNat - 97 + 10)
  else if 65 ≤ c.toNat ∧ c.toNat ≤ 70 then some (c.toNat - 65 + 10)
  else none

/-- Modelled from the spec: `hex.DecodeString` of the Go standard library (not
under src/): the bytes written by the pairs of hexadecimal digits of the
string; `none` is its error, returned for a character that is no hexadecimal
digit and for an odd length. -/
def hexDecode : List Char → Option (List Nat)
  | [] => some []
  | [_] => none
  | p :: q :: rest =>
    match fromHexChar p, fromHexChar q with
    | some a, some b =>
      match hexDecode rest with
      | some bytes => some ((a * 16 + b) :: bytes)
      | none => none
    | _, _ => none

/-- The greatest 64-bit word. -/
def mask64 : Nat := 18446744073709551615

/-- Rotation of a 64-bit word to the right. -/
def rotr64 (x n : Nat) : Nat := ((x >>> n) ||| (x <<< (64 - n))) &&& mask64

/-- The initialisation vector of BLAKE2b (RFC 7693, section 2.6). -/
def blake2bIV : List Nat :=
  [0x6a09e667f3bcc908, 0xbb67ae8584caa73b, 0x3c6ef372fe94f82b, 0xa54ff53a5f1d36f1,
   0x510e527fade682d1, 0x9b05688c2b3e6c1f, 0x1f83d9abfb41bd6b, 0x5be0cd19137e2179]

/-- The message word schedule of BLAKE2b (RFC 7693, section 2.7). -/
def blake2bSigma : List (List Nat) :=
  [[0, 1, 2, 3, 4, 5, 6, 7, 8, 9, 10, 11, 12, 13, 14, 15],
   [14, 10, 4, 8, 9, 15, 13, 6, 1, 12, 0, 2, 11, 7, 5, 3],
   [11, 8, 12, 0, 5, 2, 15, 13, 10, 14, 3, 6, 7, 1, 9, 4],
   [7, 9, 3, 1, 13, 12, 11, 14, 2, 6, 5, 10, 4, 0, 15, 8],
   [9, 0, 5, 7, 2, 4, 10, 15, 14, 1, 11, 12, 6, 8, 3, 13],
   [2, 12, 6, 10, 0, 11, 8, 3, 4, 13, 7, 5, 15, 14, 1, 9],
   [12, 5, 1, 15, 14, 13, 4, 10, 0, 7, 6, 3, 9, 2, 8, 11],
   [13, 11, 7, 14, 12, 1, 3, 9, 5, 0, 15, 4, 8, 6, 2, 10],
   [6, 15, 14, 9, 11, 3, 0, 8, 12, 2, 13, 7, 1, 4, 10, 5],
   [10, 2, 8, 4, 7, 6, 1, 5, 15, 11, 9, 14, 3, 12, 13, 0]]

/-- The mixing function `G` of BLAKE2b (RFC 7693, section 3.1) on the work
vector `v`. -/
def blake2bG (v : List Nat) (a b c d x y : Nat) : List Nat :=
  let va := (v.getD a 0 + v.getD b 0 + x) &&& mask64
  let vd := rotr64 (v.getD d 0 ^^^ va) 32
  let vc := (v.getD c 0 + vd) &&& mask64
  let vb := rotr64 (v.getD b 0 ^^^ vc) 24
  let va := (va + vb + y) &&& mask64
  let vd := rotr64 (vd ^^^ va) 16
  let vc := (vc + vd) &&& mask64
  let vb := rotr64 (vb ^^^ vc) 63
  (((v.set a va).set b vb).set c vc).set d vd

/-- One round of the compression function of BLAKE2b: the eight calls of `G`,
with the message words `m` in the order `s`. -/
def blake2bRound (m : List Nat) (v : List Nat) (s : List Nat) : List Nat :=
  let g := fun (v : List Nat) (a b c d i : Nat) =>
    blake2bG v a b c d (m.getD (s.getD (2 * i) 0) 0) (m.getD (s.getD (2 * i + 1) 0) 0)
  let v := g v 0 4 8 12 0
  let v := g v 1 5 9 13 1
  let v := g v 2 6 10 14 2
  let v := g v 3 7 11 15 3
  let v := g v 0 5 10 15 4
  let v := g v 1 6 11 12 5
  let v := g v 2 7 8 13 6
  g v 3 4 9 14 7

/-- The number written by a list of bytes, the least significant first. -/
def leWord : List Nat → Nat
  | [] => 0
  | b :: rest => b + 256 * leWord rest

/-- The first `k` pieces of `n` elements of a list. -/
def chunks (n : Nat) : Nat → List Nat → List (List Nat)
  | 0, _ => []
  | k + 1, l => l.take n :: chunks n k (l.drop n)

/-- The compression function `F` of BLAKE2b (RFC 7693, section 3.2) on the
state `h`, a block of 128 bytes, the byte counter `t` and the flag of the last
block. -/
def blake2bCompress (h : List Nat) (block : List Nat) (t : Nat) (last : Bool) : List Nat :=
  let m := (chunks 8 16 block).map leWord
  let v := h ++ blake2bIV
  let v := v.set 12 (v.getD 12 0 ^^^ (t &&& mask64))
  let v := v.set 13 (v.getD 13 0 ^^^ (t >>> 64))
  let v := if last then v.set 14 (v.getD 14 0 ^^^ mask64) else v
  let v :=
    ((List.range 12).map (fun r => blake2bSigma.getD (r % 10) [])).foldl (blake2bRound m) v
  (List.range 8).map (fun i => h.getD i 0 ^^^ v.getD i 0 ^^^ v.getD (i + 8) 0)

/-- The blocks of the message, compressed one after the other; the last one is
filled up with zero bytes. `fuel` is at least the number of blocks. -/
def blake2bBlocks : Nat → List Nat → Nat → List Nat → List Nat
  | 0, h, _, _ => h
  | fuel + 1, h, t, data =>
    if data.length ≤ 128 then
      blake2bCompress h (data ++ List.replicate (128 - data.length) 0) (t + data.length) true
    else
      blake2bBlocks fuel (blake2bCompress h (data.take 128) (t + 128) false) (t + 128)
        (data.drop 128)

/-- The `n` low bytes of a number, the least significant first. -/
def leBytes : Nat → Nat → List Nat
  | 0, _ => []
  | n + 1, x => x % 256 :: leBytes n (x / 256)

/-- Modelled from the spec: `blake2b.Sum256` of `golang.org/x/crypto` (not
under src/), the BLAKE2b-256 digest the spec names: BLAKE2b of RFC 7693 without
key and with 32 bytes of output. -/
def blake2bSum256 (data : List Nat) : List Nat :=
  let h := blake2bIV.set 0 (blake2bIV.getD 0 0 ^^^ 0x01010020)
  ((blake2bBlocks (data.length / 128 + 1) h 0 data).map (leBytes 8)).flatten.take 32

/-- The greatest 32-bit word. -/
def mask32 : Nat := 4294967295

/-- Rotation of a 32-bit word to the right. -/
def rotr32 (x n : Nat) : Nat := ((x >>> n) ||| (x <<< (32 - n))) &&& mask32

/-- The round constants of SHA-256 (FIPS 180-4, section 4.2.2). -/
def sha256K : List Nat :=
  [0x428a2f98, 0x71374491, 0xb5c0fbcf, 0xe9b5dba5, 0x3956c25b, 0x59f111f1, 0x923f82a4,
   0xab1c5ed5, 0xd807aa98, 0x12835b01, 0x243185be, 0x550c7dc3, 0x72be5d74, 0x80deb1fe,
   0x9bdc06a7, 0xc19bf174, 0xe49b69c1, 0xefbe4786, 0x0fc19dc6, 0x240ca1cc, 0x2de92c6f,
   0x4a7484aa, 0x5cb0a9dc, 0x76f988da, 0x983e5152, 0xa831c66d, 0xb00327c8, 0xbf597fc7,
   0xc6e00bf3, 0xd5a79147, 0x06ca6351, 0x14292967, 0x27b70a85, 0x2e1b2138, 0x4d2c6dfc,
   0x53380d13, 0x650a7354, 0x766a0abb, 0x81c2c92e, 0x92722c85, 0xa2bfe8a1, 0xa81a664b,
   0xc24b8b70, 0xc76c51a3, 0xd192e819, 0xd6990624, 0xf40e3585, 0x106aa070, 0x19a4c116,
   0x1e376c08, 0x2748774c, 0x34b0bcb5, 0x391c0cb3, 0x4ed8aa4a, 0x5b9cca4f, 0x682e6ff3,
   0x748f82ee, 0x78a5636f, 0x84c87814, 0x8cc70208, 0x90befffa, 0xa4506ceb, 0xbef9a3f7,
   0xc67178f2]

/-- The initial hash value of SHA-256 (FIPS 180-4, section 5.3.3). -/
def sha256Init : List Nat :=
  [0x6a09e667, 0xbb67ae85, 0x3c6ef372, 0xa54ff53a, 0x510e527f, 0x9b05688c, 0x1f83d9ab,
   0x5be0cd19]

/-- The number written by a list of bytes, the most significant first. -/
def beWord (l : List Nat) : Nat := l.foldl (fun acc b => acc * 256 + b) 0

/-- The `n` low bytes of a number, the most significant first. -/
def beBytes (n x : Nat) : List Nat := (leBytes n x).reverse

/-- The message schedule of SHA-256: `n` more words after those of `w`. -/
def sha256Schedule : Nat → List Nat → List Nat
  | 0, w => w
  | n + 1, w =>
    let i := w.length
    let w15 := w.getD (i - 15) 0
    let w2 := w.getD (i - 2) 0
    let s0 := rotr32 w15 7 ^^^ rotr32 w15 18 ^^^ (w15 >>> 3)
    let s1 := rotr32 w2 17 ^^^ rotr32 w2 19 ^^^ (w2 >>> 10)
    sha256Schedule n (w ++ [(w.getD (i - 16) 0 + s0 + w.getD (i - 7) 0 + s1) &&& mask32])

/-- One of the 64 steps of the compression function of SHA-256, with its round
constant and its word of the schedule. -/
def sha256Step (s : List Nat) (kw : Nat × Nat) : List Nat :=
  match s with
  | [a, b, c, d, e, f, g, h] =>
    let S1 := rotr32 e 6 ^^^ rotr32 e 11 ^^^ rotr32 e 25
    let ch := (e &&& f) ^^^ ((e ^^^ mask32) &&& g)
    let t1 := (h + S1 + ch + kw.1 + kw.2) &&& mask32
    let S0 := rotr32 a 2 ^^^ rotr32 a 13 ^^^ rotr32 a 22
    let maj := (a &&& b) ^^^ (a &&& c) ^^^ (b &&& c)
    let t2 := (S0 + maj) &&& mask32
    [(t1 + t2) &&& mask32, a, b, c, (d + t1) &&& mask32, e, f, g]
  | _ => s

/-- The compression function of SHA-256 on a block of 64 bytes. -/
def sha256Compress (h : List Nat) (block : List Nat) : List Nat :=
  let w := sha256Schedule 48 ((chunks 4 16 block).map beWord)
  let s := (sha256K.zip w).foldl sha256Step h
  (h.zip s).map (fun p => (p.1 + p.2) &&& mask32)

/-- The padding of SHA-256: the byte `0x80`, zero bytes up to 56 modulo 64 and
the length in bits on 8 bytes. -/
def sha256Pad (data : List Nat) : List Nat :=
  let l := data.length
  data ++ [0x80] ++ List.replicate ((119 - l % 64) % 64) 0 ++ beBytes 8 (8 * l)

/-- Modelled from the spec: `sha256.Sum256` of the Go standard library (not
under src/), SHA-256 of FIPS 180-4, which base58check takes its checksum
from. -/
def sha256Sum (data : List Nat) : List Nat :=
  let padded := sha256Pad data
  (((chunks 64 (padded.length / 64) padded).foldl sha256Compress sha256Init).map
    (beBytes 4)).flatten

/-- The alphabet of base58. -/
def base58Alphabet : List Char :=
  "123456789ABCDEFGHJKLMNPQRSTUVWXYZabcdefghijkmnopqrstuvwxyz".toList

/-- The base58 digits of a number, the most significant first, in front of
`acc`. `fuel` is at least the number of digits. -/
def base58Digits : Nat → Nat → List Char → List Char
  | 0, _, acc => acc
  | fuel + 1, x, acc =>
    if x = 0 then acc else base58Digits fuel (x / 58) (base58Alphabet.getD (x % 58) '1' :: acc)

/-- Modelled from the spec: `base58.Encode` of `btcutil` (not under src/): the
bytes read as one number, written in base 58, after one digit `1` for every
leading zero byte. -/
def base58Encode (b : List Nat) : String :=
  String.mk ((b.takeWhile (fun x => x == 0)).map (fun _ => '1') ++
    base58Digits (2 * b.length) (beWord b) [])

/-- Modelled from the spec: `base58.CheckEncode` of `btcutil` (not under
src/), base58check as the spec names it: the version byte, the payload and the
first four bytes of the double SHA-256 of both, in base58. -/
def base58CheckEncode (input : List Nat) (version : Nat) : String :=
  let b := version :: input
  base58Encode (b ++ (sha256Sum (sha256Sum b)).take 4)

/-- The two bytes `0x05, 0x74` that `client.go` declares right above
`GetRawTransactionHash`. -/
def hashVersion : List Nat := [0x05, 0x74]

/-- The method `Client.GetRawTransactionHash`. -/
def GetRawTransactionHash (rawTransaction : String) : Except String String :=
  match hexDecode rawTransaction.toList with
  | none => .error "encoding/hex: invalid byte or odd length hex string"
  | some data =>
    let sum := blake2bSum256 data
    let hash := [hashVersion.getD 1 0] ++ sum
    .ok (base58CheckEncode hash (hashVersion.getD 0 0))

end client

namespace sample

open common_model cockroach

/-- Modelled from the spec: `helper.IsBase64Alphabet` (package `pkg/helper` is
not under src/), the check of a hash or address against the base58 alphabet.
The store operations take the check as an argument; this instance is used
where an operation is evaluated on a concrete input. -/
def IsBase64Alphabet (s : String) : Bool :=
  s.toList.all (fun c =>
    "123456789ABCDEFGHJKLMNPQRSTUVWXYZabcdefghijkmnopqrstuvwxyz".toList.contains c)

/-- A broadcast-only row that failed once: block_number -1, broadcasted, with
a raw transaction and the message of the failed attempt. -/
def broadcastRow : transaction :=
  { ID := 9, Hash := "op5A", Index := 0, BlockNumber := some (-1),
    SourceAddress := none, DestinationAddress := none,
    Amount := none, Fee := none, Counter := none, Status := .FAILURE,
    RawTransaction := some "dead", Pinned := false, Broadcasted := true,
    Message := some "could not send transaction", Timestamp := some 0,
    CreatedAt := some 5, CreatedAtBlockNumber := some 7, BroadcastedAtBlock := some 9 }

/-- The transfer of `op5A` as the indexer reads it from block 560500. -/
def minedTransfer : model.Transaction :=
  { ID := 0, Hash := "op5A", Index := 0, BlockNumber := some 560500,
    SourceAddress := some "tz1a", DestinationAddress := some "tz1b",
    Amount := some 10, Fee := some 1, Counter := some 3, Status := "success",
    RawTransaction := none, Pinned := false, Broadcasted := false, Message := none,
    Timestamp := some 100, CreatedAt := none, CreatedAtBlockNumber := none,
    BroadcastedAtBlock := none }

/-- The row of `op5A` after its transfer was mined: the mined columns of
`minedTransfer`, every other column as in `broadcastRow`. -/
def upgradedRow : transaction :=
  { broadcastRow with
    BlockNumber := some 560500
    SourceAddress := some "tz1a"
    DestinationAddress := some "tz1b"
    Amount := some 10
    Fee := some 1
    Counter := some 3
    Timestamp := some 100
    Status := .SUCCESS }

/-- A table holding the broadcast-only row alone. -/
def broadcastStore : Store := { rows := [broadcastRow], nextID := 10 }

/-- A mined row of block `block` from `tz1a` to `tz1b`. -/
def minedRow (id : Nat) (hash : String) (idx : Nat) (block : Int) : transaction :=
  { ID := id, Hash := hash, Index := idx, BlockNumber := some block,
    SourceAddress := some "tz1a", DestinationAddress := some "tz1b",
    Amount := some 10, Fee := some 1, Counter := some 3, Status := .SUCCESS,
    RawTransaction := none, Pinned := false, Broadcasted := false, Message := none,
    Timestamp := some (block * 60), CreatedAt := some 5, CreatedAtBlockNumber := none,
    BroadcastedAtBlock := none }

/-- A table where one operation `op5A` holds two transfers of block 5. -/
def batchStore : Store :=
  { rows := [minedRow 1 "op5A" 0 5, minedRow 2 "op5A" 1 5], nextID := 3 }

/-- A table with two old unpinned transfers, a broadcast row, a recent transfer
and an old pinned transfer. -/
def gcStore : Store :=
  { rows := [minedRow 1 "op5A" 0 5, minedRow 2 "op5A" 1 5, broadcastRow,
      minedRow 4 "op5B" 0 50, { minedRow 5 "op5C" 0 7 with Pinned := true }]
    nextID := 10 }

/-- Three calls of the indexer: block 560500 is ingested twice, the second
time together with a second transfer of the same operation. -/
def calls : List (Int × List (Option model.Transaction)) :=
  [(50, [some minedTransfer]),
   (60, [some { minedTransfer with Index := 1 }, some minedTransfer]),
   (70, [])]

/-- The broadcast-only row of `op5A` in status PENDING. -/
def pendingRow : transaction := { broadcastRow with Status := .PENDING }

/-- A table where the pending broadcast of `op5A` (idx 0) stands next to a
mined transfer of the same operation (idx 1). -/
def sharedHashStore : Store :=
  { rows := [pendingRow, minedRow 2 "op5A" 1 5], nextID := 10 }

/-- The 101 distinct hashes `a`, `aa`, `aaa`, ... -/
def manyHashes : List String :=
  (List.range 101).map (fun i => String.mk (List.replicate (i + 1) 'a'))

/-- A broadcast-only row in status NEW, as `Broadcast` inserts it. -/
def newRow : transaction :=
  { ID := 1, Hash := "op5A", Index := 0, BlockNumber := some (-1),
    SourceAddress := none, DestinationAddress := none,
    Amount := none, Fee := none, Counter := none, Status := .NEW,
    RawTransaction := some "dead", Pinned := false, Broadcasted := true,
    Message := none, Timestamp := some 0,
    CreatedAt := some 5, CreatedAtBlockNumber := some 7, BroadcastedAtBlock := some 0 }

/-- A broadcaster state holding the NEW row alone and an empty trail. -/
def newState : job.State := { store := { rows := [newRow], nextID := 2 }, trails := [] }

/-- A broadcaster with interval 10 and batches of 100. -/
def broadcaster : job.Broadcaster := { BroadcastBlockInterval := 10, BatchSize := 100 }

/-- A node that answers every submit with the error text `mempool full`. -/
def mempoolFull : String → Option String := fun _ => some "mempool full"

/-- A node that answers every submit with the error text `bad signature`. -/
def badSignature : String → Option String := fun _ => some "bad signature"

/-- The hash of block `n` on the sample chain: `b` followed by `n` letters. -/
def blockHash (n : Nat) : String := String.mk ('b' :: List.replicate n 'a')

/-- The one transfer of block `n` on the sample chain. -/
def transferOf (n : Nat) : model.Transaction :=
  { minedTransfer with
    Hash := String.mk ('o' :: List.replicate n 'p')
    BlockNumber := some n
    Timestamp := some (60 * n) }

/-- The block `n` of the sample chain as `Client.GetBlock` returns it. -/
def blockOf (n : Nat) : common_model.Block :=
  { Number := n, Hash := some (blockHash n), PreviousHash := some (blockHash (n - 1))
    Timestamp := some (60 * n) }

/-- A node on the sample chain with tip `tip`. -/
def linearNode (tip : Nat) : job.Node :=
  { GetHeight := .ok tip
    GetBlock := fun n => if n ≤ tip then .ok (blockOf n) else .error "block not found"
    GetTransactions := fun n => if n ≤ tip then .ok [transferOf n] else .error "block not found"
    now := 7 }

/-- An indexer with batches of 2, 2 in parallel, confirmation depth 6 and
start block 90. -/
def fetcher : job.BlockFetcher :=
  { BatchSize := 2, ParallelBatch := 2, MaxOffset := 6, StartBlock := 90 }

/-- An indexer state with nothing stored. -/
def emptyIndexer : job.IndexerState :=
  { transactions := Store.empty, blocks := [], trace := [] }

/-- An indexer state after a fork: the markers of 90, 91 and 92 are stored,
those of 91 and 92 with hashes of an abandoned branch, and so is one transfer
of each of these blocks. -/
def forked : job.IndexerState :=
  { transactions :=
      { rows := [minedRow 1 "op5A" 0 90, minedRow 2 "op5B" 0 91, minedRow 3 "op5C" 0 92],
        nextID := 4 }
    blocks := [blockOf 90, { blockOf 91 with Hash := some "x" },
      { blockOf 92 with Hash := some "y" }]
    trace := [] }

/-- A node on the sample chain that reports five transfers for every block,
the third of them without an amount. -/
def badNode : job.Node :=
  { linearNode 100 with
    GetTransactions := fun n =>
      .ok [{ transferOf n with Index := 0 }, { transferOf n with Index := 1 },
        { transferOf n with Index := 2, Amount := none }, { transferOf n with Index := 3 },
        { transferOf n with Index := 4 }] }

/-- The broadcast-only row of `op5A` after the broadcaster gave it up at block
100: status INVALID, with the message of the attempt. -/
def invalidRow : transaction :=
  { broadcastRow with Status := .INVALID, BroadcastedAtBlock := some 100 }

/-- The last row of the table of `TestGarbageCollectTransactions`: not mined
(block_number -1), not pinned, not broadcasted, without raw transaction. -/
def unminedRow : transaction :=
  { ID := 10, Hash := "ootwyMERpZfjAxgVbcBXfnLX5CeFPbKd13nMaP51G963gqkfrm2", Index := 0,
    BlockNumber := some (-1), SourceAddress := none, DestinationAddress := none,
    Amount := some 100, Fee := none, Counter := none, Status := .INVALID,
    RawTransaction := none, Pinned := false, Broadcasted := false, Message := none,
    Timestamp := some 0, CreatedAt := some 5, CreatedAtBlockNumber := none,
    BroadcastedAtBlock := none }

/-- Four rows in the manner of `TestGarbageCollectTransactions`: a transfer of
block 500000, a broadcasted one of block 500004, one of block 500007 and the
row that is not mined. -/
def gcTestStore : Store :=
  { rows := [minedRow 1 "op5A" 0 500000,
      { minedRow 5 "oocN" 0 500004 with Broadcasted := true },
      minedRow 8 "opPZ" 0 500007, unminedRow]
    nextID := 11 }

/-- A broadcaster state whose one row was broadcast without a raw
transaction. -/
def noRawState : job.State :=
  { store := { rows := [{ newRow with RawTransaction := none }], nextID := 2 }, trails := [] }

/-- A node that accepts every submit. -/
def accepting : String → Option String := fun _ => none

/-- An address with a character outside the alphabet and no apostrophe. -/
def strayAddress : String := "tz1!"

/-- A hash with a character outside the alphabet and no apostrophe. -/
def strayHash : String := "op5!"

/-- A table with a transfer from `strayAddress` and a pending broadcast of
`strayHash`. -/
def strayStore : Store :=
  { rows := [{ minedRow 1 "op5A" 0 5 with SourceAddress := some strayAddress },
      { pendingRow with ID := 2, Hash := strayHash }]
    nextID := 3 }

/-- An address that ends with an apostrophe. -/
def quotedAddress : String := "tz1\x27"

/-- An address whose first apostrophe closes the literal and whose rest reads
as a condition of its own. -/
def injectedAddress : String := "zz\x27 OR \x27a\x27=\x27a"

/-- Three transfers between the addresses `tz1A`, `tz1B` and `tz1C`, none of
them pinned. -/
def addressStore : Store :=
  { rows := [{ minedRow 1 "op5A" 0 5 with
        SourceAddress := some "tz1A", DestinationAddress := some "tz1B" },
      { minedRow 2 "op5B" 0 6 with
        SourceAddress := some "tz1B", DestinationAddress := some "tz1C" },
      { minedRow 3 "op5C" 0 7 with
        SourceAddress := some "tz1C", DestinationAddress := none }]
    nextID := 4 }

/-- The tokens of a statement text. -/
inductive Token where
  | word (w : String)
  | text (v : String)
  | equal
  | semicolon
  deriving DecidableEq, Repr

/-- Where the reading of a statement text stands: between tokens, inside a
word, inside a string literal, or after an apostrophe read inside a literal,
which closes the literal unless a second apostrophe follows. -/
inductive LexMode where
  | outside
  | word (acc : List Char)
  | text (acc : List Char)
  | closing (acc : List Char)

/-- One character read between two tokens. -/
def lexOutside (c : Char) (out : List Token) : Option (LexMode × List Token) :=
  if c = Char.ofNat 39 then some (.text [], out)
  else if c = '=' then some (.outside, .equal :: out)
  else if c = ';' then some (.outside, .semicolon :: out)
  else if c = ' ' || c = '\n' then some (.outside, out)
  else if c.isAlphanum || c = '_' then some (.word [c], out)
  else none

/-- The tokens of a text, or `none` when a character belongs to no token or a
string literal is not closed. -/
def lexChars : List Char → LexMode → List Token → Option (List Token)
  | [], .outside, out => some out.reverse
  | [], .word acc, out => some (Token.word (String.mk acc.reverse) :: out).reverse
  | [], .text _, _ => none
  | [], .closing acc, out => some (Token.text (String.mk acc.reverse) :: out).reverse
  | c :: cs, .outside, out =>
    match lexOutside c out with
    | none => none
    | some (mode, out1) => lexChars cs mode out1
  | c :: cs, .word acc, out =>
    if c.isAlphanum || c = '_' then lexChars cs (.word (c :: acc)) out
    else
      match lexOutside c (Token.word (String.mk acc.reverse) :: out) with
      | none => none
      | some (mode, out1) => lexChars cs mode out1
  | c :: cs, .text acc, out =>
    if c = Char.ofNat 39 then lexChars cs (.closing acc) out
    else lexChars cs (.text (c :: acc)) out
  | c :: cs, .closing acc, out =>
    if c = Char.ofNat 39 then lexChars cs (.text (c :: acc)) out
    else
      match lexOutside c (Token.text (String.mk acc.reverse) :: out) with
      | none => none
      | some (mode, out1) => lexChars cs mode out1

/-- The groups of tokens between the occurrences of `sep`. -/
def splitOnToken (sep : Token) : List Token → List (List Token)
  | [] => [[]]
  | t :: ts =>
    if t = sep then [] :: splitOnToken sep ts
    else
      match splitOnToken sep ts with
      | [] => [[t]]
      | g :: gs => (t :: g) :: gs

/-- The two sides a comparison can have: a column, a string literal, `true` or
`false`. -/
inductive Operand where
  | source
  | destination
  | pinned
  | literal (v : String)
  | truth (b : Bool)
  deriving DecidableEq, Repr

/-- The operand is a string, not a boolean. -/
def Operand.isText : Operand → Bool
  | .source => true
  | .destination => true
  | .literal _ => true
  | .pinned => false
  | .truth _ => false

/-- The operand a token stands for. -/
def parseOperand : Token → Option Operand
  | .text v => some (.literal v)
  | .word w =>
    if w = "addr_from" then some .source
    else if w = "addr_to" then some .destination
    else if w = "pinned" then some .pinned
    else if w = "true" then some (.truth true)
    else if w = "false" then some (.truth false)
    else none
  | _ => none

/-- A comparison `x = y` of two operands of one type. -/
def parseComparison : List Token → Option (Operand × Operand)
  | [a, .equal, b] =>
    match parseOperand a, parseOperand b with
    | some x, some y => if x.isText == y.isText then some (x, y) else none
    | _, _ => none
  | _ => none

/-- Every element parsed, or `none` when one of them does not parse. -/
def parseAll {α β : Type} (f : α → Option β) : List α → Option (List β)
  | [] => some []
  | a :: as =>
    match f a, parseAll f as with
    | some b, some bs => some (b :: bs)
    | _, _ => none

/-- A condition: comparisons joined by `AND`, these groups joined by `OR`;
`AND` binds before `OR`. -/
def parseCondition (tokens : List Token) : Option (List (List (Operand × Operand))) :=
  parseAll (fun group => parseAll parseComparison (splitOnToken (.word "AND") group))
    (splitOnToken (.word "OR") tokens)

/-- A statement `UPDATE xtz_tx SET pinned = true WHERE condition`. -/
def parseStatement (tokens : List Token) : Option (List (List (Operand × Operand))) :=
  if tokens.take 7 = [.word "UPDATE", .word "xtz_tx", .word "SET", .word "pinned", .equal,
      .word "true", .word "WHERE"] then
    parseCondition (tokens.drop 7)
  else none

/-- The string an operand has in a row; `none` is NULL. -/
def textOf (r : transaction) : Operand → Option String
  | .source => r.SourceAddress
  | .destination => r.DestinationAddress
  | .literal v => some v
  | _ => none

/-- The boolean an operand has in a row. -/
def truthOf (r : transaction) : Operand → Option Bool
  | .pinned => some r.Pinned
  | .truth b => some b
  | _ => none

/-- The value of a comparison in a row; `none` is NULL. -/
def evalComparison (r : transaction) (c : Operand × Operand) : Option Bool :=
  if c.1.isText then
    match textOf r c.1, textOf r c.2 with
    | some x, some y => some (x == y)
    | _, _ => none
  else
    match truthOf r c.1, truthOf r c.2 with
    | some x, some y => some (x == y)
    | _, _ => none

/-- The conjunction of three-valued logic. -/
def and3 : Option Bool → Option Bool → Option Bool
  | some false, _ => some false
  | _, some false => some false
  | some true, some true => some true
  | _, _ => none

/-- The disjunction of three-valued logic. -/
def or3 : Option Bool → Option Bool → Option Bool
  | some true, _ => some true
  | _, some true => some true
  | some false, some false => some false
  | _, _ => none

/-- The row satisfies the condition: its value is true, not false and not
NULL. -/
def satisfies (r : transaction) (condition : List (List (Operand × Operand))) : Bool :=
  (condition.map (fun group => (group.map (evalComparison r)).foldl and3 (some true))).foldl or3
    (some false) == some true

/-- A database for the statements of `MarkPinned`. It reads the text as
statements `UPDATE xtz_tx SET pinned = true WHERE condition` closed by a
semicolon, the condition being comparisons of columns, string literals and
booleans joined by `AND` and `OR`, and runs them in order; a text that does not
read so is answered with a syntax error and leaves the table as it was. -/
def database (query : String) (s : Store) : Except String Store :=
  match lexChars query.toList .outside [] with
  | none => .error "syntax error"
  | some tokens =>
    match parseAll parseStatement ((splitOnToken .semicolon tokens).filter (fun g => g != [])) with
    | none => .error "syntax error"
    | some conditions =>
      .ok (conditions.foldl
        (fun st condition =>
          { st with
            rows := st.rows.map (fun r =>
              if satisfies r condition then { r with Pinned := true } else r) }) s)

/-- A block of the node with three operations: `op5A` holds a reveal and
two transactions, `op5B` a delegation alone, `op5C` one transaction. -/
def chainBlock : client.Block :=
  { Timestamp := 600
    Operations :=
      [[{ Hash := "op5A"
          Contents :=
            [{ Kind := "reveal", Source := "tz1r", Destination := "",
               Amount := none, Counter := some 1, Fee := some 1 },
             { Kind := "transaction", Source := "tz1a", Destination := "tz1b",
               Amount := some 10, Counter := some 2, Fee := some 3 },
             { Kind := "transaction", Source := "tz1c", Destination := "tz1d",
               Amount := some 20, Counter := some 4, Fee := some 5 }] }],
       [{ Hash := "op5B"
          Contents :=
            [{ Kind := "delegation", Source := "tz1e", Destination := "",
               Amount := none, Counter := some 6, Fee := some 7 }] },
        { Hash := "op5C"
          Contents :=
            [{ Kind := "transaction", Source := "tz1f", Destination := "tz1g",
               Amount := some 30, Counter := some 8, Fee := some 9 }] }]] }

/-- A node that answers every height with `chainBlock`. -/
def chainNode : Int → Except String client.Block := fun _ => .ok chainBlock

/-- A service that records every call it receives in its state and answers
with fixed values. -/
def recorder : service.XTZFronter (List service.Request) :=
  { AddAddresses := fun req s => (none, s ++ [.AddAddresses req])
    Broadcast := fun req s => (("op5A", none), s ++ [.Broadcast req])
    GetBlockchainInfo := fun req s =>
      ((some { Height := 100, ConfirmationBlockHash := "BMG3" }, none),
        s ++ [.GetBlockchainInfo req])
    GetEstimatedFee := fun req s =>
      ((some { MinimalFees := some 100000, MinimalNanotezPerGasUnit := some 100,
               MinimalNanotezPerByte := some 1000 }, none),
        s ++ [.GetEstimatedFee req])
    GetBalances := fun req s => (([], none), s ++ [.GetBalances req])
    GetCounters := fun req s => (([], none), s ++ [.GetCounters req])
    GetTransactionsByHashes := fun req s =>
      (([minedTransfer], 100, none), s ++ [.GetTransactionsByHashes req])
    GetTransactionsByBlocks := fun req s =>
      (([minedTransfer], 1, 100, none), s ++ [.GetTransactionsByBlocks req])
    GetTransactionsByDates := fun req s =>
      (([minedTransfer], 1, 100, none), s ++ [.GetTransactionsByDates req])
    GetTransactionsByAttributes := fun req s =>
      (([minedTransfer], 100, none), s ++ [.GetTransactionsByAttributes req]) }

/-- A validator that accepts the requests for the network `mainnet` with a
non-nil pointer and refuses every other one. -/
def mainnetOnly : service.Request → Option String
  | .AddAddresses (some req) => if req.Network = "mainnet" then none else some "Network"
  | .Broadcast (some req) => if req.Network = "mainnet" then none else some "Network"
  | .GetBlockchainInfo (some req) => if req.Network = "mainnet" then none else some "Network"
  | .GetEstimatedFee (some req) => if req.Network = "mainnet" then none else some "Network"
  | .GetBalances (some req) => if req.Network = "mainnet" then none else some "Network"
  | .GetCounters (some req) => if req.Network = "mainnet" then none else some "Network"
  | .GetTransactionsByHashes (some req) =>
    if req.Network = "mainnet" then none else some "Network"
  | .GetTransactionsByBlocks (some req) =>
    if req.Network = "mainnet" then none else some "Network"
  | .GetTransactionsByDates (some req) =>
    if req.Network = "mainnet" then none else some "Network"
  | .GetTransactionsByAttributes (some req) =>
    if req.Network = "mainnet" then none else some "Network"
  | _ => some "nil request"

/-- A node on the sample chain whose answer for block 92 is an error. -/
def flakyNode : job.Node :=
  { linearNode 100 with
    GetBlock := fun n => if n = 92 then .error "timeout" else (linearNode 100).GetBlock n }

/-- Five transfers of one block, with the indices 0 to 4. -/
def fiveTransfers : List model.Transaction :=
  (List.range 5).map (fun i => { transferOf 90 with Index := i })

/-- The raw transaction of `Test_GetRawTransactionHash`. -/
def rawVector : String :=
  "85a9ef47f6b1cc1432faaf87a242b08a42ea9e0c552b73ad6751efa5a75440376e00b1c4383a317576851a825b86aa59dc030e2ecb38dc0be0ab1ebc5000ff00a31e81ac3425310e3274a4698a793b2839dc0afa5f5d8672a4ee19cec93d8b7aa354a82dcaf534deeeb6345daa296eab5dba0520a334cebc8ed1b8c1a4d15de399dd0ad6494e3e17fff88b416131ade7d0d79e00"

end sample

/-! ## Theorems -/

namespace cockroach

open common_model

theorem createCheck_ok (v : String → Bool) :
    ∀ (l : List (Option model.Transaction)) (txs : List model.Transaction),
      createCheck v l = .ok txs → l = txs.map some := by
  intro l
  induction l with
  | nil => intro txs h; simp [createCheck] at h; subst h; rfl
  | cons a rest ih =>
    intro txs h
    cases a with
    | none => simp [createCheck] at h
    | some tx =>
      simp only [createCheck] at h
      split at h
      · cases h
      · split at h
        · cases h
        · cases hc : createCheck v rest with
          | error e => rw [hc] at h; cases h
          | ok txs0 =>
            rw [hc] at h
            simp only [Except.ok.injEq] at h
            subst h
            rw [ih txs0 hc]; rfl

theorem lookup_insertOnConflict_other (set : transaction → transaction → transaction)
    (hset : ∀ r e, (set r e).Hash = r.Hash ∧ (set r e).Index = r.Index)
    (s : Store) (e : transaction) (h : String) (i : Nat)
    (hne : ¬ (e.Hash = h ∧ e.Index = i)) :
    (insertOnConflict set s e).lookup h i = s.lookup h i := by
  unfold insertOnConflict Store.lookup
  split
  · simp only [List.find?_map]
    have hfun : ((fun r : transaction => r.Hash == h && r.Index == i) ∘
        fun r => if sameKey e r = true then set r e else r)
        = (fun r : transaction => r.Hash == h && r.Index == i) := by
      funext r
      simp only [Function.comp]
      split
      · rw [(hset r e).1, (hset r e).2]
      · rfl
    rw [hfun]
    cases hf : List.find? (fun r : transaction => r.Hash == h && r.Index == i) s.rows with
    | none => rfl
    | some r =>
      simp only [Option.map_some']
      have hp := List.find?_some hf
      simp only [Bool.and_eq_true, beq_iff_eq] at hp
      have : sameKey e r = false := by
        simp only [sameKey, Bool.and_eq_false_iff, beq_eq_false_iff_ne, ne_eq]
        by_contra hc
        push_neg at hc
        exact hne ⟨hc.1.trans hp.1, hc.2.trans hp.2⟩
      simp [this]
  · simp only [List.find?_append]
    have : List.find? (fun r : transaction => r.Hash == h && r.Index == i)
        [{ e with ID := s.nextID }] = none := by
      simp only [List.find?_cons, List.find?_nil]
      have : (e.Hash == h && e.Index == i) = false := by
        simp only [Bool.and_eq_false_iff, beq_eq_false_iff_ne, ne_eq]
        by_contra hc
        push_neg at hc
        exact hne hc
      simp [this]
    rw [this]; simp

theorem lookup_insertOnConflict_same (set : transaction → transaction → transaction)
    (hset : ∀ r e, (set r e).Hash = r.Hash ∧ (set r e).Index = r.Index)
    (s : Store) (e r : transaction)
    (hr : s.lookup e.Hash e.Index = some r) :
    (insertOnConflict set s e).lookup e.Hash e.Index = some (set r e) := by
  unfold Store.lookup at hr
  have hmem := List.mem_of_find?_eq_some hr
  have hp := List.find?_some hr
  simp only [Bool.and_eq_true, beq_iff_eq] at hp
  have hsk : sameKey e r = true := by
    simp [sameKey, hp.1, hp.2]
  have hany : s.rows.any (sameKey e) = true := List.any_eq_true.2 ⟨r, hmem, hsk⟩
  unfold insertOnConflict Store.lookup
  rw [if_pos hany]
  simp only [List.find?_map]
  have hfun : ((fun r : transaction => r.Hash == e.Hash && r.Index == e.Index) ∘
      fun r => if sameKey e r = true then set r e else r)
      = (fun r : transaction => r.Hash == e.Hash && r.Index == e.Index) := by
    funext r
    simp only [Function.comp]
    split
    · rw [(hset r e).1, (hset r e).2]
    · rfl
  rw [hfun, hr]
  simp [hsk]

theorem createConflict_key (r e : transaction) :
    (createConflict r e).Hash = r.Hash ∧ (createConflict r e).Index = r.Index :=
  ⟨rfl, rfl⟩

theorem lookup_createFold_other (now : Int) (h : String) (i : Nat) :
    ∀ (txs : List model.Transaction) (s : Store), (h, i) ∉ batchKeys txs →
      (txs.foldl (fun st tx => insertOnConflict createConflict st (createValues now tx)) s).lookup h i
        = s.lookup h i := by
  intro txs
  induction txs with
  | nil => intro s _; rfl
  | cons tx rest ih =>
    intro s hk
    simp only [batchKeys, List.map_cons, List.mem_cons, not_or] at hk
    simp only [List.foldl_cons]
    rw [ih _ hk.2]
    apply lookup_insertOnConflict_other createConflict createConflict_key
    intro hc
    apply hk.1
    simp only [createValues] at hc
    rw [← hc.1, ← hc.2]

theorem lookup_createFold_same (now : Int) (t : model.Transaction) :
    ∀ (txs : List model.Transaction) (s : Store) (r : transaction),
      (batchKeys txs).Nodup → t ∈ txs → s.lookup t.Hash t.Index = some r →
      (txs.foldl (fun st tx => insertOnConflict createConflict st (createValues now tx)) s).lookup
          t.Hash t.Index = some (createConflict r (createValues now t)) := by
  intro txs
  induction txs with
  | nil => intro s r _ ht; cases ht
  | cons tx rest ih =>
    intro s r hnd ht hr
    simp only [batchKeys, List.map_cons, List.nodup_cons] at hnd
    simp only [List.foldl_cons]
    by_cases hkey : tx.Hash = t.Hash ∧ tx.Index = t.Index
    · have hnot : (t.Hash, t.Index) ∉ batchKeys rest := by
        rw [← hkey.1, ← hkey.2]; exact hnd.1
      rw [lookup_createFold_other now t.Hash t.Index rest _ hnot]
      have hteq : t = tx := by
        rcases List.mem_cons.1 ht with h | h
        · exact h
        · exfalso
          apply hnot
          exact List.mem_map.2 ⟨t, h, rfl⟩
      subst hteq
      exact lookup_insertOnConflict_same createConflict createConflict_key s (createValues now t) r hr
    · have htr : t ∈ rest := by
        rcases List.mem_cons.1 ht with h | h
        · exfalso; apply hkey; rw [h]; exact ⟨rfl, rfl⟩
        · exact h
      apply ih _ r hnd.2 htr
      rw [lookup_insertOnConflict_other createConflict createConflict_key]
      · exact hr
      · exact hkey

/-- C1 (amended): when `CreateTransactions` succeeds on a batch holding a mined
transfer `t` whose `(hash, idx)` is the key of an existing broadcast-only row
`r`, the row stored under that key afterwards is `r` with block_number,
addresses, amount, fee, counter, timestamp and status replaced by the values
of `t`; every other column, in particular message, broadcasted and rawtx, is
the one `r` had. -/
theorem createTransactions_upgrades_broadcast_row
    (IsBase64Alphabet : String → Bool) (now : Int) (s s' : Store)
    (transactions : List (Option model.Transaction)) (t : model.Transaction) (r : transaction)
    (hrun : CreateTransactions IsBase64Alphabet now s transactions = .ok s')
    (ht : some t ∈ transactions)
    (hr : s.lookup t.Hash t.Index = some r)
    (_hblock : r.BlockNumber = some (-1)) (_hbroad : r.Broadcasted = true) :
    s'.lookup t.Hash t.Index = some
      { r with
        BlockNumber := t.BlockNumber.map Int.ofNat
        SourceAddress := t.SourceAddress
        DestinationAddress := t.DestinationAddress
        Amount := t.Amount
        Fee := t.Fee
        Counter := t.Counter
        Timestamp := t.Timestamp
        Status := ToStatus t.Status } := by
  unfold CreateTransactions at hrun
  split at hrun
  · rename_i hlen
    have : transactions = [] := List.length_eq_zero.1 hlen
    subst this
    cases ht
  · cases hc : createCheck IsBase64Alphabet transactions with
    | error e => rw [hc] at hrun; cases hrun
    | ok txs =>
      rw [hc] at hrun
      simp only at hrun
      split at hrun
      · rename_i hnd
        simp only [Except.ok.injEq] at hrun
        subst hrun
        have hl := createCheck_ok IsBase64Alphabet transactions txs hc
        have htm : t ∈ txs := by
          rw [hl] at ht
          rcases List.mem_map.1 ht with ⟨a, ha, hae⟩
          cases hae
          exact ha
        exact lookup_createFold_same now t txs s r hnd htm hr
      · cases hrun

/-- C1 (amended), at a concrete input: the failed broadcast of `op5A` is mined
in block 560500. -/
theorem createTransactions_upgrades_broadcast_row_witness :
    (Store.mk [sample.upgradedRow] 10).lookup "op5A" 0 = some sample.upgradedRow :=
  createTransactions_upgrades_broadcast_row sample.IsBase64Alphabet 50 sample.broadcastStore
    (Store.mk [sample.upgradedRow] 10) [some sample.minedTransfer] sample.minedTransfer
    sample.broadcastRow rfl (by decide) (by decide) (by decide) (by decide)

/-- C1 as stated fails: the broadcast-only row of `op5A` carries the message of
a failed attempt; after `CreateTransactions` has stored the mined transfer of
`op5A`, the row still carries that message, it is not NULL. -/
theorem createTransactions_message_not_cleared :
    sample.broadcastStore.lookup "op5A" 0 = some sample.broadcastRow ∧
    sample.broadcastRow.BlockNumber = some (-1) ∧
    sample.broadcastRow.Broadcasted = true ∧
    sample.broadcastRow.Message = some "could not send transaction" ∧
    CreateTransactions sample.IsBase64Alphabet 50 sample.broadcastStore
      [some sample.minedTransfer] = .ok (Store.mk [sample.upgradedRow] 10) ∧
    (Store.mk [sample.upgradedRow] 10).lookup sample.minedTransfer.Hash
      sample.minedTransfer.Index = some sample.upgradedRow ∧
    sample.upgradedRow.Message = some "could not send transaction" ∧
    sample.upgradedRow.Message ≠ none :=
  ⟨by decide, by decide, by decide, by decide, rfl, by decide, by decide, by decide⟩

end cockroach

namespace common_model

theorem toStatus_fromStatus (s : Status) : ToStatus (FromStatus s) = s := by
  cases s <;> decide

theorem fromStatus_eq_success (s : Status) (h : FromStatus s = "success") : s = .SUCCESS := by
  cases s <;> first | rfl | (exfalso; revert h; decide)

end common_model

namespace job

open common_model cockroach

/-- C2: for a stored row that satisfies the selection and has a raw
transaction, the worker rewrites every row of that hash with
broadcasted_at_block = tip, the derived message, and a status that is the entry
of the transition table for the prior status of the row and the result of the
submit: NEW/ok PENDING, NEW/Retryable FAILURE, NEW/other INVALID,
PENDING or FAILURE/ok PENDING, PENDING or FAILURE/error FAILURE. -/
theorem worker_follows_transition_table
    (InjectionOperation : String → Option String) (now : Int) (blockNumber before : Nat)
    (st : State) (r : transaction) (raw : String)
    (hsel : pendingWhere before r = true)
    (hraw : r.RawTransaction = some raw) :
    ∃ status : Status,
      specTransition r.Status (client.BroadcastTransaction InjectionOperation raw) = some status ∧
      (worker InjectionOperation now blockNumber st
          (toModelTransaction (scanHashStatusRawtx r))).store.rows =
        st.store.rows.map (fun x =>
          if x.Hash == r.Hash then
            { x with
              BroadcastedAtBlock := some blockNumber
              Status := status
              Message := some (workerMessage (toModelTransaction (scanHashStatusRawtx r))
                (client.BroadcastTransaction InjectionOperation raw)) }
          else x) := by
  have hst : r.Status = .NEW ∨ r.Status = .PENDING ∨ r.Status = .FAILURE := by
    simp only [pendingWhere, Bool.and_eq_true, Bool.or_eq_true, beq_iff_eq] at hsel
    rcases hsel.1.1.2 with (h | h) | h
    · exact Or.inl h
    · exact Or.inr (Or.inl h)
    · exact Or.inr (Or.inr h)
  refine ⟨workerStatus (toModelTransaction (scanHashStatusRawtx r))
    (client.BroadcastTransaction InjectionOperation raw), ?_, ?_⟩
  · cases hres : client.BroadcastTransaction InjectionOperation raw with
    | none => rcases hst with h | h | h <;> rw [h] <;> rfl
    | some err =>
      simp only [workerStatus, toModelTransaction, scanHashStatusRawtx, toStatus_fromStatus]
      rcases hst with h | h | h <;> rw [h] <;> cases err <;> rfl
  · simp only [worker, toModelTransaction, scanHashStatusRawtx, hraw, UpdateBroadcast,
      toStatus_fromStatus]

end job

namespace cockroach
open common_model

theorem pendingWhere_iff (before : Nat) (r : transaction) :
    pendingWhere before r = true ↔
      (r.Broadcasted = true ∧
        (r.Status = .NEW ∨ r.Status = .PENDING ∨ r.Status = .FAILURE) ∧
        r.BlockNumber = some (-1) ∧
        ∃ b ∈ r.BroadcastedAtBlock, b ≤ before) := by
  unfold pendingWhere
  cases hb : r.BroadcastedAtBlock with
  | none => simp
  | some b =>
    simp only [Bool.and_eq_true, Bool.or_eq_true, beq_iff_eq, decide_eq_true_eq,
      Option.mem_def, Option.some.injEq, exists_eq_left', or_assoc, and_assoc]

/-- C3: every transaction `GetPendingBroadcasts` returns is the scan (hash,
status, rawtx) of a stored row with broadcasted = true, status NEW, PENDING or
FAILURE, block_number = -1 and a broadcasted_at_block at most `beforeBlock`,
and the number of transactions returned is the minimum of `limit` and the
number of stored rows with that property. -/
theorem getPendingBroadcasts_selects_eligible (s : Store) (beforeBlock limit : Nat) :
    (∀ t ∈ GetPendingBroadcasts s beforeBlock limit,
      ∃ r ∈ s.rows, t = toModelTransaction (scanHashStatusRawtx r) ∧
        r.Broadcasted = true ∧
        (r.Status = .NEW ∨ r.Status = .PENDING ∨ r.Status = .FAILURE) ∧
        r.BlockNumber = some (-1) ∧
        ∃ b ∈ r.BroadcastedAtBlock, b ≤ beforeBlock) ∧
    (GetPendingBroadcasts s beforeBlock limit).length =
      min limit (s.rows.countP (fun r => decide
        (r.Broadcasted = true ∧
          (r.Status = .NEW ∨ r.Status = .PENDING ∨ r.Status = .FAILURE) ∧
          r.BlockNumber = some (-1) ∧
          ∃ b ∈ r.BroadcastedAtBlock, b ≤ beforeBlock))) := by
  constructor
  · intro t ht
    simp only [GetPendingBroadcasts, toModelTransactions, List.mem_map] at ht
    rcases ht with ⟨x, ⟨r, hr, rfl⟩, rfl⟩
    have hf := List.mem_of_mem_take hr
    rw [List.mem_filter] at hf
    exact ⟨r, hf.1, rfl, (pendingWhere_iff beforeBlock r).1 hf.2⟩
  · have hfun : (fun r : transaction => decide
        (r.Broadcasted = true ∧
          (r.Status = .NEW ∨ r.Status = .PENDING ∨ r.Status = .FAILURE) ∧
          r.BlockNumber = some (-1) ∧
          ∃ b ∈ r.BroadcastedAtBlock, b ≤ beforeBlock)) = pendingWhere beforeBlock := by
      funext r
      rw [Bool.eq_iff_iff, decide_eq_true_iff]
      exact (pendingWhere_iff beforeBlock r).symm
    rw [hfun]
    simp only [GetPendingBroadcasts, toModelTransactions, List.length_map, List.length_take,
      List.countP_eq_length_filter]

end cockroach

namespace job

open common_model cockroach

theorem worker_rows (InjectionOperation : String → Option String) (now : Int)
    (blockNumber : Nat) (st : State) (t : model.Transaction) :
    ∃ (S : Status) (M : String),
      (worker InjectionOperation now blockNumber st t).store.rows =
        st.store.rows.map (fun x =>
          if x.Hash == t.Hash then
            { x with BroadcastedAtBlock := some blockNumber, Status := S, Message := some M }
          else x) := by
  unfold worker
  cases t.RawTransaction with
  | none => exact ⟨_, _, rfl⟩
  | some raw => exact ⟨_, _, rfl⟩

theorem worker_keeps_other_hash (InjectionOperation : String → Option String) (now : Int)
    (blockNumber : Nat) (st : State) (t : model.Transaction) (h : String)
    (hne : t.Hash ≠ h)
    (hQ : ∀ x ∈ st.store.rows, x.Hash = h → x.Status = .INVALID) :
    ∀ x ∈ (worker InjectionOperation now blockNumber st t).store.rows,
      x.Hash = h → x.Status = .INVALID := by
  obtain ⟨S, M, hrows⟩ := worker_rows InjectionOperation now blockNumber st t
  rw [hrows]
  intro x hx hxh
  rcases List.mem_map.1 hx with ⟨y, hy, rfl⟩
  by_cases hyh : y.Hash = t.Hash
  · exfalso
    simp only [hyh, beq_self_eq_true, if_true] at hxh
    exact hne (hyh ▸ hxh)
  · have : (y.Hash == t.Hash) = false := beq_eq_false_iff_ne.2 hyh
    simp only [this] at hxh ⊢
    exact hQ y hy hxh

theorem worker_invalidates (InjectionOperation : String → Option String) (now : Int)
    (blockNumber : Nat) (st : State) (r : transaction) (raw e : String)
    (hnew : r.Status = .NEW) (hraw : r.RawTransaction = some raw)
    (hfail : client.BroadcastTransaction InjectionOperation raw = some (.nodeError e)) :
    ∀ x ∈ (worker InjectionOperation now blockNumber st
        (toModelTransaction (scanHashStatusRawtx r))).store.rows,
      x.Hash = r.Hash → x.Status = .INVALID := by
  intro x hx hxh
  simp only [worker, toModelTransaction, scanHashStatusRawtx, hraw, hfail, workerStatus, hnew,
    toStatus_fromStatus, UpdateBroadcast, if_true, List.mem_map] at hx
  rcases hx with ⟨y, _, rfl⟩
  by_cases hyh : y.Hash = r.Hash
  · simp [hyh]
  · have : (y.Hash == r.Hash) = false := beq_eq_false_iff_ne.2 hyh
    simp only [this] at hxh
    exact absurd hxh hyh

theorem fold_worker_invalid (InjectionOperation : String → Option String) (now : Int)
    (blockNumber : Nat) (r : transaction) (raw e : String)
    (hnew : r.Status = .NEW) (hraw : r.RawTransaction = some raw)
    (hfail : client.BroadcastTransaction InjectionOperation raw = some (.nodeError e)) :
    ∀ (L : List model.Transaction) (st : State),
      (∀ t ∈ L, t = toModelTransaction (scanHashStatusRawtx r) ∨ t.Hash ≠ r.Hash) →
      ((∀ x ∈ st.store.rows, x.Hash = r.Hash → x.Status = .INVALID) ∨
        toModelTransaction (scanHashStatusRawtx r) ∈ L) →
      ∀ x ∈ (L.foldl (worker InjectionOperation now blockNumber) st).store.rows,
        x.Hash = r.Hash → x.Status = .INVALID := by
  intro L
  induction L with
  | nil =>
    intro st _ h
    rcases h with h | h
    · exact h
    · cases h
  | cons t L ih =>
    intro st hall h
    simp only [List.foldl_cons]
    apply ih
    · intro t' ht'
      exact hall t' (List.mem_cons_of_mem _ ht')
    · rcases hall t (List.mem_cons_self _ _) with ht | ht
      · left
        rw [ht]
        exact worker_invalidates InjectionOperation now blockNumber st r raw e hnew hraw hfail
      · rcases h with h | h
        · left
          exact worker_keeps_other_hash InjectionOperation now blockNumber st t r.Hash ht h
        · right
          rcases List.mem_cons.1 h with h | h
          · exfalso
            apply ht
            rw [← h]
            rfl
          · exact h

theorem pending_is_scan (s : Store) (before limit : Nat) :
    ∀ t ∈ GetPendingBroadcasts s before limit,
      ∃ x ∈ s.rows, pendingWhere before x = true ∧
        t = toModelTransaction (scanHashStatusRawtx x) := by
  intro t ht
  simp only [GetPendingBroadcasts, toModelTransactions, List.mem_map] at ht
  rcases ht with ⟨y, ⟨x, hx, rfl⟩, rfl⟩
  have hf := List.mem_of_mem_take hx
  rw [List.mem_filter] at hf
  exact ⟨x, hf.1, hf.2, rfl⟩

theorem pending_hash_ne (s : Store) (before limit : Nat) (h : String)
    (hQ : ∀ x ∈ s.rows, x.Hash = h → x.Status = .INVALID) :
    ∀ t ∈ GetPendingBroadcasts s before limit, t.Hash ≠ h := by
  intro t ht hth
  obtain ⟨x, hx, hsel, rfl⟩ := pending_is_scan s before limit t ht
  have hinv := hQ x hx hth
  simp only [pendingWhere, hinv, Bool.and_eq_true, Bool.or_eq_true, beq_iff_eq] at hsel
  rcases hsel.1.1.2 with (h1 | h1) | h1 <;> cases h1

theorem fold_worker_keeps (InjectionOperation : String → Option String) (now : Int)
    (blockNumber : Nat) (h : String) :
    ∀ (L : List model.Transaction) (st : State),
      (∀ t ∈ L, t.Hash ≠ h) →
      (∀ x ∈ st.store.rows, x.Hash = h → x.Status = .INVALID) →
      ∀ x ∈ (L.foldl (worker InjectionOperation now blockNumber) st).store.rows,
        x.Hash = h → x.Status = .INVALID := by
  intro L
  induction L with
  | nil => intro st _ hQ; exact hQ
  | cons t L ih =>
    intro st hall hQ
    simp only [List.foldl_cons]
    apply ih
    · intro t' ht'
      exact hall t' (List.mem_cons_of_mem _ ht')
    · exact worker_keeps_other_hash InjectionOperation now blockNumber st t h
        (hall t (List.mem_cons_self _ _)) hQ

theorem do_keeps_invalid (j : Broadcaster) (GetHeight : Except String Nat)
    (InjectionOperation : String → Option String) (now : Int) (st : State) (h : String)
    (hQ : ∀ x ∈ st.store.rows, x.Hash = h → x.Status = .INVALID) :
    ∀ x ∈ (Do j GetHeight InjectionOperation now st).store.rows,
      x.Hash = h → x.Status = .INVALID := by
  unfold Do
  cases GetHeight with
  | error _ => exact hQ
  | ok blockNumber =>
    simp only
    split
    · exact hQ
    · split
      · exact hQ
      · exact fold_worker_keeps InjectionOperation now blockNumber h _ st
          (pending_hash_ne st.store _ _ h hQ) hQ

theorem runTicks_keeps_invalid (h : String) :
    ∀ (ticks : List Tick) (st : State),
      (∀ x ∈ st.store.rows, x.Hash = h → x.Status = .INVALID) →
      ∀ x ∈ (runTicks ticks st).store.rows, x.Hash = h → x.Status = .INVALID := by
  intro ticks
  induction ticks with
  | nil => intro st hQ; exact hQ
  | cons t ticks ih =>
    intro st hQ
    simp only [runTicks, List.foldl_cons]
    exact ih _ (do_keeps_invalid t.j t.GetHeight t.InjectionOperation t.now st h hQ)

end job

namespace job

open common_model cockroach

theorem worker_keys (InjectionOperation : String → Option String) (now : Int)
    (blockNumber : Nat) (st : State) (t : model.Transaction) :
    (worker InjectionOperation now blockNumber st t).store.rows.map (fun x => (x.Hash, x.Index))
      = st.store.rows.map (fun x => (x.Hash, x.Index)) := by
  obtain ⟨S, M, hrows⟩ := worker_rows InjectionOperation now blockNumber st t
  rw [hrows, List.map_map]
  apply List.map_congr_left
  intro x _
  simp only [Function.comp]
  split <;> rfl

theorem fold_worker_keys (InjectionOperation : String → Option String) (now : Int)
    (blockNumber : Nat) :
    ∀ (L : List model.Transaction) (st : State),
      (L.foldl (worker InjectionOperation now blockNumber) st).store.rows.map
          (fun x => (x.Hash, x.Index))
        = st.store.rows.map (fun x => (x.Hash, x.Index)) := by
  intro L
  induction L with
  | nil => intro st; rfl
  | cons t L ih =>
    intro st
    simp only [List.foldl_cons]
    rw [ih, worker_keys]

theorem do_keys (j : Broadcaster) (GetHeight : Except String Nat)
    (InjectionOperation : String → Option String) (now : Int) (st : State) :
    (Do j GetHeight InjectionOperation now st).store.rows.map (fun x => (x.Hash, x.Index))
      = st.store.rows.map (fun x => (x.Hash, x.Index)) := by
  unfold Do
  cases GetHeight with
  | error _ => rfl
  | ok blockNumber =>
    simp only
    split
    · rfl
    · split
      · rfl
      · exact fold_worker_keys InjectionOperation now blockNumber _ st

/-- C4: in a table that obeys `UNIQUE (hash, idx)` and where broadcasted rows
have index 0, let a broadcast row in status NEW be selected by a tick at tip
`blockNumber` and let the node answer its submit with an error that is not
Retryable. After that tick the row has status INVALID, and after any sequence
of later ticks (any tips, intervals, batch limits and node answers) no
selection of `GetPendingBroadcasts`, for any `beforeBlock` and `limit`, holds a
transaction of that hash. -/
theorem invalid_broadcast_never_reselected
    (j : Broadcaster) (blockNumber : Nat) (InjectionOperation : String → Option String)
    (now : Int) (st : State) (r : transaction) (raw e : String)
    (hkeys : st.store.KeysUnique) (hidx : st.store.BroadcastAtIndexZero)
    (hr : r ∈ st.store.rows) (hbro : r.Broadcasted = true)
    (hnew : r.Status = .NEW) (hraw : r.RawTransaction = some raw)
    (hint : j.BroadcastBlockInterval ≤ blockNumber)
    (hsel : toModelTransaction (scanHashStatusRawtx r) ∈
      GetPendingBroadcasts st.store (blockNumber - j.BroadcastBlockInterval) j.BatchSize)
    (hfail : client.BroadcastTransaction InjectionOperation raw = some (.nodeError e)) :
    ((Do j (.ok blockNumber) InjectionOperation now st).store.lookup r.Hash r.Index).map
        (fun x => x.Status) = some .INVALID ∧
    ∀ (ticks : List Tick) (beforeBlock limit : Nat),
      ∀ t ∈ GetPendingBroadcasts
          (runTicks ticks (Do j (.ok blockNumber) InjectionOperation now st)).store
          beforeBlock limit,
        t.Hash ≠ r.Hash := by
  have hQ : ∀ x ∈ (Do j (.ok blockNumber) InjectionOperation now st).store.rows,
      x.Hash = r.Hash → x.Status = .INVALID := by
    have hfold : ∀ x ∈ ((GetPendingBroadcasts st.store
        (blockNumber - j.BroadcastBlockInterval) j.BatchSize).foldl
          (worker InjectionOperation now blockNumber) st).store.rows,
        x.Hash = r.Hash → x.Status = .INVALID := by
      apply fold_worker_invalid InjectionOperation now blockNumber r raw e hnew hraw hfail
      · intro t ht
        obtain ⟨x, hx, hxsel, rfl⟩ := pending_is_scan _ _ _ t ht
        by_cases hxh : x.Hash = r.Hash
        · left
          have hxb : x.Broadcasted = true := by
            simp only [pendingWhere, Bool.and_eq_true] at hxsel
            exact hxsel.1.1.1
          have hkey : (x.Hash, x.Index) = (r.Hash, r.Index) := by
            rw [hxh, hidx x hx hxb, hidx r hr hbro]
          have := List.inj_on_of_nodup_map hkeys hx hr hkey
          rw [this]
        · right
          exact hxh
      · right
        exact hsel
    unfold Do
    simp only
    rw [if_neg (by omega)]
    split
    · rename_i hlen
      have := List.length_eq_zero.1 hlen
      rw [this] at hsel
      cases hsel
    · exact hfold
  refine ⟨?_, ?_⟩
  · cases hf : (Do j (.ok blockNumber) InjectionOperation now st).store.lookup r.Hash r.Index with
    | none =>
      exfalso
      unfold Store.lookup at hf
      rw [List.find?_eq_none] at hf
      have hmem : (r.Hash, r.Index) ∈
          (Do j (.ok blockNumber) InjectionOperation now st).store.rows.map
            (fun x => (x.Hash, x.Index)) := by
        rw [do_keys]
        exact List.mem_map.2 ⟨r, hr, rfl⟩
      rcases List.mem_map.1 hmem with ⟨x, hx, hxk⟩
      apply hf x hx
      simp only [Prod.mk.injEq] at hxk
      simp [hxk.1, hxk.2]
    | some x =>
      unfold Store.lookup at hf
      have hx := List.mem_of_find?_eq_some hf
      have hp := List.find?_some hf
      simp only [Bool.and_eq_true, beq_iff_eq] at hp
      simp only [Option.map_some', Option.some.injEq]
      exact hQ x hx hp.1
  · intro ticks beforeBlock limit
    exact pending_hash_ne _ beforeBlock limit r.Hash
      (runTicks_keeps_invalid r.Hash ticks _ hQ)

end job

namespace job

open common_model cockroach

/-- C2, at a concrete input: the NEW row of `op5A` is submitted at tip 100 and
the node answers `bad signature`. -/
theorem worker_follows_transition_table_witness :
    pendingWhere 90 sample.newRow = true ∧
    ∃ status : Status,
      specTransition sample.newRow.Status
        (client.BroadcastTransaction sample.badSignature "dead") = some status ∧
      (worker sample.badSignature 77 100 sample.newState
          (toModelTransaction (scanHashStatusRawtx sample.newRow))).store.rows =
        sample.newState.store.rows.map (fun x =>
          if x.Hash == sample.newRow.Hash then
            { x with
              BroadcastedAtBlock := some 100
              Status := status
              Message := some (workerMessage (toModelTransaction (scanHashStatusRawtx sample.newRow))
                (client.BroadcastTransaction sample.badSignature "dead")) }
          else x) :=
  ⟨by decide, worker_follows_transition_table sample.badSignature 77 100 90 sample.newState
    sample.newRow "dead" (by decide) (by decide)⟩

/-- C4, at a concrete input: the NEW row of `op5A`, interval 10, tip 100, a
node answering `bad signature`. -/
theorem invalid_broadcast_never_reselected_witness :
    ((Do sample.broadcaster (.ok 100) sample.badSignature 77 sample.newState).store.lookup
        "op5A" 0).map (fun x => x.Status) = some .INVALID ∧
    ∀ (ticks : List Tick) (beforeBlock limit : Nat),
      ∀ t ∈ GetPendingBroadcasts
          (runTicks ticks (Do sample.broadcaster (.ok 100) sample.badSignature 77
            sample.newState)).store beforeBlock limit,
        t.Hash ≠ "op5A" :=
  invalid_broadcast_never_reselected sample.broadcaster 100 sample.badSignature 77
    sample.newState sample.newRow "dead" "bad signature"
    (by unfold Store.KeysUnique; decide) (by unfold Store.BroadcastAtIndexZero; decide)
    (by decide) (by decide) (by decide) (by decide) (by decide) (by decide) (by decide)

/-- C5 fails on the code: the error text `mempool full` contains none of
`retryableErrorsMessages`, so `BroadcastTransaction` returns the error of the
node as it came, not an `ErrBroadcastRetryable`; after the tick at tip 100 the
NEW row of `op5A` has status INVALID (not FAILURE), broadcasted_at_block 100,
and the one trail entry appended carries the status `invalid`. -/
theorem mempool_full_is_not_retryable :
    client.BroadcastTransaction sample.mempoolFull "dead" =
      some (.nodeError "mempool full") ∧
    Do sample.broadcaster (.ok 100) sample.mempoolFull 77 sample.newState =
      { store :=
          { rows :=
              [{ sample.newRow with
                 Status := .INVALID
                 BroadcastedAtBlock := some 100
                 Message := some "could not send transaction \"op5A\": mempool full" }]
            nextID := 2 }
        trails :=
          [{ Currency := "XTZ"
             Action := "broadcast"
             TransactionHash := "op5A"
             BroadcastStatus := "invalid"
             Date := 77 }] } :=
  ⟨by decide, by decide⟩

end job

namespace cockroach
open common_model

theorem any_map_fun {α β : Type} (f : α → β) (p : β → Bool) :
    ∀ l : List α, (l.map f).any p = l.any (fun x => p (f x)) := by
  intro l
  induction l with
  | nil => rfl
  | cons a l ih => simp only [List.map_cons, List.any_cons, ih]

theorem fold_deleteTransactionIDs :
    ∀ (cs : List (List Nat)) (s : Store),
      cs.foldl deleteTransactionIDs s =
        { s with rows := s.rows.filter (fun r => !(cs.any (fun c => c.contains r.ID))) } := by
  intro cs
  induction cs with
  | nil => intro s; simp
  | cons c cs ih =>
    intro s
    simp only [List.foldl_cons]
    rw [ih]
    simp only [deleteTransactionIDs, List.filter_filter, List.any_cons, Bool.not_or]
    congr 1
    apply List.filter_congr
    intro r _
    exact Bool.and_comm _ _

theorem mem_chunks (ids : List Nat) (x : Nat) (b : Nat) (hb : 0 < b) :
    ((List.range ((ids.length + b - 1) / b)).any
        (fun k => ((ids.take (min ((k + 1) * b) ids.length)).drop (k * b)).contains x)) =
      ids.contains x := by
  rw [Bool.eq_iff_iff]
  simp only [List.any_eq_true, List.mem_range, List.contains_iff_exists_mem_beq, beq_iff_eq,
    exists_eq_right']
  constructor
  · rintro ⟨k, _, hk⟩
    exact List.mem_of_mem_take (List.mem_of_mem_drop hk)
  · intro hx
    obtain ⟨i, hi, rfl⟩ := List.mem_iff_getElem.1 hx
    refine ⟨i / b, ?_, ?_⟩
    · rw [Nat.div_lt_iff_lt_mul hb]
      have h1 : (ids.length + b - 1) / b * b + (ids.length + b - 1) % b = ids.length + b - 1 :=
        Nat.div_add_mod' _ _
      have h2 : (ids.length + b - 1) % b < b := Nat.mod_lt _ hb
      omega
    · have hlow : i / b * b ≤ i := Nat.div_mul_le_self i b
      have hhigh : i < (i / b + 1) * b := by
        have := Nat.lt_succ_iff.2 (le_refl (i / b))
        have h1 : i / b * b + i % b = i := Nat.div_add_mod' _ _
        have h2 : i % b < b := Nat.mod_lt _ hb
        rw [Nat.add_mul, Nat.one_mul]
        omega
      rw [List.mem_iff_getElem?]
      refine ⟨i - i / b * b, ?_⟩
      have hsum : i / b * b + (i - i / b * b) = i := by omega
      rw [List.getElem?_drop, List.getElem?_take, hsum, if_pos (lt_min hhigh hi)]
      exact List.getElem?_eq_getElem hi

theorem poolDo_deleteTransactionIDs (ids : List Nat) (s : Store) :
    poolDo deleteTransactionIDs (fun a b => (ids.take b).drop a) ids.length 100 s =
      { s with rows := s.rows.filter (fun r => !ids.contains r.ID) } := by
  unfold poolDo
  have h := fold_deleteTransactionIDs
    ((List.range ((ids.length + 100 - 1) / 100)).map
      (fun k => (ids.take (min ((k + 1) * 100) ids.length)).drop (k * 100))) s
  rw [List.foldl_map] at h
  rw [h]
  congr 1
  apply List.filter_congr
  intro r _
  have := mem_chunks ids r.ID 100 (by decide)
  rw [← this, any_map_fun]

end cockroach

namespace cockroach
open common_model

theorem gcWhere_iff (beforeBlock : Nat) (r : transaction) :
    gcWhere beforeBlock r = true ↔
      (r.Pinned = false ∧ r.Broadcasted = false ∧
        ∃ b ∈ r.BlockNumber, b ≤ (beforeBlock : Int)) := by
  unfold gcWhere
  cases hb : r.BlockNumber with
  | none => simp
  | some b =>
    simp only [Bool.and_eq_true, Bool.not_eq_true', decide_eq_true_eq, Option.mem_def,
      Option.some.injEq, exists_eq_left', and_assoc]

theorem gcLoop_deletes (limit beforeBlock : Nat) (hlimit : 0 < limit) :
    ∀ (fuel : Nat) (s : Store), s.IdsUnique →
      (s.rows.filter (gcWhere beforeBlock)).length < fuel →
      gcLoop limit beforeBlock fuel s =
        some { s with rows := s.rows.filter (fun r => !gcWhere beforeBlock r) } := by
  intro fuel
  induction fuel with
  | zero => intro s _ h; omega
  | succ fuel ih =>
    intro s hid hfuel
    unfold gcLoop
    simp only
    split
    · rename_i hlen
      have hnil : s.rows.filter (gcWhere beforeBlock) = [] := by
        simp only [getTransactionIDs, List.length_map, List.length_take] at hlen
        have : (s.rows.filter (gcWhere beforeBlock)).length = 0 := by omega
        exact List.length_eq_zero.1 this
      have hall : s.rows.filter (fun r => !gcWhere beforeBlock r) = s.rows := by
        rw [List.filter_eq_self]
        intro r hr
        rw [List.filter_eq_nil_iff] at hnil
        simpa using hnil r hr
      rw [hall]
    · rename_i hlen
      rw [poolDo_deleteTransactionIDs]
      have hidsmem : ∀ r ∈ s.rows, (getTransactionIDs s limit beforeBlock).contains r.ID = true →
          gcWhere beforeBlock r = true := by
        intro r hr hc
        simp only [getTransactionIDs, List.contains_iff_exists_mem_beq, beq_iff_eq,
          exists_eq_right', List.mem_map] at hc
        rcases hc with ⟨y, hy, hyid⟩
        have hyf := List.mem_of_mem_take hy
        rw [List.mem_filter] at hyf
        have : y = r := List.inj_on_of_nodup_map hid hyf.1 hr hyid
        rw [← this]
        exact hyf.2
      have hid' : Store.IdsUnique
          (Store.mk (s.rows.filter
            (fun r => !(getTransactionIDs s limit beforeBlock).contains r.ID)) s.nextID) := by
        unfold Store.IdsUnique
        exact List.Nodup.sublist (List.Sublist.map _ (List.filter_sublist _)) hid
      have hkeep : (s.rows.filter
            (fun r => !(getTransactionIDs s limit beforeBlock).contains r.ID)).filter
            (fun r => !gcWhere beforeBlock r) =
          s.rows.filter (fun r => !gcWhere beforeBlock r) := by
        rw [List.filter_filter]
        apply List.filter_congr
        intro r hr
        cases hg : gcWhere beforeBlock r with
        | true => simp
        | false =>
          cases hc : (getTransactionIDs s limit beforeBlock).contains r.ID with
          | false => simp
          | true =>
            have := hidsmem r hr hc
            rw [hg] at this
            cases this
      have hless : ((s.rows.filter
            (fun r => !(getTransactionIDs s limit beforeBlock).contains r.ID)).filter
            (gcWhere beforeBlock)).length < (s.rows.filter (gcWhere beforeBlock)).length := by
        have hcomm : (s.rows.filter
            (fun r => !(getTransactionIDs s limit beforeBlock).contains r.ID)).filter
            (gcWhere beforeBlock) =
            (s.rows.filter (gcWhere beforeBlock)).filter
              (fun r => !(getTransactionIDs s limit beforeBlock).contains r.ID) := by
          rw [List.filter_filter, List.filter_filter]
          apply List.filter_congr
          intro r _
          exact Bool.and_comm _ _
        rw [hcomm, List.length_filter_lt_length_iff_exists]
        cases htk : (s.rows.filter (gcWhere beforeBlock)).take limit with
        | nil =>
          exfalso
          apply hlen
          simp [getTransactionIDs, htk]
        | cons y rest =>
          have hy : y ∈ (s.rows.filter (gcWhere beforeBlock)).take limit := by
            rw [htk]; exact List.mem_cons_self _ _
          refine ⟨y, List.mem_of_mem_take hy, ?_⟩
          have : (getTransactionIDs s limit beforeBlock).contains y.ID = true := by
            simp only [getTransactionIDs, List.contains_iff_exists_mem_beq, beq_iff_eq,
              exists_eq_right', List.mem_map]
            exact ⟨y, hy, rfl⟩
          rw [this]
          decide
      have := ih _ hid' (by simp only; omega)
      rw [this]
      simp only [hkeep]

/-- C6: on a table whose ids are unique, `GarbageCollectTransactions` returns
once it is given more rounds than the table has rows, and the table it leaves
is the old one without the rows that have pinned = false, broadcasted = false
and a block_number at most `beforeBlock`: those rows are gone, every other row
(pinned, or broadcasted, or with a greater or NULL block_number) is kept as it
was, in the same order. -/
theorem garbageCollectTransactions_deletes_exactly (fuel : Nat) (s : Store)
    (beforeBlock : Nat) (hid : s.IdsUnique) (hfuel : s.rows.length < fuel) :
    GarbageCollectTransactions fuel s beforeBlock =
      some { s with
        rows := s.rows.filter (fun r => decide
          (¬ (r.Pinned = false ∧ r.Broadcasted = false ∧
            ∃ b ∈ r.BlockNumber, b ≤ (beforeBlock : Int)))) } := by
  have hfun : (fun r : transaction => decide
      (¬ (r.Pinned = false ∧ r.Broadcasted = false ∧
        ∃ b ∈ r.BlockNumber, b ≤ (beforeBlock : Int)))) =
      (fun r => !gcWhere beforeBlock r) := by
    funext r
    rw [Bool.eq_iff_iff, decide_eq_true_iff, ← gcWhere_iff]
    simp
  rw [hfun]
  unfold GarbageCollectTransactions
  apply gcLoop_deletes 50000 beforeBlock (by decide) fuel s hid
  exact lt_of_le_of_lt (List.length_filter_le _ _) hfuel

end cockroach

namespace cockroach
open common_model

theorem readRepair_success_no_message :
    ∀ (l : List transaction) (s : Store), ∀ t ∈ (readRepair l s).1,
      t.Status = .SUCCESS → t.Message = none := by
  intro l
  induction l with
  | nil => intro s t ht; cases ht
  | cons a l ih =>
    intro s t ht hs
    unfold readRepair at ht
    split at ht
    · simp only [List.mem_cons] at ht
      rcases ht with rfl | ht
      · rfl
      · exact ih _ t ht hs
    · rename_i hcond
      simp only [List.mem_cons] at ht
      rcases ht with rfl | ht
      · by_contra hm
        exact hcond ⟨hs, hm⟩
      · exact ih _ t ht hs

/-- C7: whatever the table holds and whatever hashes are asked for, every
transaction `GetTransactions` returns with status `success` has a nil
message. -/
theorem getTransactions_success_has_no_message (IsBase64Alphabet : String → Bool)
    (s s' : Store) (hashes : List String) (txs : List model.Transaction)
    (hget : GetTransactions IsBase64Alphabet s hashes = .ok (txs, s')) :
    ∀ t ∈ txs, t.Status = FromStatus .SUCCESS → t.Message = none := by
  intro t ht hs
  unfold GetTransactions at hget
  split at hget
  · simp only [Except.ok.injEq, Prod.mk.injEq] at hget
    rw [← hget.1] at ht
    cases ht
  · split at hget
    · cases hget
    · simp only [Except.ok.injEq, Prod.mk.injEq] at hget
      rw [← hget.1] at ht
      simp only [toModelTransactions, List.mem_map] at ht
      rcases ht with ⟨x, hx, rfl⟩
      have hxs : x.Status = .SUCCESS := fromStatus_eq_success x.Status hs
      exact readRepair_success_no_message _ s x hx hxs

end cockroach

namespace cockroach
open common_model

theorem any_sameKey_iff (s : Store) (e : transaction) :
    s.rows.any (sameKey e) = true ↔
      (e.Hash, e.Index) ∈ s.rows.map (fun r => (r.Hash, r.Index)) := by
  simp only [List.any_eq_true, sameKey, Bool.and_eq_true, beq_iff_eq, List.mem_map,
    Prod.mk.injEq]
  constructor
  · rintro ⟨x, hx, h1, h2⟩
    exact ⟨x, hx, h1.symm, h2.symm⟩
  · rintro ⟨x, hx, h1, h2⟩
    exact ⟨x, hx, h1.symm, h2.symm⟩

theorem keys_insertOnConflict (set : transaction → transaction → transaction)
    (hset : ∀ r e, (set r e).Hash = r.Hash ∧ (set r e).Index = r.Index)
    (s : Store) (e : transaction) :
    (insertOnConflict set s e).rows.map (fun r => (r.Hash, r.Index)) =
      if (e.Hash, e.Index) ∈ s.rows.map (fun r => (r.Hash, r.Index)) then
        s.rows.map (fun r => (r.Hash, r.Index))
      else s.rows.map (fun r => (r.Hash, r.Index)) ++ [(e.Hash, e.Index)] := by
  unfold insertOnConflict
  by_cases hany : s.rows.any (sameKey e) = true
  · rw [if_pos hany, if_pos ((any_sameKey_iff s e).1 hany)]
    simp only [List.map_map]
    apply List.map_congr_left
    intro r _
    simp only [Function.comp]
    split
    · rw [(hset r e).1, (hset r e).2]
    · rfl
  · rw [if_neg hany, if_neg (fun h => hany ((any_sameKey_iff s e).2 h))]
    simp only [List.map_append, List.map_cons, List.map_nil]

theorem keys_insertOnConflict_nodup (set : transaction → transaction → transaction)
    (hset : ∀ r e, (set r e).Hash = r.Hash ∧ (set r e).Index = r.Index)
    (s : Store) (e : transaction) (hs : s.KeysUnique) :
    (insertOnConflict set s e).KeysUnique ∧
      ((insertOnConflict set s e).rows.map (fun r => (r.Hash, r.Index))).toFinset =
        insert (e.Hash, e.Index) (s.rows.map (fun r => (r.Hash, r.Index))).toFinset := by
  unfold Store.KeysUnique at hs ⊢
  rw [keys_insertOnConflict set hset]
  split
  · rename_i hmem
    refine ⟨hs, ?_⟩
    rw [Finset.insert_eq_of_mem (List.mem_toFinset.2 hmem)]
  · rename_i hmem
    refine ⟨?_, ?_⟩
    · rw [List.nodup_append]
      refine ⟨hs, List.nodup_singleton _, ?_⟩
      intro a ha hb
      rw [List.mem_singleton] at hb
      exact hmem (hb ▸ ha)
    · ext a
      simp only [List.toFinset_append, List.toFinset_cons, List.toFinset_nil,
        Finset.mem_union, Finset.mem_insert, List.mem_toFinset, Finset.mem_singleton,
        insert_emptyc_eq]
      tauto

theorem createFold_keys (now : Int) :
    ∀ (txs : List model.Transaction) (s : Store), s.KeysUnique →
      Store.KeysUnique
          (txs.foldl (fun st tx => insertOnConflict createConflict st (createValues now tx)) s) ∧
        ((txs.foldl (fun st tx => insertOnConflict createConflict st (createValues now tx))
            s).rows.map (fun r => (r.Hash, r.Index))).toFinset =
          (s.rows.map (fun r => (r.Hash, r.Index))).toFinset ∪ (batchKeys txs).toFinset := by
  intro txs
  induction txs with
  | nil => intro s hs; exact ⟨hs, by simp [batchKeys]⟩
  | cons tx rest ih =>
    intro s hs
    simp only [List.foldl_cons]
    obtain ⟨h1, h2⟩ := keys_insertOnConflict_nodup createConflict createConflict_key s
      (createValues now tx) hs
    obtain ⟨h3, h4⟩ := ih _ h1
    refine ⟨h3, ?_⟩
    rw [h4, h2]
    ext a
    simp only [batchKeys, List.map_cons, List.toFinset_cons, Finset.mem_union,
      Finset.mem_insert, List.mem_toFinset, createValues]
    tauto

theorem createTransactions_keys (IsBase64Alphabet : String → Bool) (now : Int) (s s' : Store)
    (transactions : List (Option model.Transaction)) (hs : s.KeysUnique)
    (hrun : CreateTransactions IsBase64Alphabet now s transactions = .ok s') :
    s'.KeysUnique ∧
      (s'.rows.map (fun r => (r.Hash, r.Index))).toFinset =
        (s.rows.map (fun r => (r.Hash, r.Index))).toFinset ∪
          (batchKeys (transactions.filterMap id)).toFinset := by
  unfold CreateTransactions at hrun
  split at hrun
  · rename_i hlen
    have : transactions = [] := List.length_eq_zero.1 hlen
    subst this
    simp only [Except.ok.injEq] at hrun
    subst hrun
    exact ⟨hs, by simp [batchKeys]⟩
  · cases hc : createCheck IsBase64Alphabet transactions with
    | error e => rw [hc] at hrun; cases hrun
    | ok txs =>
      rw [hc] at hrun
      simp only at hrun
      split at hrun
      · simp only [Except.ok.injEq] at hrun
        subst hrun
        have hl := createCheck_ok IsBase64Alphabet transactions txs hc
        have hfm : transactions.filterMap id = txs := by
          rw [hl, List.filterMap_map]
          simp
        rw [hfm]
        exact createFold_keys now txs s hs
      · cases hrun

end cockroach

namespace cockroach
open common_model

theorem createAll_keys (IsBase64Alphabet : String → Bool) :
    ∀ (calls : List (Int × List (Option model.Transaction))) (s s' : Store),
      s.KeysUnique → createAll IsBase64Alphabet calls s = .ok s' →
      s'.KeysUnique ∧
        (s'.rows.map (fun r => (r.Hash, r.Index))).toFinset =
          (s.rows.map (fun r => (r.Hash, r.Index))).toFinset ∪ (appliedKeys calls).toFinset := by
  intro calls
  induction calls with
  | nil =>
    intro s s' hs hrun
    simp only [createAll, Except.ok.injEq] at hrun
    subst hrun
    exact ⟨hs, by simp [appliedKeys, batchKeys]⟩
  | cons call rest ih =>
    intro s s' hs hrun
    simp only [createAll] at hrun
    cases hc : CreateTransactions IsBase64Alphabet call.1 s call.2 with
    | error e => rw [hc] at hrun; cases hrun
    | ok s1 =>
      rw [hc] at hrun
      simp only at hrun
      obtain ⟨h1, h2⟩ := createTransactions_keys IsBase64Alphabet call.1 s s1 call.2 hs hc
      obtain ⟨h3, h4⟩ := ih s1 s' h1 hrun
      refine ⟨h3, ?_⟩
      rw [h4, h2]
      ext a
      simp only [appliedKeys, batchKeys, List.map_cons, List.flatten_cons, List.map_append,
        List.toFinset_append, Finset.mem_union, List.mem_toFinset]
      tauto

/-- C8: starting from the empty table, after any run of successful calls to
`CreateTransactions`, whatever the transfers, their order and their grouping
into calls, the number of stored rows is the number of distinct `(hash, idx)`
pairs among the transfers handed over. -/
theorem createTransactions_row_count (IsBase64Alphabet : String → Bool)
    (calls : List (Int × List (Option model.Transaction))) (s' : Store)
    (hrun : createAll IsBase64Alphabet calls Store.empty = .ok s') :
    s'.rows.length = (appliedKeys calls).dedup.length := by
  have hempty : Store.empty.KeysUnique := by
    unfold Store.KeysUnique Store.empty
    exact List.nodup_nil
  obtain ⟨h1, h2⟩ := createAll_keys IsBase64Alphabet calls Store.empty s' hempty hrun
  have hlen : s'.rows.length = (s'.rows.map (fun r => (r.Hash, r.Index))).length := by
    rw [List.length_map]
  rw [hlen, ← List.toFinset_card_of_nodup h1, h2, ← List.card_toFinset]
  simp [Store.empty]

end cockroach

namespace cockroach
open common_model

/-- C6, at a concrete input: of five rows, the two old unpinned transfers are
deleted; the broadcast row, the transfer of block 50 and the pinned transfer
stay. -/
theorem garbageCollectTransactions_deletes_exactly_witness :
    GarbageCollectTransactions 6 sample.gcStore 10 =
      some { sample.gcStore with
        rows := sample.gcStore.rows.filter (fun r => decide
          (¬ (r.Pinned = false ∧ r.Broadcasted = false ∧
            ∃ b ∈ r.BlockNumber, b ≤ ((10 : Nat) : Int)))) } :=
  garbageCollectTransactions_deletes_exactly 6 sample.gcStore 10
    (by unfold Store.IdsUnique; decide) (by decide)

/-- C7, at a concrete input: the row of `op5A` is stored with status SUCCESS
and the message of an earlier failed attempt; it is returned without it. -/
theorem getTransactions_success_has_no_message_witness :
    ∃ txs s',
      GetTransactions sample.IsBase64Alphabet (Store.mk [sample.upgradedRow] 10) ["op5A"] =
        .ok (txs, s') ∧
      txs.length = 1 ∧
      ∀ t ∈ txs, t.Status = FromStatus .SUCCESS → t.Message = none :=
  ⟨_, _, rfl, rfl,
    getTransactions_success_has_no_message sample.IsBase64Alphabet
      (Store.mk [sample.upgradedRow] 10) _ ["op5A"] _ rfl⟩

/-- C8, at a concrete input: three transfers in three calls, two distinct
keys, two rows. -/
theorem createTransactions_row_count_witness :
    ∃ s', createAll sample.IsBase64Alphabet sample.calls Store.empty = .ok s' ∧
      (appliedKeys sample.calls).length = 3 ∧
      s'.rows.length = (appliedKeys sample.calls).dedup.length :=
  ⟨_, rfl, rfl,
    createTransactions_row_count sample.IsBase64Alphabet sample.calls _ rfl⟩

/-- C9 fails on the code: the table holds two rows of the operation `op5A`
(idx 0 and 1), both from `tz1a` and in block 5 (timestamp 300). Both match the
range query for `tz1a` and both are returned, but the total is 1: the count
query takes the `UNION` of the column `hash` alone, so it counts distinct
hashes, not rows. The same holds for the date range. -/
theorem between_total_counts_hashes_not_rows :
    (sample.batchStore.rows.filter (fun r => decide
      ((r.SourceAddress = some "tz1a" ∨ r.DestinationAddress = some "tz1a") ∧
        ∃ b ∈ r.BlockNumber, (0 : Int) ≤ b ∧ b ≤ 10))).length = 2 ∧
    GetTransactionsBetweenBlocks sample.IsBase64Alphabet sample.batchStore ["tz1a"] 0 10 100 0 =
      .ok (toModelTransactions sample.batchStore.rows, 1, sample.batchStore) ∧
    (sample.batchStore.rows.filter (fun r => decide
      ((r.SourceAddress = some "tz1a" ∨ r.DestinationAddress = some "tz1a") ∧
        ∃ t ∈ r.Timestamp, (0 : Int) ≤ t ∧ t ≤ 1000))).length = 2 ∧
    GetTransactionsBetweenDates sample.IsBase64Alphabet sample.batchStore ["tz1a"] 0 1000 100 0 =
      .ok (toModelTransactions sample.batchStore.rows, 1, sample.batchStore) :=
  ⟨by decide, rfl, by decide, rfl⟩

theorem lookup_none_not_any (s : Store) (e : transaction)
    (h : s.lookup e.Hash e.Index = none) : s.rows.any (sameKey e) = false := by
  unfold Store.lookup at h
  rw [List.find?_eq_none] at h
  rw [Bool.eq_false_iff]
  intro hany
  rcases List.any_eq_true.1 hany with ⟨x, hx, hk⟩
  apply h x hx
  simp only [sameKey, Bool.and_eq_true, beq_iff_eq] at hk
  simp [hk.1, hk.2]

theorem broadcastConflict_key (r e : transaction) :
    (broadcastConflict r e).Hash = r.Hash ∧ (broadcastConflict r e).Index = r.Index :=
  ⟨rfl, rfl⟩

/-- C10: after `Broadcast`, the row stored under (hash, 0) has broadcasted =
true, status NEW, message NULL and broadcasted_at_block 0. If no row was stored
under that key before, its block_number is -1 and its rawtx is the submitted
one; if a row was stored under that key before (a mined row in particular), its
block_number, addresses, fee and rawtx are those of that row. -/
theorem broadcast_stores_new_row (now : Int) (s : Store) (tx : model.Transaction) :
    ∃ r', (Broadcast now s tx).lookup tx.Hash 0 = some r' ∧
      r'.Broadcasted = true ∧ r'.Status = .NEW ∧ r'.Message = none ∧
      r'.BroadcastedAtBlock = some 0 ∧
      (s.lookup tx.Hash 0 = none →
        r'.BlockNumber = some (-1) ∧ r'.RawTransaction = tx.RawTransaction) ∧
      (∀ r, s.lookup tx.Hash 0 = some r →
        r'.BlockNumber = r.BlockNumber ∧ r'.SourceAddress = r.SourceAddress ∧
        r'.DestinationAddress = r.DestinationAddress ∧ r'.Fee = r.Fee ∧
        r'.RawTransaction = r.RawTransaction) := by
  cases hl : s.lookup tx.Hash 0 with
  | some r =>
    have h := lookup_insertOnConflict_same broadcastConflict broadcastConflict_key s
      (broadcastValues now tx) r hl
    refine ⟨broadcastConflict r (broadcastValues now tx), h, rfl, rfl, rfl, rfl, ?_, ?_⟩
    · intro hc; cases hc
    · intro r0 hr0
      simp only [Option.some.injEq] at hr0
      subst hr0
      exact ⟨rfl, rfl, rfl, rfl, rfl⟩
  | none =>
    have hany := lookup_none_not_any s (broadcastValues now tx) hl
    refine ⟨{ broadcastValues now tx with ID := s.nextID }, ?_, rfl, rfl, rfl, rfl, ?_, ?_⟩
    · unfold Broadcast insertOnConflict
      rw [hany]
      unfold Store.lookup at hl ⊢
      simp only [Bool.false_eq_true, if_false, List.find?_append, hl, Option.none_or]
      simp [broadcastValues]
    · intro _; exact ⟨rfl, rfl⟩
    · intro r0 hr0; cases hr0

end cockroach

namespace cockroach
open common_model

theorem deleteBlockLoop_deletes (limit blockNumber : Nat) (hlimit : 0 < limit) :
    ∀ (fuel : Nat) (s : Store), s.IdsUnique →
      (s.rows.filter (blockWhere blockNumber)).length < fuel →
      deleteBlockLoop limit blockNumber fuel s =
        some { s with rows := s.rows.filter (fun r => !blockWhere blockNumber r) } := by
  intro fuel
  induction fuel with
  | zero => intro s _ h; omega
  | succ fuel ih =>
    intro s hid hfuel
    unfold deleteBlockLoop
    simp only
    split
    · rename_i hlen
      have hnil : s.rows.filter (blockWhere blockNumber) = [] := by
        simp only [getTransactionIDsForBlock, List.length_map, List.length_take] at hlen
        have : (s.rows.filter (blockWhere blockNumber)).length = 0 := by omega
        exact List.length_eq_zero.1 this
      have hall : s.rows.filter (fun r => !blockWhere blockNumber r) = s.rows := by
        rw [List.filter_eq_self]
        intro r hr
        rw [List.filter_eq_nil_iff] at hnil
        simpa using hnil r hr
      rw [hall]
    · rename_i hlen
      rw [poolDo_deleteTransactionIDs]
      have hidsmem : ∀ r ∈ s.rows, (getTransactionIDsForBlock s limit blockNumber).contains r.ID = true →
          blockWhere blockNumber r = true := by
        intro r hr hc
        simp only [getTransactionIDsForBlock, List.contains_iff_exists_mem_beq, beq_iff_eq,
          exists_eq_right', List.mem_map] at hc
        rcases hc with ⟨y, hy, hyid⟩
        have hyf := List.mem_of_mem_take hy
        rw [List.mem_filter] at hyf
        have : y = r := List.inj_on_of_nodup_map hid hyf.1 hr hyid
        rw [← this]
        exact hyf.2
      have hid' : Store.IdsUnique
          (Store.mk (s.rows.filter
            (fun r => !(getTransactionIDsForBlock s limit blockNumber).contains r.ID)) s.nextID) := by
        unfold Store.IdsUnique
        exact List.Nodup.sublist (List.Sublist.map _ (List.filter_sublist _)) hid
      have hkeep : (s.rows.filter
            (fun r => !(getTransactionIDsForBlock s limit blockNumber).contains r.ID)).filter
            (fun r => !blockWhere blockNumber r) =
          s.rows.filter (fun r => !blockWhere blockNumber r) := by
        rw [List.filter_filter]
        apply List.filter_congr
        intro r hr
        cases hg : blockWhere blockNumber r with
        | true => simp
        | false =>
          cases hc : (getTransactionIDsForBlock s limit blockNumber).contains r.ID with
          | false => simp
          | true =>
            have := hidsmem r hr hc
            rw [hg] at this
            cases this
      have hless : ((s.rows.filter
            (fun r => !(getTransactionIDsForBlock s limit blockNumber).contains r.ID)).filter
            (blockWhere blockNumber)).length < (s.rows.filter (blockWhere blockNumber)).length := by
        have hcomm : (s.rows.filter
            (fun r => !(getTransactionIDsForBlock s limit blockNumber).contains r.ID)).filter
            (blockWhere blockNumber) =
            (s.rows.filter (blockWhere blockNumber)).filter
              (fun r => !(getTransactionIDsForBlock s limit blockNumber).contains r.ID) := by
          rw [List.filter_filter, List.filter_filter]
          apply List.filter_congr
          intro r _
          exact Bool.and_comm _ _
        rw [hcomm, List.length_filter_lt_length_iff_exists]
        cases htk : (s.rows.filter (blockWhere blockNumber)).take limit with
        | nil =>
          exfalso
          apply hlen
          simp [getTransactionIDsForBlock, htk]
        | cons y rest =>
          have hy : y ∈ (s.rows.filter (blockWhere blockNumber)).take limit := by
            rw [htk]; exact List.mem_cons_self _ _
          refine ⟨y, List.mem_of_mem_take hy, ?_⟩
          have : (getTransactionIDsForBlock s limit blockNumber).contains y.ID = true := by
            simp only [getTransactionIDsForBlock, List.contains_iff_exists_mem_beq, beq_iff_eq,
              exists_eq_right', List.mem_map]
            exact ⟨y, hy, rfl⟩
          rw [this]
          decide
      have := ih _ hid' (by simp only; omega)
      rw [this]
      simp only [hkeep]


theorem blockWhere_iff (blockNumber : Nat) (r : transaction) :
    blockWhere blockNumber r = true ↔ r.BlockNumber = some (blockNumber : Int) := by
  unfold blockWhere
  exact beq_iff_eq

/-- C18: on a table whose ids are unique, `DeleteBlockTransactions` returns
once it is given more rounds than the table has rows, and the table it leaves
is the old one without the rows whose block_number is `blockNumber`, whatever
their pinned and broadcasted flags; every row with another block_number (-1
and NULL included) is kept as it was, in the same order. -/
theorem deleteBlockTransactions_deletes_exactly (fuel : Nat) (s : Store)
    (blockNumber : Nat) (hid : s.IdsUnique) (hfuel : s.rows.length < fuel) :
    DeleteBlockTransactions fuel s blockNumber =
      some { s with
        rows := s.rows.filter (fun r => decide (r.BlockNumber ≠ some (blockNumber : Int))) } := by
  have hfun : (fun r : transaction => decide (r.BlockNumber ≠ some (blockNumber : Int))) =
      (fun r => !blockWhere blockNumber r) := by
    funext r
    rw [Bool.eq_iff_iff, decide_eq_true_iff]
    simp [blockWhere]
  rw [hfun]
  unfold DeleteBlockTransactions
  apply deleteBlockLoop_deletes 50000 blockNumber (by decide) fuel s hid
  exact lt_of_le_of_lt (List.length_filter_le _ _) hfuel

/-- C18, at a concrete input: of five rows the pinned row of block 7 is
deleted; the rows of blocks 5 and 50 and the broadcast row (block_number -1)
stay. -/
theorem deleteBlockTransactions_deletes_exactly_witness :
    DeleteBlockTransactions 6 sample.gcStore 7 =
      some { sample.gcStore with
        rows := sample.gcStore.rows.filter
          (fun r => decide (r.BlockNumber ≠ some ((7 : Nat) : Int))) } :=
  deleteBlockTransactions_deletes_exactly 6 sample.gcStore 7
    (by unfold Store.IdsUnique; decide) (by decide)

end cockroach

namespace cockroach
open common_model

theorem gcBroadcastWhere_iff (beforeBlock : Nat) (r : transaction) :
    gcBroadcastWhere beforeBlock r = true ↔
      (r.Broadcasted = true ∧ (r.Status = .PENDING ∨ r.Status = .FAILURE) ∧
        r.BlockNumber = some (-1) ∧ ∃ b ∈ r.CreatedAtBlockNumber, b ≤ beforeBlock) := by
  unfold gcBroadcastWhere
  cases hb : r.CreatedAtBlockNumber with
  | none => simp
  | some b =>
    simp only [Bool.and_eq_true, Bool.or_eq_true, beq_iff_eq, decide_eq_true_eq,
      Option.mem_def, Option.some.injEq, exists_eq_left', and_assoc]

theorem updateTimeout_absorb (s : Store) (hs hs' : List String) (hsub : ∀ x ∈ hs', x ∈ hs) :
    updateTimeout (updateTimeout s hs) hs' = updateTimeout s hs := by
  unfold updateTimeout
  simp only [List.map_map]
  congr 1
  apply List.map_congr_left
  intro r _
  simp only [Function.comp]
  by_cases h1 : hs.contains r.Hash = true
  · simp only [h1, if_true]
    split <;> rfl
  · have h2 : hs'.contains r.Hash = false := by
      rw [Bool.eq_false_iff]
      intro hc
      apply h1
      rw [List.contains_iff_exists_mem_beq] at hc ⊢
      rcases hc with ⟨x, hx, hxe⟩
      exact ⟨x, hsub x hx, hxe⟩
    rw [Bool.not_eq_true] at h1
    simp only [h1, h2, Bool.false_eq_true, if_false]

theorem gcBroadcastsLoop_store :
    ∀ (fuel : Nat) (hs : List String) (st : Store × List (List String)),
      hs.length < fuel →
      ∃ statements, gcBroadcastsLoop fuel hs st = some (updateTimeout st.1 hs, statements) := by
  intro fuel
  induction fuel with
  | zero => intro hs st h; omega
  | succ fuel ih =>
    intro hs st hlen
    unfold gcBroadcastsLoop
    split
    · rename_i h0
      have : hs = [] := List.length_eq_zero.1 h0
      subst this
      refine ⟨st.2, ?_⟩
      simp [updateTimeout]
    · rename_i h0
      simp only
      have hdrop : (hs.drop (if 100 > hs.length then hs.length else 100)).length < fuel := by
        rw [List.length_drop]
        split <;> omega
      obtain ⟨statements, hst⟩ := ih (hs.drop (if 100 > hs.length then hs.length else 100))
        (updateTimeout st.1 hs, st.2 ++ [hs]) hdrop
      refine ⟨statements, ?_⟩
      rw [hst]
      simp only
      rw [updateTimeout_absorb]
      intro x hx
      exact List.mem_of_mem_drop hx

/-- C11 (amended): `GetBroadcastsToGarbageCollect` returns the hashes of the
rows with broadcasted = true, status PENDING or FAILURE, block_number = -1 and
created_at_block at most `beforeBlock`, one per row in table order; given more
rounds than that list has hashes, `GarbageCollectBroadcasts` applied to it
returns and leaves the table in which every row whose hash is in the list has
status TIMEOUT, every other column of those rows and every row with another
hash being as before. -/
theorem garbageCollectBroadcasts_times_out_by_hash (fuel : Nat) (s : Store)
    (beforeBlock : Nat)
    (hfuel : (GetBroadcastsToGarbageCollect s beforeBlock).length < fuel) :
    GetBroadcastsToGarbageCollect s beforeBlock =
      (s.rows.filter (fun r => decide
        (r.Broadcasted = true ∧ (r.Status = .PENDING ∨ r.Status = .FAILURE) ∧
          r.BlockNumber = some (-1) ∧
          ∃ b ∈ r.CreatedAtBlockNumber, b ≤ beforeBlock))).map (fun r => r.Hash) ∧
    ∃ statements,
      GarbageCollectBroadcasts fuel s (GetBroadcastsToGarbageCollect s beforeBlock) =
        some ({ s with
                rows := s.rows.map (fun r =>
                  if r.Hash ∈ GetBroadcastsToGarbageCollect s beforeBlock then
                    { r with Status := .TIMEOUT }
                  else r) }, statements) := by
  constructor
  · have hfun : (fun r : transaction => decide
        (r.Broadcasted = true ∧ (r.Status = .PENDING ∨ r.Status = .FAILURE) ∧
          r.BlockNumber = some (-1) ∧
          ∃ b ∈ r.CreatedAtBlockNumber, b ≤ beforeBlock)) = gcBroadcastWhere beforeBlock := by
      funext r
      rw [Bool.eq_iff_iff, decide_eq_true_iff]
      exact (gcBroadcastWhere_iff beforeBlock r).symm
    rw [hfun]
    rfl
  · obtain ⟨statements, hst⟩ := gcBroadcastsLoop_store fuel
      (GetBroadcastsToGarbageCollect s beforeBlock) (s, []) hfuel
    refine ⟨statements, ?_⟩
    unfold GarbageCollectBroadcasts
    rw [hst]
    simp only [updateTimeout, List.contains_iff_exists_mem_beq, beq_iff_eq, exists_eq_right',
      decide_eq_true_eq]

/-- C11 (amended), at a concrete input: a pending broadcast of `op5A`, created
at block 7, together with a mined transfer of the same operation. -/
theorem garbageCollectBroadcasts_times_out_by_hash_witness :
    GetBroadcastsToGarbageCollect sample.sharedHashStore 10 =
      (sample.sharedHashStore.rows.filter (fun r => decide
        (r.Broadcasted = true ∧ (r.Status = .PENDING ∨ r.Status = .FAILURE) ∧
          r.BlockNumber = some (-1) ∧
          ∃ b ∈ r.CreatedAtBlockNumber, b ≤ 10))).map (fun r => r.Hash) ∧
    ∃ statements,
      GarbageCollectBroadcasts 2 sample.sharedHashStore
          (GetBroadcastsToGarbageCollect sample.sharedHashStore 10) =
        some ({ sample.sharedHashStore with
                rows := sample.sharedHashStore.rows.map (fun r =>
                  if r.Hash ∈ GetBroadcastsToGarbageCollect sample.sharedHashStore 10 then
                    { r with Status := .TIMEOUT }
                  else r) }, statements) :=
  garbageCollectBroadcasts_times_out_by_hash 2 sample.sharedHashStore 10 (by decide)

/-- C11 as stated fails: the table holds the pending broadcast-only row
(`op5A`, idx 0) and a mined transfer (`op5A`, idx 1, block 5, status SUCCESS).
Only the first is selected by `GetBroadcastsToGarbageCollect`, yet after
`GarbageCollectBroadcasts` on the selection the mined row has status TIMEOUT
as well: the update goes by hash. -/
theorem garbageCollectBroadcasts_changes_mined_row :
    GetBroadcastsToGarbageCollect sample.sharedHashStore 10 = ["op5A"] ∧
    gcBroadcastWhere 10 (sample.minedRow 2 "op5A" 1 5) = false ∧
    sample.sharedHashStore.lookup "op5A" 1 = some (sample.minedRow 2 "op5A" 1 5) ∧
    (sample.minedRow 2 "op5A" 1 5).Status = .SUCCESS ∧
    (GarbageCollectBroadcasts 2 sample.sharedHashStore
        (GetBroadcastsToGarbageCollect sample.sharedHashStore 10)).map
      (fun res => (res.1.lookup "op5A" 1).map (fun r => r.Status)) =
      some (some .TIMEOUT) := by
  decide

set_option maxRecDepth 100000 in
/-- C12 fails on the code: for 101 distinct hashes `GarbageCollectBroadcasts`
runs two statements; the first names all 101 hashes, not a batch of 100, and
the second names the last hash again, so the statements name 102 hashes in
all. -/
theorem garbageCollectBroadcasts_names_whole_list :
    sample.manyHashes.length = 101 ∧ sample.manyHashes.Nodup ∧
    (GarbageCollectBroadcasts 3 Store.empty sample.manyHashes).map
      (fun res => res.2.map List.length) = some [101, 1] ∧
    (GarbageCollectBroadcasts 3 Store.empty sample.manyHashes).map
      (fun res => res.2.map (fun args => args.count (String.mk (List.replicate 101 'a')))) =
      some [1, 1] := by
  decide

end cockroach

namespace cockroach
open common_model

theorem mem_chunks_iff {α : Type} (l : List α) (x : α) (b : Nat) (hb : 0 < b) :
    (∃ k, k < (l.length + b - 1) / b ∧
        x ∈ (l.take (min (k * b + b) l.length)).drop (k * b)) ↔ x ∈ l := by
  constructor
  · rintro ⟨k, _, hk⟩
    exact List.mem_of_mem_take (List.mem_of_mem_drop hk)
  · intro hx
    obtain ⟨i, hi, rfl⟩ := List.mem_iff_getElem.1 hx
    refine ⟨i / b, ?_, ?_⟩
    · rw [Nat.div_lt_iff_lt_mul hb]
      have h1 : (l.length + b - 1) / b * b + (l.length + b - 1) % b = l.length + b - 1 :=
        Nat.div_add_mod' _ _
      have h2 : (l.length + b - 1) % b < b := Nat.mod_lt _ hb
      omega
    · have hlow : i / b * b ≤ i := Nat.div_mul_le_self i b
      have hhigh : i < i / b * b + b := by
        have h1 : i / b * b + i % b = i := Nat.div_add_mod' _ _
        have h2 : i % b < b := Nat.mod_lt _ hb
        omega
      rw [List.mem_iff_getElem?]
      refine ⟨i - i / b * b, ?_⟩
      have hsum : i / b * b + (i - i / b * b) = i := by omega
      rw [List.getElem?_drop, List.getElem?_take, hsum, if_pos (lt_min hhigh hi)]
      exact List.getElem?_eq_getElem hi

theorem pinAddress_rows (s : Store) (a : String) :
    pinAddress s a =
      { s with
        rows := s.rows.map (fun r =>
          if r.SourceAddress = some a ∨ r.DestinationAddress = some a then
            { r with Pinned := true }
          else r) } := by
  unfold pinAddress
  simp only [List.map_map]
  congr 1
  apply List.map_congr_left
  intro r _
  simp only [Function.comp]
  cases r with
  | mk ID Hash Index BlockNumber SourceAddress DestinationAddress Amount Fee Counter Status
      RawTransaction Pinned Broadcasted Message Timestamp CreatedAt CreatedAtBlockNumber
      BroadcastedAtBlock =>
    by_cases h1 : SourceAddress = some a <;> by_cases h2 : DestinationAddress = some a <;>
      cases Pinned <;> simp [h1, h2]

theorem fold_pinAddress :
    ∀ (L : List String) (s : Store),
      L.foldl pinAddress s =
        { s with
          rows := s.rows.map (fun r =>
            if ∃ a ∈ L, r.SourceAddress = some a ∨ r.DestinationAddress = some a then
              { r with Pinned := true }
            else r) } := by
  intro L
  induction L with
  | nil => intro s; simp
  | cons a L ih =>
    intro s
    simp only [List.foldl_cons]
    rw [ih, pinAddress_rows]
    simp only [List.map_map]
    congr 1
    apply List.map_congr_left
    intro r _
    simp only [Function.comp, List.mem_cons, exists_eq_or_imp]
    by_cases h1 : r.SourceAddress = some a ∨ r.DestinationAddress = some a
    · simp only [h1, if_true, true_or]
      split <;> rfl
    · simp only [h1, if_false, false_or]

theorem fold_fold_pinAddress :
    ∀ (cs : List (List String)) (s : Store),
      cs.foldl (fun st c => c.foldl pinAddress st) s = cs.flatten.foldl pinAddress s := by
  intro cs
  induction cs with
  | nil => intro s; rfl
  | cons c cs ih =>
    intro s
    simp only [List.foldl_cons, List.flatten_cons, List.foldl_append]
    exact ih _

theorem markPinnedRounds_plain (db : String → Store → Except String Store)
    (addresses : List String) (hplain : ∀ a ∈ addresses, staysInLiteral a = true) :
    ∀ (ks : List Nat) (s : Store),
      markPinnedRounds db addresses ks s =
        (none, ks.foldl
          (fun st k =>
            ((addresses.take (min (k * 1000 + 1000) addresses.length)).drop (k * 1000)).foldl
              pinAddress st) s) := by
  intro ks
  induction ks with
  | nil => intro s; rfl
  | cons k ks ih =>
    intro s
    have hall : ((addresses.take (min (k * 1000 + 1000) addresses.length)).drop
        (k * 1000)).all staysInLiteral = true := by
      rw [List.all_eq_true]
      intro a ha
      exact hplain a (List.mem_of_mem_take (List.mem_of_mem_drop ha))
    unfold markPinnedRounds execPinQuery
    rw [if_pos hall]
    exact ih _

theorem markPinned_rows (db : String → Store → Except String Store) (s : Store)
    (addresses : List String) (hplain : ∀ a ∈ addresses, staysInLiteral a = true) :
    MarkPinned db s addresses =
      (none,
        { s with
          rows := s.rows.map (fun r =>
            if ∃ a ∈ addresses, r.SourceAddress = some a ∨ r.DestinationAddress = some a then
              { r with Pinned := true }
            else r) }) := by
  unfold MarkPinned
  rw [markPinnedRounds_plain db addresses hplain]
  have h := fold_fold_pinAddress
    ((List.range ((addresses.length + 1000 - 1) / 1000)).map
      (fun k => (addresses.take (min (k * 1000 + 1000) addresses.length)).drop (k * 1000))) s
  rw [List.foldl_map] at h
  rw [h, fold_pinAddress]
  congr 2
  apply List.map_congr_left
  intro r _
  have hiff : (∃ a ∈ ((List.range ((addresses.length + 1000 - 1) / 1000)).map
        (fun k => (addresses.take (min (k * 1000 + 1000) addresses.length)).drop
          (k * 1000))).flatten,
        r.SourceAddress = some a ∨ r.DestinationAddress = some a) ↔
      (∃ a ∈ addresses, r.SourceAddress = some a ∨ r.DestinationAddress = some a) := by
    constructor
    · rintro ⟨a, ha, hm⟩
      refine ⟨a, ?_, hm⟩
      simp only [List.mem_flatten, List.mem_map, List.mem_range] at ha
      rcases ha with ⟨c, ⟨k, hk, rfl⟩, hac⟩
      exact (mem_chunks_iff addresses a 1000 (by decide)).1 ⟨k, hk, hac⟩
    · rintro ⟨a, ha, hm⟩
      refine ⟨a, ?_, hm⟩
      obtain ⟨k, hk, hac⟩ := (mem_chunks_iff addresses a 1000 (by decide)).2 ha
      simp only [List.mem_flatten, List.mem_map, List.mem_range]
      exact ⟨_, ⟨k, hk, rfl⟩, hac⟩
  by_cases hc : ∃ a ∈ addresses, r.SourceAddress = some a ∨ r.DestinationAddress = some a
  · rw [if_pos hc, if_pos (hiff.2 hc)]
  · rw [if_neg hc, if_neg (fun h => hc (hiff.1 h))]

/-- For addresses that stay inside their literals (none holds an apostrophe),
whatever the database does with other texts: `MarkPinned` returns no error and
leaves the table in which every row whose source or destination address is one
of the given addresses has pinned = true, every other column of those rows and
every other row being as before; position by position, a row that was pinned
is still pinned; and running it a second time with the same addresses changes
nothing. -/
theorem markPinned_pins_plain_addresses (db : String → Store → Except String Store)
    (s : Store) (addresses : List String)
    (hplain : ∀ a ∈ addresses, staysInLiteral a = true) :
    MarkPinned db s addresses =
      (none,
        { s with
          rows := s.rows.map (fun r =>
            if ∃ a ∈ addresses, r.SourceAddress = some a ∨ r.DestinationAddress = some a then
              { r with Pinned := true }
            else r) }) ∧
    (∀ p ∈ List.zip s.rows (MarkPinned db s addresses).2.rows,
      p.1.Pinned = true → p.2.Pinned = true) ∧
    MarkPinned db (MarkPinned db s addresses).2 addresses = MarkPinned db s addresses := by
  refine ⟨markPinned_rows db s addresses hplain, ?_, ?_⟩
  · intro p hp hpin
    rw [markPinned_rows db s addresses hplain] at hp
    simp only at hp
    rw [List.zip_map_right] at hp
    rcases List.mem_map.1 hp with ⟨q, hq, rfl⟩
    have heq : q.1 = q.2 := by
      rcases List.mem_iff_getElem.1 hq with ⟨i, hi, hqi⟩
      rw [← hqi, List.getElem_zip]
    simp only [Prod.map_fst, Prod.map_snd, id_eq] at hpin ⊢
    split
    · rfl
    · rw [← heq]
      exact hpin
  · rw [markPinned_rows db (MarkPinned db s addresses).2 addresses hplain,
      markPinned_rows db s addresses hplain]
    simp only [List.map_map]
    congr 2
    apply List.map_congr_left
    intro r _
    simp only [Function.comp]
    by_cases hc : ∃ a ∈ addresses, r.SourceAddress = some a ∨ r.DestinationAddress = some a
    · simp only [hc, if_true]
    · simp only [hc, if_false]

/-- The guarantee for plain addresses at a concrete input: pinning `tz1A` and
`tz1C` pins the three transfers that name one of them and asks the database
nothing. -/
theorem markPinned_pins_plain_addresses_witness :
    (∀ a ∈ ["tz1A", "tz1C"], staysInLiteral a = true) ∧
    ∀ db, (MarkPinned db sample.addressStore ["tz1A", "tz1C"]).1 = none ∧
      (MarkPinned db sample.addressStore ["tz1A", "tz1C"]).2.rows.map (fun r => r.Pinned) =
        [true, true, true] ∧
      (MarkPinned db sample.addressStore ["tz1B"]).2.rows.map (fun r => r.Pinned) =
        [true, true, false] :=
  ⟨by decide, fun db =>
    ⟨congrArg Prod.fst
        (markPinned_pins_plain_addresses db sample.addressStore ["tz1A", "tz1C"]
          (by decide)).1,
      rfl, rfl⟩⟩

set_option maxRecDepth 100000 in
/-- On a text whose addresses stay inside their literals the sample database
runs the statements as `pinAddress` describes them. -/
theorem database_runs_plain_statements :
    sample.database (pinQuery ["tz1A", "tz1C"]) sample.addressStore =
      .ok (["tz1A", "tz1C"].foldl pinAddress sample.addressStore) ∧
    sample.database (pinQuery [sample.strayAddress]) sample.strayStore =
      .ok (pinAddress sample.strayStore sample.strayAddress) :=
  ⟨rfl, rfl⟩

/-- C19 fails on the code: `MarkPinned` writes each address between two
apostrophes as it is. The address `zz' OR 'a'='a` does not stay inside its
literal, the text of the round is the one shown, and `MarkPinned` returns what
the database answers to that text. Its condition `addr_from = 'zz' OR 'a'='a'
AND pinned = false` holds for every row that is not pinned: on a table where no
row has that address, all three rows are pinned. With the address `tz1'` the
text does not read as statements: the call returns an error and nothing is
pinned. -/
theorem markPinned_runs_text_of_address :
    staysInLiteral sample.injectedAddress = false ∧
    pinQuery [sample.injectedAddress] =
      "UPDATE xtz_tx SET pinned = true WHERE addr_from = \x27zz\x27 OR \x27a\x27=\x27a\x27 AND pinned = false;\nUPDATE xtz_tx SET pinned = true WHERE addr_to = \x27zz\x27 OR \x27a\x27=\x27a\x27 AND pinned = false;\n" ∧
    (∀ (db : String → Store → Except String Store) (s : Store),
      MarkPinned db s [sample.injectedAddress] =
        match db (pinQuery [sample.injectedAddress]) s with
        | .error err => (some ("failed to batch mark pinned: " ++ err), s)
        | .ok s1 => (none, s1)) ∧
    (∀ r ∈ sample.addressStore.rows,
      r.SourceAddress ≠ some sample.injectedAddress ∧
        r.DestinationAddress ≠ some sample.injectedAddress) ∧
    sample.addressStore.rows.map (fun r => r.Pinned) = [false, false, false] ∧
    MarkPinned sample.database sample.addressStore [sample.injectedAddress] =
      (none,
        { sample.addressStore with
          rows := sample.addressStore.rows.map (fun r => { r with Pinned := true }) }) ∧
    MarkPinned sample.database sample.addressStore [sample.quotedAddress] =
      (some "failed to batch mark pinned: syntax error", sample.addressStore) := by
  refine ⟨by decide, rfl, ?_, by decide, by decide, by decide, by decide⟩
  intro db s
  have h : MarkPinned db s [sample.injectedAddress] =
      match execPinQuery db s [sample.injectedAddress] with
      | .error err => (some ("failed to batch mark pinned: " ++ err), s)
      | .ok s1 => (none, s1) := rfl
  have hexec : execPinQuery db s [sample.injectedAddress] =
      db (pinQuery [sample.injectedAddress]) s := rfl
  rw [h, hexec]

/-- C20: for every lifecycle status `st`, after `UpdateBroadcast(hash, st,
message, atBlock)` every row with that hash has status `st`, message
`message` and broadcasted_at_block `atBlock`; every other column of those rows
and every row with a different hash are as before. -/
theorem updateBroadcast_sets_three_columns (s : Store) (hash message : String)
    (st : Status) (broadcastedAtBlock : Nat) :
    UpdateBroadcast s hash (FromStatus st) message broadcastedAtBlock =
      { s with
        rows := s.rows.map (fun r =>
          if r.Hash = hash then
            { r with
              Status := st
              Message := some message
              BroadcastedAtBlock := some broadcastedAtBlock }
          else r) } := by
  simp only [UpdateBroadcast, toStatus_fromStatus, beq_iff_eq]

end cockroach

namespace job

open common_model cockroach service

theorem subU64_of_le (a b : Nat) (hba : b ≤ a) (ha : a < two64) : subU64 a b = a - b := by
  unfold subU64 two64 at *
  omega

theorem subU64_lt (a b : Nat) : subU64 a b < two64 := by
  unfold subU64
  exact Nat.mod_lt _ (by unfold two64; decide)

theorem subU64_subU64_one (a i : Nat) : subU64 (subU64 a 1) i = subU64 a (i + 1) := by
  unfold subU64 two64
  omega

theorem addU64_subU64_succ (a k : Nat) : addU64 (subU64 a (k + 1)) 1 = subU64 a k := by
  unfold addU64 subU64 two64
  omega

/-- When the tip is at least the confirmation depth and `head = tip - depth`
is below the next block to index, which is the start block when no marker is
stored and the last stored height plus one otherwise, the tick returns without
error and leaves the state as it was: it fetches no block and writes no
transfer and no marker. -/
theorem do_nothing_when_head_below_next (bf : BlockFetcher)
    (IsBase64Alphabet : String → Bool) (node : Node) (faults : Faults) (fuel : Nat)
    (st : IndexerState) (tip : Nat)
    (hfuel : 0 < fuel) (hheight : node.GetHeight = .ok tip)
    (hdepth : bf.MaxOffset ≤ tip) (htip : tip < two64)
    (hfault : faults.GetLastBlock = false)
    (hbelow : tip - bf.MaxOffset <
      (match BlockStore.GetLastBlock st.blocks with
        | none => bf.StartBlock
        | some currentBlock => addU64 currentBlock.Number 1)) :
    bf.Do IsBase64Alphabet node faults fuel st = some (none, st) := by
  unfold BlockFetcher.Do
  rw [hheight]
  simp only [hfault, Bool.false_eq_true, if_false]
  rw [subU64_of_le tip bf.MaxOffset hdepth htip]
  obtain ⟨n, rfl⟩ : ∃ n, fuel = n + 1 := ⟨fuel - 1, by omega⟩
  unfold doLoop
  rw [if_neg (by omega)]

end job

namespace job

open common_model cockroach service

theorem subU64_zero (a : Nat) (ha : a < two64) : subU64 a 0 = a := by
  unfold subU64 two64 at *
  omega

theorem range_map_shift {β : Type} (f : Nat → β) (k : Nat) :
    (List.range (k + 1)).map f = f 0 :: (List.range k).map (fun i => f (i + 1)) := by
  rw [List.range_succ_eq_map, List.map_cons, List.map_map]
  rfl

theorem reorgsLoop_spec (node : Node) (faults : Faults) (fuel : Nat) :
    ∀ (n h : Nat) (acc : List Nat) (st : IndexerState) (w : Walk), h < two64 →
      reorgsLoop node faults fuel n h (subU64 h 1) acc st = some w →
      ∃ k : Nat,
        w.blocksToDelete = acc ++ (List.range k).map (fun i => subU64 h (i + 1)) ∧
        w.blockNumber = subU64 h k ∧
        w.previousBlock = subU64 h (k + 1) ∧
        w.st.blocks = st.blocks ∧
        w.st.trace = st.trace ++
          (List.range k).map (fun i => Event.deleteBlockTransactions (subU64 h (i + 1))) ∧
        (∀ i, i < k → ∃ b c sh ph,
          BlockStore.GetBlock st.blocks (subU64 h (i + 1)) = some b ∧ b.Hash = some sh ∧
          node.GetBlock (subU64 h i) = .ok c ∧ c.PreviousHash = some ph ∧ sh ≠ ph) ∧
        (w.aborted = false → ∃ b c sh,
          BlockStore.GetBlock st.blocks (subU64 h (k + 1)) = some b ∧ b.Hash = some sh ∧
          node.GetBlock (subU64 h k) = .ok c ∧ c.PreviousHash = some sh) := by
  intro n
  induction n with
  | zero => intro h acc st w _ hrun; simp [reorgsLoop] at hrun
  | succ n ih =>
    intro h acc st w hh hrun
    have hzero : subU64 h 0 = h := subU64_zero h hh
    have habort : ∀ w' : Walk,
        w' = { aborted := true, blockNumber := h, previousBlock := subU64 h 1
               blocksToDelete := acc, st := st } →
        ∃ k : Nat,
          w'.blocksToDelete = acc ++ (List.range k).map (fun i => subU64 h (i + 1)) ∧
          w'.blockNumber = subU64 h k ∧
          w'.previousBlock = subU64 h (k + 1) ∧
          w'.st.blocks = st.blocks ∧
          w'.st.trace = st.trace ++
            (List.range k).map (fun i => Event.deleteBlockTransactions (subU64 h (i + 1))) ∧
          (∀ i, i < k → ∃ b c sh ph,
            BlockStore.GetBlock st.blocks (subU64 h (i + 1)) = some b ∧ b.Hash = some sh ∧
            node.GetBlock (subU64 h i) = .ok c ∧ c.PreviousHash = some ph ∧ sh ≠ ph) ∧
          (w'.aborted = false → ∃ b c sh,
            BlockStore.GetBlock st.blocks (subU64 h (k + 1)) = some b ∧ b.Hash = some sh ∧
            node.GetBlock (subU64 h k) = .ok c ∧ c.PreviousHash = some sh) := by
      intro w' hw'
      subst hw'
      refine ⟨0, by simp, hzero.symm, rfl, rfl, by simp, ?_, ?_⟩
      · intro i hi; omega
      · intro hc; cases hc
    unfold reorgsLoop at hrun
    simp only at hrun
    split at hrun
    · exact habort w (Option.some.inj hrun).symm
    · cases hsb : BlockStore.GetBlock st.blocks (subU64 h 1) with
      | none =>
        rw [hsb] at hrun
        exact habort w (Option.some.inj hrun).symm
      | some previousStoredBlock =>
        rw [hsb] at hrun
        simp only at hrun
        cases hnb : node.GetBlock h with
        | error e =>
          rw [hnb] at hrun
          exact habort w (Option.some.inj hrun).symm
        | ok block =>
          rw [hnb] at hrun
          simp only at hrun
          cases hsh : previousStoredBlock.Hash with
          | none =>
            rw [hsh] at hrun
            exact habort w (Option.some.inj hrun).symm
          | some storedHash =>
            rw [hsh] at hrun
            simp only at hrun
            cases hph : block.PreviousHash with
            | none =>
              rw [hph] at hrun
              exact habort w (Option.some.inj hrun).symm
            | some previousHash =>
              rw [hph] at hrun
              simp only at hrun
              split at hrun
              · rename_i heq
                have hw := (Option.some.inj hrun).symm
                subst hw
                refine ⟨0, by simp, hzero.symm, rfl, rfl, by simp, ?_, ?_⟩
                · intro i hi; omega
                · intro _
                  refine ⟨previousStoredBlock, block, storedHash, hsb, hsh, ?_, ?_⟩
                  · rw [hzero]; exact hnb
                  · rw [hph, heq]
              · rename_i hne
                split at hrun
                · exact habort w (Option.some.inj hrun).symm
                · cases hdel : DeleteBlockTransactions fuel st.transactions (subU64 h 1) with
                  | none => rw [hdel] at hrun; cases hrun
                  | some s' =>
                    rw [hdel] at hrun
                    simp only at hrun
                    obtain ⟨k, h1, h2, h3, h4, h5, h6, h7⟩ :=
                      ih (subU64 h 1) (acc ++ [subU64 h 1]) _ w (subU64_lt h 1) hrun
                    refine ⟨k + 1, ?_, ?_, ?_, ?_, ?_, ?_, ?_⟩
                    · rw [h1, range_map_shift]
                      simp only [subU64_subU64_one, List.append_assoc, List.singleton_append,
                        Nat.zero_add]
                    · rw [h2, subU64_subU64_one]
                    · rw [h3, subU64_subU64_one]
                    · rw [h4]
                    · rw [h5, range_map_shift]
                      simp only [subU64_subU64_one, List.append_assoc, List.singleton_append,
                        Nat.zero_add]
                    · intro i hi
                      cases i with
                      | zero =>
                        refine ⟨previousStoredBlock, block, storedHash, previousHash, hsb, hsh,
                          ?_, hph, hne⟩
                        rw [hzero]; exact hnb
                      | succ i =>
                        obtain ⟨b, c, sh, ph, hb1, hb2, hb3, hb4, hb5⟩ := h6 i (by omega)
                        refine ⟨b, c, sh, ph, ?_, hb2, ?_, hb4, hb5⟩
                        · rw [← subU64_subU64_one]; exact hb1
                        · rw [← subU64_subU64_one]; exact hb3
                    · intro hab
                      obtain ⟨b, c, sh, hb1, hb2, hb3, hb4⟩ := h7 hab
                      refine ⟨b, c, sh, ?_, hb2, ?_, hb4⟩
                      · rw [← subU64_subU64_one]; exact hb1
                      · rw [← subU64_subU64_one]; exact hb3

end job

namespace job

open common_model cockroach service

theorem reorgs_spec (node : Node) (faults : Faults) (fuel h : Nat) (st st' : IndexerState)
    (isReorg : Bool) (reorgsFromBlockNumber : Nat) (hh : h < two64)
    (hrun : BlockFetcher.reorgs node faults fuel h st = some (isReorg, reorgsFromBlockNumber, st')) :
    ∃ k : Nat,
      st'.trace = st.trace ++
        (List.range k).map (fun i => Event.deleteBlockTransactions (subU64 h (i + 1))) ++
        (if isReorg then [Event.deleteBlocks ((List.range k).map (fun i => subU64 h (i + 1)))]
          else []) ∧
      st'.blocks =
        (if isReorg then
          BlockStore.DeleteBlocks st.blocks ((List.range k).map (fun i => subU64 h (i + 1)))
          else st.blocks) ∧
      (∀ i, i < k → ∃ b c sh ph,
        BlockStore.GetBlock st.blocks (subU64 h (i + 1)) = some b ∧ b.Hash = some sh ∧
        node.GetBlock (subU64 h i) = .ok c ∧ c.PreviousHash = some ph ∧ sh ≠ ph) ∧
      (isReorg = true → 1 ≤ k ∧ reorgsFromBlockNumber = subU64 h (k + 1) ∧
        ∃ b c sh,
          BlockStore.GetBlock st.blocks (subU64 h (k + 1)) = some b ∧ b.Hash = some sh ∧
          node.GetBlock (subU64 h k) = .ok c ∧ c.PreviousHash = some sh) := by
  unfold BlockFetcher.reorgs at hrun
  cases hw : reorgsLoop node faults fuel fuel h (subU64 h 1) [] st with
  | none => rw [hw] at hrun; cases hrun
  | some w =>
    rw [hw] at hrun
    simp only at hrun
    obtain ⟨k, h1, h2, h3, h4, h5, h6, h7⟩ := reorgsLoop_spec node faults fuel fuel h [] st w hh hw
    have hno : ∀ (q : Bool × Nat × IndexerState), q = (false, 0, w.st) →
        some q = some (isReorg, reorgsFromBlockNumber, st') →
        ∃ k : Nat,
          st'.trace = st.trace ++
            (List.range k).map (fun i => Event.deleteBlockTransactions (subU64 h (i + 1))) ++
            (if isReorg then
              [Event.deleteBlocks ((List.range k).map (fun i => subU64 h (i + 1)))]
              else []) ∧
          st'.blocks =
            (if isReorg then
              BlockStore.DeleteBlocks st.blocks ((List.range k).map (fun i => subU64 h (i + 1)))
              else st.blocks) ∧
          (∀ i, i < k → ∃ b c sh ph,
            BlockStore.GetBlock st.blocks (subU64 h (i + 1)) = some b ∧ b.Hash = some sh ∧
            node.GetBlock (subU64 h i) = .ok c ∧ c.PreviousHash = some ph ∧ sh ≠ ph) ∧
          (isReorg = true → 1 ≤ k ∧ reorgsFromBlockNumber = subU64 h (k + 1) ∧
            ∃ b c sh,
              BlockStore.GetBlock st.blocks (subU64 h (k + 1)) = some b ∧ b.Hash = some sh ∧
              node.GetBlock (subU64 h k) = .ok c ∧ c.PreviousHash = some sh) := by
      intro q hq hqe
      subst hq
      simp only [Option.some.injEq, Prod.mk.injEq] at hqe
      obtain ⟨hr1, _, hr3⟩ := hqe
      subst hr1
      subst hr3
      refine ⟨k, ?_, ?_, h6, ?_⟩
      · simp [h5]
      · simp [h4]
      · intro hc; cases hc
    split at hrun
    · exact hno _ rfl hrun
    · rename_i hab
      split at hrun
      · exact hno _ rfl hrun
      · rename_i hbn
        split at hrun
        · exact hno _ rfl hrun
        · simp only [Option.some.injEq, Prod.mk.injEq] at hrun
          obtain ⟨hr1, hr2, hr3⟩ := hrun
          subst hr1
          subst hr3
          have hk : 1 ≤ k := by
            by_contra hk0
            have : k = 0 := by omega
            subst this
            apply hbn
            rw [h2, subU64_zero h hh]
          have hab' : w.aborted = false := by simpa using hab
          refine ⟨k, ?_, ?_, h6, ?_⟩
          · simp [h5, h1]
          · simp [h4, h1]
          · intro _
            exact ⟨hk, by rw [← hr2, h3], h7 hab'⟩

/-- C13: whatever `reorgs` at height `h` returns, the heights whose transfers
it has deleted are `h-1, h-2, ..., h-k` for some `k` (a contiguous range
ending at `h-1`, walked downwards; subtraction is that of `uint64`), the
markers it has deleted are those of the same heights or none, and for every
one of these heights `b-1` the stored marker hash of `b-1` and the
previous-hash the chain reports for block `b` are both present and differ: a
height whose stored hash agrees with the chain ends the walk and is not
deleted, and when a reorg is reported the walk has ended at such a height:
the stored hash of `h-k-1` is the previous-hash the chain reports for `h-k`. -/
theorem reorgs_deletes_only_diverging_heights (node : Node) (faults : Faults)
    (fuel h : Nat) (st st' : IndexerState) (isReorg : Bool) (reorgsFromBlockNumber : Nat)
    (hh : h < two64)
    (hrun : BlockFetcher.reorgs node faults fuel h st =
      some (isReorg, reorgsFromBlockNumber, st')) :
    ∃ k : Nat,
      st'.trace = st.trace ++
        (List.range k).map (fun i => Event.deleteBlockTransactions (subU64 h (i + 1))) ++
        (if isReorg then [Event.deleteBlocks ((List.range k).map (fun i => subU64 h (i + 1)))]
          else []) ∧
      st'.blocks =
        (if isReorg then
          BlockStore.DeleteBlocks st.blocks ((List.range k).map (fun i => subU64 h (i + 1)))
          else st.blocks) ∧
      (∀ i, i < k → ∃ b c sh ph,
        BlockStore.GetBlock st.blocks (subU64 h (i + 1)) = some b ∧ b.Hash = some sh ∧
        node.GetBlock (subU64 h i) = .ok c ∧ c.PreviousHash = some ph ∧ sh ≠ ph) ∧
      (isReorg = true → ∃ b c sh,
        BlockStore.GetBlock st.blocks (subU64 h (k + 1)) = some b ∧ b.Hash = some sh ∧
        node.GetBlock (subU64 h k) = .ok c ∧ c.PreviousHash = some sh) := by
  obtain ⟨k, h1, h2, h3, h4⟩ :=
    reorgs_spec node faults fuel h st st' isReorg reorgsFromBlockNumber hh hrun
  exact ⟨k, h1, h2, h3, fun hre => (h4 hre).2.2⟩

/-- C14: when the reorg check of the loop at height `h` reports a reorg, it
has rewound `k >= 1` heights: after the fetch of block `h` the calls are the
transfer deletes of `h-1, ..., h-k`, then one `DeleteBlocks` naming exactly
these heights, whose markers are gone from the block table; and the loop goes
on, in the same tick, with height `h-k`. -/
theorem reorg_restarts_at_lowest_rewound_height (bf : BlockFetcher)
    (IsBase64Alphabet : String → Bool) (node : Node) (faults : Faults) (fuel n h headBlock : Nat)
    (st st' : IndexerState) (block : Block) (reorgsFromBlockNumber : Nat)
    (hh : h < two64) (hle : h ≤ headBlock) (hblock : node.GetBlock h = .ok block)
    (hrun : BlockFetcher.reorgs node faults fuel h
      { st with trace := st.trace ++ [.fetchBlock h] } =
      some (true, reorgsFromBlockNumber, st')) :
    ∃ k : Nat, 1 ≤ k ∧
      st'.trace = st.trace ++ [.fetchBlock h] ++
        (List.range k).map (fun i => Event.deleteBlockTransactions (subU64 h (i + 1))) ++
        [Event.deleteBlocks ((List.range k).map (fun i => subU64 h (i + 1)))] ∧
      st'.blocks =
        BlockStore.DeleteBlocks st.blocks ((List.range k).map (fun i => subU64 h (i + 1))) ∧
      doLoop bf IsBase64Alphabet node faults fuel (n + 1) h headBlock st =
        doLoop bf IsBase64Alphabet node faults fuel n (subU64 h k) headBlock st' := by
  obtain ⟨k, h1, h2, _, h4⟩ :=
    reorgs_spec node faults fuel h _ st' true reorgsFromBlockNumber hh hrun
  obtain ⟨hk, hfrom, _⟩ := h4 rfl
  refine ⟨k, hk, ?_, ?_, ?_⟩
  · simpa using h1
  · simpa using h2
  · conv_lhs => unfold doLoop
    rw [if_pos hle]
    unfold BlockFetcher.indexBlock
    simp only [hblock, hrun]
    rw [hfrom, addU64_subU64_succ]

end job

namespace job

open common_model cockroach service

theorem insertedTransfers_append (a b : List Event) :
    insertedTransfers (a ++ b) = insertedTransfers a ++ insertedTransfers b := by
  induction a with
  | nil => rfl
  | cons e a ih =>
    cases e with
    | createTransactions txs ok =>
      cases ok
      · simpa [insertedTransfers] using ih
      · simp [insertedTransfers, ih]
    | fetchBlock _ => simpa [insertedTransfers] using ih
    | fetchTransactions _ => simpa [insertedTransfers] using ih
    | createBlock _ => simpa [insertedTransfers] using ih
    | deleteBlockTransactions _ => simpa [insertedTransfers] using ih
    | deleteBlocks _ => simpa [insertedTransfers] using ih

theorem hasFailedBatch_append (a b : List Event) :
    hasFailedBatch (a ++ b) = (hasFailedBatch a || hasFailedBatch b) := by
  induction a with
  | nil => rfl
  | cons e a ih =>
    cases e with
    | createTransactions txs ok =>
      cases ok
      · simp [hasFailedBatch]
      · simpa [hasFailedBatch] using ih
    | fetchBlock _ => simpa [hasFailedBatch] using ih
    | fetchTransactions _ => simpa [hasFailedBatch] using ih
    | createBlock _ => simpa [hasFailedBatch] using ih
    | deleteBlockTransactions _ => simpa [hasFailedBatch] using ih
    | deleteBlocks _ => simpa [hasFailedBatch] using ih

theorem createdBlocks_append (a b : List Event) :
    createdBlocks (a ++ b) = createdBlocks a ++ createdBlocks b := by
  induction a with
  | nil => rfl
  | cons e a ih =>
    cases e with
    | createBlock _ => simp [createdBlocks, ih]
    | createTransactions _ _ => simpa [createdBlocks] using ih
    | fetchBlock _ => simpa [createdBlocks] using ih
    | fetchTransactions _ => simpa [createdBlocks] using ih
    | deleteBlockTransactions _ => simpa [createdBlocks] using ih
    | deleteBlocks _ => simpa [createdBlocks] using ih

theorem insertBatches_spec (IsBase64Alphabet : String → Bool) (now : Int) :
    ∀ (slices : List (List model.Transaction)) (st : IndexerState) (aggr : Option String),
      (insertBatches IsBase64Alphabet now slices st aggr).1.blocks = st.blocks ∧
      ∃ evs,
        (insertBatches IsBase64Alphabet now slices st aggr).1.trace = st.trace ++ evs ∧
        createdBlocks evs = [] ∧
        ((insertBatches IsBase64Alphabet now slices st aggr).2 = none ↔
          (aggr = none ∧ hasFailedBatch evs = false)) ∧
        (hasFailedBatch evs = false → insertedTransfers evs = slices.flatten) := by
  intro slices
  induction slices with
  | nil =>
    intro st aggr
    exact ⟨rfl, [], by simp [insertBatches], rfl, by simp [insertBatches, hasFailedBatch],
      fun _ => rfl⟩
  | cons txs rest ih =>
    intro st aggr
    unfold insertBatches
    cases hc : CreateTransactions IsBase64Alphabet now st.transactions (txs.map some) with
    | ok s' =>
      simp only
      obtain ⟨h1, evs, h2, h3, h4, h5⟩ := ih
        { st with transactions := s', trace := st.trace ++ [.createTransactions txs true] } aggr
      refine ⟨h1, .createTransactions txs true :: evs, ?_, ?_, ?_, ?_⟩
      · rw [h2]; simp
      · simpa [createdBlocks] using h3
      · rw [h4]; simp [hasFailedBatch]
      · intro hf
        simp only [hasFailedBatch] at hf
        simp [insertedTransfers, h5 hf]
    | error e =>
      simp only
      obtain ⟨h1, evs, h2, h3, h4, h5⟩ := ih
        { st with trace := st.trace ++ [.createTransactions txs false] }
        (some (match aggr with
          | none => e
          | some a => e ++ ": " ++ a))
      refine ⟨h1, .createTransactions txs false :: evs, ?_, ?_, ?_, ?_⟩
      · rw [h2]; simp
      · simpa [createdBlocks] using h3
      · rw [h4]; simp [hasFailedBatch]
      · intro hf
        simp [hasFailedBatch] at hf

theorem take_drop_append {α : Type} (l : List α) (c a b : Nat) (hca : c ≤ a) (hab : a ≤ b) :
    (l.take a).drop c ++ (l.take b).drop a = (l.take b).drop c := by
  have h1 : l.take b = l.take a ++ (l.take b).drop a := by
    have := (List.take_append_drop a (l.take b)).symm
    rwa [List.take_take, min_eq_left hab] at this
  conv_rhs => rw [h1]
  rw [List.drop_append_eq_append_drop]
  congr 1
  by_cases hlen : c ≤ (l.take a).length
  · have : c - (l.take a).length = 0 := by omega
    rw [this, List.drop_zero]
  · have hl : (l.take a).length = l.length := by
      rw [List.length_take] at hlen ⊢
      omega
    have hnil : (l.take b).drop a = [] := by
      apply List.drop_eq_nil_of_le
      rw [List.length_take]
      rw [List.length_take] at hlen
      omega
    rw [hnil, List.drop_nil]

theorem windowSlices_flatten (BatchSize : Nat) (batch : List model.Transaction) (mn mx : Nat) :
    ∀ (n j : Nat),
      (windowSlices BatchSize batch mn mx n j).flatten =
        (batch.take (min (mn + BatchSize * (j + n)) mx)).drop (mn + BatchSize * j) := by
  intro n
  induction n with
  | zero =>
    intro j
    simp only [windowSlices, List.flatten_nil, Nat.add_zero]
    symm
    apply List.drop_eq_nil_of_le
    rw [List.length_take]
    omega
  | succ n ih =>
    intro j
    unfold windowSlices
    simp only
    split
    · rename_i hgt
      simp only [List.flatten_nil]
      symm
      apply List.drop_eq_nil_of_le
      rw [List.length_take]
      omega
    · rename_i hle
      rw [List.flatten_cons, ih]
      have hmul : BatchSize * (j + 1) = BatchSize * j + BatchSize := by ring
      have hmul2 : BatchSize * (j + 1 + n) = BatchSize * (j + (n + 1)) := by ring_nf
      have hmono : BatchSize * (j + 1) ≤ BatchSize * (j + (n + 1)) :=
        Nat.mul_le_mul_left _ (by omega)
      rw [hmul2]
      split
      · rename_i hover
        have hmin : min (mn + BatchSize * (j + (n + 1))) mx = mx := by omega
        rw [hmin]
        have hnil : (batch.take mx).drop (mn + BatchSize * (j + 1)) = [] := by
          apply List.drop_eq_nil_of_le
          rw [List.length_take]
          omega
        rw [hnil, List.append_nil]
      · rename_i hunder
        apply take_drop_append
        · omega
        · omega

theorem storeLoop_spec (bf : BlockFetcher) (IsBase64Alphabet : String → Bool) (now : Int)
    (batch : List model.Transaction) :
    ∀ (fuel i : Nat) (st st' : IndexerState) (err : Option String),
      storeLoop bf IsBase64Alphabet now batch fuel i st = some (err, st') →
      st'.blocks = st.blocks ∧
      ∃ evs,
        st'.trace = st.trace ++ evs ∧
        createdBlocks evs = [] ∧
        (err = none ↔ hasFailedBatch evs = false) ∧
        (hasFailedBatch evs = false → insertedTransfers evs = batch.drop i) := by
  intro fuel
  induction fuel with
  | zero => intro i st st' err h; simp [storeLoop] at h
  | succ fuel ih =>
    intro i st st' err hrun
    unfold storeLoop at hrun
    split at hrun
    · rename_i hi
      simp only at hrun
      obtain ⟨h1, evs, h2, h3, h4, h5⟩ := insertBatches_spec IsBase64Alphabet now
        (windowSlices bf.BatchSize batch i
          (if i + bf.BatchSize * bf.ParallelBatch > batch.length then batch.length
            else i + bf.BatchSize * bf.ParallelBatch) bf.ParallelBatch 0) st none
      have hwin : (windowSlices bf.BatchSize batch i
          (if i + bf.BatchSize * bf.ParallelBatch > batch.length then batch.length
            else i + bf.BatchSize * bf.ParallelBatch) bf.ParallelBatch 0).flatten =
          (batch.take (i + bf.BatchSize * bf.ParallelBatch)).drop i := by
        rw [windowSlices_flatten]
        simp only [Nat.zero_add, Nat.mul_zero, Nat.add_zero]
        split
        · rename_i hover
          have : min (i + bf.BatchSize * bf.ParallelBatch) batch.length = batch.length := by
            omega
          rw [this, List.take_of_length_le (le_refl _), List.take_of_length_le (by omega)]
        · rename_i hunder
          rw [min_self]
      split at hrun
      · rename_i e he
        simp only [Option.some.injEq, Prod.mk.injEq] at hrun
        obtain ⟨hr1, hr2⟩ := hrun
        subst hr1
        subst hr2
        refine ⟨h1, evs, h2, h3, ?_, ?_⟩
        · constructor
          · intro hc; cases hc
          · intro hf
            have := h4.2 ⟨rfl, hf⟩
            rw [he] at this
            cases this
        · intro hf
          have := h4.2 ⟨rfl, hf⟩
          rw [he] at this
          cases this
      · rename_i he
        obtain ⟨g1, evs2, g2, g3, g4, g5⟩ := ih _ _ st' err hrun
        have hok : hasFailedBatch evs = false := (h4.1 he).2
        refine ⟨by rw [g1, h1], evs ++ evs2, ?_, ?_, ?_, ?_⟩
        · rw [g2, h2, List.append_assoc]
        · rw [createdBlocks_append, h3, g3]; rfl
        · rw [hasFailedBatch_append, hok, Bool.false_or]
          exact g4
        · intro hf
          rw [hasFailedBatch_append, hok, Bool.false_or] at hf
          rw [insertedTransfers_append, h5 hok, g5 hf, hwin]
          have hall : batch.take (batch.length + (i + bf.BatchSize * bf.ParallelBatch)) =
              batch := List.take_of_length_le (by omega)
          have := take_drop_append batch i (i + bf.BatchSize * bf.ParallelBatch)
            (batch.length + (i + bf.BatchSize * bf.ParallelBatch)) (by omega) (by omega)
          rw [hall] at this
          exact this
    · rename_i hi
      simp only [Option.some.injEq, Prod.mk.injEq] at hrun
      obtain ⟨hr1, hr2⟩ := hrun
      subst hr1
      subst hr2
      refine ⟨rfl, [], by simp, rfl, by simp [hasFailedBatch], ?_⟩
      intro _
      simp only [insertedTransfers]
      symm
      apply List.drop_eq_nil_of_le
      omega

end job

namespace job

open common_model cockroach service

theorem quiet_deletes (f : Nat → Nat) :
    ∀ (l : List Nat),
      createdBlocks (l.map (fun i => Event.deleteBlockTransactions (f i))) = [] ∧
      hasFailedBatch (l.map (fun i => Event.deleteBlockTransactions (f i))) = false ∧
      insertedTransfers (l.map (fun i => Event.deleteBlockTransactions (f i))) = [] := by
  intro l
  induction l with
  | nil => exact ⟨rfl, rfl, rfl⟩
  | cons a l ih =>
    simp only [List.map_cons, createdBlocks, hasFailedBatch, insertedTransfers]
    exact ih

theorem createBlock_ok (blocks blocks' : List Block) (block : Block)
    (h : BlockStore.CreateBlock blocks block = .ok blocks') : blocks' = blocks ++ [block] := by
  unfold BlockStore.CreateBlock at h
  split at h
  · cases h
  · simp only [Except.ok.injEq] at h
    exact h.symm

theorem mem_deleteBlocks (blocks : List Block) (ns : List Nat) (b : Block)
    (h : b ∈ BlockStore.DeleteBlocks blocks ns) : b ∈ blocks := by
  unfold BlockStore.DeleteBlocks at h
  exact (List.mem_filter.1 h).1

/-- C15: whatever the loop body of `Do` returns for block `p`, the calls it
has added to the trace are of one of two shapes. Either no marker was written
(no `CreateBlock` call, no new marker in the block table), and then, if a batch
insert returned an error, the step ended with an error and the loop of the tick
returns that error at once; or the marker of `p` was written by the last call,
every call before it is not a marker write, no batch insert before it failed,
and the batches stored before it are, in order, all transfers the node
reported for `p`. -/
theorem marker_written_after_all_batches (bf : BlockFetcher)
    (IsBase64Alphabet : String → Bool) (node : Node) (faults : Faults) (fuel p : Nat)
    (st : IndexerState) (r : Step) (hp : p < two64)
    (hrun : bf.indexBlock IsBase64Alphabet node faults fuel p st = some r) :
    ∃ pre : List Event, createdBlocks pre = [] ∧
      ((r.st.trace = st.trace ++ pre ∧ (∀ b ∈ r.st.blocks, b ∈ st.blocks) ∧
          (hasFailedBatch pre = true → ∃ e, r = .failed e r.st ∧
            ∀ n headBlock, p ≤ headBlock →
              doLoop bf IsBase64Alphabet node faults fuel (n + 1) p headBlock st =
                some (some e, r.st))) ∨
        (r.st.trace = st.trace ++ pre ++ [.createBlock p] ∧
          hasFailedBatch pre = false ∧
          ∃ txs block, node.GetTransactions p = .ok txs ∧ node.GetBlock p = .ok block ∧
            insertedTransfers pre = txs ∧ r.st.blocks = st.blocks ++ [block])) := by
  have hrun0 := hrun
  unfold BlockFetcher.indexBlock at hrun
  simp only at hrun
  cases hb : node.GetBlock p with
  | error e =>
    rw [hb] at hrun
    simp only [Option.some.injEq] at hrun
    subst hrun
    exact ⟨[.fetchBlock p], rfl, Or.inl ⟨rfl, fun b hb => hb, fun hf => by
      simp [hasFailedBatch] at hf⟩⟩
  | ok block =>
    rw [hb] at hrun
    simp only at hrun
    cases hr : BlockFetcher.reorgs node faults fuel p
        { st with trace := st.trace ++ [.fetchBlock p] } with
    | none => rw [hr] at hrun; cases hrun
    | some q =>
      obtain ⟨isReorg, reorgsFromBlockNumber, st2⟩ := q
      rw [hr] at hrun
      obtain ⟨k, t1, t2, _, _⟩ :=
        reorgs_spec node faults fuel p _ st2 isReorg reorgsFromBlockNumber hp hr
      obtain ⟨q1, q2, q3⟩ := quiet_deletes (fun i => subU64 p (i + 1)) (List.range k)
      cases isReorg with
      | true =>
        simp only [Option.some.injEq] at hrun
        subst hrun
        simp only [if_true] at t1 t2
        refine ⟨[.fetchBlock p] ++
          (List.range k).map (fun i => Event.deleteBlockTransactions (subU64 p (i + 1))) ++
          [Event.deleteBlocks ((List.range k).map (fun i => subU64 p (i + 1)))], ?_,
          Or.inl ⟨?_, ?_, ?_⟩⟩
        · simp only [createdBlocks_append, q1]; rfl
        · simp only [Step.st, t1, List.append_assoc]
        · intro b hbm
          simp only [Step.st, t2] at hbm
          exact mem_deleteBlocks _ _ _ hbm
        · intro hf
          simp only [hasFailedBatch_append, q2] at hf
          simp [hasFailedBatch] at hf
      | false =>
        simp only [Bool.false_eq_true, if_false, List.append_nil] at t1 t2
        simp only at hrun
        cases hg : node.GetTransactions p with
        | error e =>
          rw [hg] at hrun
          simp only [Option.some.injEq] at hrun
          subst hrun
          refine ⟨[.fetchBlock p] ++
            (List.range k).map (fun i => Event.deleteBlockTransactions (subU64 p (i + 1))) ++
            [.fetchTransactions p], ?_, Or.inl ⟨?_, ?_, ?_⟩⟩
          · simp only [createdBlocks_append, q1]; rfl
          · simp only [Step.st, t1, List.append_assoc]
          · intro b hbm
            simp only [Step.st, t2] at hbm
            exact hbm
          · intro hf
            simp only [hasFailedBatch_append, q2] at hf
            simp [hasFailedBatch] at hf
        | ok txs =>
          rw [hg] at hrun
          simp only at hrun
          cases hs : bf.storeTransactions IsBase64Alphabet node.now fuel txs
              { st2 with trace := st2.trace ++ [.fetchTransactions p] } with
          | none => rw [hs] at hrun; cases hrun
          | some res =>
            obtain ⟨err, st4⟩ := res
            rw [hs] at hrun
            obtain ⟨s1, evs, s2, s3, s4, s5⟩ :=
              storeLoop_spec bf IsBase64Alphabet node.now txs fuel 0 _ st4 err hs
            simp only [List.drop_zero] at s5
            have hpre : createdBlocks ([.fetchBlock p] ++
                (List.range k).map (fun i => Event.deleteBlockTransactions (subU64 p (i + 1))) ++
                [.fetchTransactions p] ++ evs) = [] := by
              simp only [createdBlocks_append, q1, s3]; rfl
            have htr : st4.trace = st.trace ++ ([.fetchBlock p] ++
                (List.range k).map (fun i => Event.deleteBlockTransactions (subU64 p (i + 1))) ++
                [.fetchTransactions p] ++ evs) := by
              rw [s2]
              simp only [t1, List.append_assoc]
            have hfb : hasFailedBatch ([.fetchBlock p] ++
                (List.range k).map (fun i => Event.deleteBlockTransactions (subU64 p (i + 1))) ++
                [.fetchTransactions p] ++ evs) = hasFailedBatch evs := by
              simp only [hasFailedBatch_append, q2]
              simp [hasFailedBatch]
            have hins : insertedTransfers ([.fetchBlock p] ++
                (List.range k).map (fun i => Event.deleteBlockTransactions (subU64 p (i + 1))) ++
                [.fetchTransactions p] ++ evs) = insertedTransfers evs := by
              simp only [insertedTransfers_append, q3]
              simp [insertedTransfers]
            have hblocks : st4.blocks = st.blocks := by
              rw [s1]
              exact t2
            cases err with
            | some e =>
              simp only [Option.some.injEq] at hrun
              subst hrun
              refine ⟨_, hpre, Or.inl ⟨htr, ?_, ?_⟩⟩
              · intro b hbm
                simp only [Step.st, hblocks] at hbm
                exact hbm
              · intro _
                refine ⟨e, rfl, ?_⟩
                intro n headBlock hle
                unfold doLoop
                rw [if_pos hle, hrun0]
                rfl
            | none =>
              have hok : hasFailedBatch evs = false := s4.1 rfl
              simp only at hrun
              split at hrun
              · simp only [Option.some.injEq] at hrun
                subst hrun
                refine ⟨_, hpre, Or.inl ⟨htr, ?_, ?_⟩⟩
                · intro b hbm
                  simp only [Step.st, hblocks] at hbm
                  exact hbm
                · intro hf
                  rw [hfb, hok] at hf
                  cases hf
              · cases hc : BlockStore.CreateBlock st4.blocks block with
                | error e =>
                  rw [hc] at hrun
                  simp only [Option.some.injEq] at hrun
                  subst hrun
                  refine ⟨_, hpre, Or.inl ⟨htr, ?_, ?_⟩⟩
                  · intro b hbm
                    simp only [Step.st, hblocks] at hbm
                    exact hbm
                  · intro hf
                    rw [hfb, hok] at hf
                    cases hf
                | ok blocks =>
                  rw [hc] at hrun
                  simp only at hrun
                  have hbl := createBlock_ok _ _ _ hc
                  rw [hblocks] at hbl
                  refine ⟨_, hpre, Or.inr ⟨?_, by rw [hfb]; exact hok, txs, block, rfl, rfl,
                    by rw [hins]; exact s5 hok, ?_⟩⟩
                  · split at hrun <;>
                    · simp only [Option.some.injEq] at hrun
                      subst hrun
                      simp only [Step.st, htr]
                  · split at hrun <;>
                    · simp only [Option.some.injEq] at hrun
                      subst hrun
                      simp only [Step.st, hbl]

end job

namespace job

open common_model cockroach service

theorem createCheck_map_some (v : String → Bool) :
    ∀ (txs : List model.Transaction),
      (∀ tx ∈ txs, tx.Amount ≠ none ∧ v tx.Hash = true) →
      createCheck v (txs.map some) = .ok txs := by
  intro txs
  induction txs with
  | nil => intro _; rfl
  | cons tx rest ih =>
    intro h
    have h1 := h tx (List.mem_cons_self _ _)
    have h2 := ih (fun t ht => h t (List.mem_cons_of_mem _ ht))
    simp only [List.map_cons, createCheck, h1.1, h1.2, h2, if_false, Bool.not_true,
      Bool.false_eq_true]

theorem createTransactions_good (v : String → Bool) (now : Int) (s : Store)
    (txs : List model.Transaction)
    (hgood : ∀ tx ∈ txs, tx.Amount ≠ none ∧ v tx.Hash = true)
    (hkeys : (batchKeys txs).Nodup) :
    ∃ s', CreateTransactions v now s (txs.map some) = .ok s' := by
  unfold CreateTransactions
  split
  · exact ⟨s, rfl⟩
  · rw [createCheck_map_some v txs hgood]
    simp only [hkeys, if_true]
    exact ⟨_, rfl⟩

theorem insertBatches_good (v : String → Bool) (now : Int) (batch : List model.Transaction)
    (hgood : ∀ tx ∈ batch, tx.Amount ≠ none ∧ v tx.Hash = true)
    (hkeys : (batchKeys batch).Nodup) :
    ∀ (slices : List (List model.Transaction)) (st : IndexerState),
      (∀ sl ∈ slices, List.Sublist sl batch) →
      (insertBatches v now slices st none).2 = none := by
  intro slices
  induction slices with
  | nil => intro st _; rfl
  | cons sl rest ih =>
    intro st hsub
    have hs : List.Sublist sl batch := hsub sl (List.mem_cons_self _ _)
    obtain ⟨s', hs'⟩ := createTransactions_good v now st.transactions sl
      (fun tx htx => hgood tx (hs.subset htx))
      (List.Nodup.sublist (List.Sublist.map _ hs) hkeys)
    unfold insertBatches
    rw [hs']
    exact ih _ (fun x hx => hsub x (List.mem_cons_of_mem _ hx))

theorem windowSlices_sublist (BatchSize : Nat) (batch : List model.Transaction) (mn mx : Nat) :
    ∀ (n j : Nat), ∀ sl ∈ windowSlices BatchSize batch mn mx n j, List.Sublist sl batch := by
  intro n
  induction n with
  | zero => intro j sl h; simp [windowSlices] at h
  | succ n ih =>
    intro j sl h
    unfold windowSlices at h
    simp only at h
    split at h
    · simp at h
    · rcases List.mem_cons.1 h with h1 | h1
      · rw [h1]
        exact (List.drop_sublist _ _).trans (List.take_sublist _ _)
      · exact ih _ sl h1

theorem storeLoop_good (bf : BlockFetcher) (v : String → Bool) (now : Int)
    (batch : List model.Transaction) (hBP : 0 < bf.BatchSize * bf.ParallelBatch)
    (hgood : ∀ tx ∈ batch, tx.Amount ≠ none ∧ v tx.Hash = true)
    (hkeys : (batchKeys batch).Nodup) :
    ∀ (fuel i : Nat) (st : IndexerState), batch.length - i < fuel →
      ∃ st', storeLoop bf v now batch fuel i st = some (none, st') := by
  intro fuel
  induction fuel with
  | zero => intro i st h; omega
  | succ fuel ih =>
    intro i st h
    unfold storeLoop
    split
    · rename_i hi
      simp only
      rw [insertBatches_good v now batch hgood hkeys _ st
        (windowSlices_sublist bf.BatchSize batch _ _ _ _)]
      simp only
      exact ih _ _ (by omega)
    · exact ⟨st, rfl⟩

theorem getLastBlock_mem :
    ∀ (blocks : List Block) (acc : Option Block) (a : Block),
      blocks.foldl (fun acc b =>
        match acc with
        | none => some b
        | some a => if a.Number < b.Number then some b else some a) acc = some a →
      a ∈ blocks ∨ acc = some a := by
  intro blocks
  induction blocks with
  | nil => intro acc a h; exact Or.inr h
  | cons b rest ih =>
    intro acc a h
    simp only [List.foldl_cons] at h
    rcases ih _ a h with h1 | h1
    · exact Or.inl (List.mem_cons_of_mem _ h1)
    · cases acc with
      | none =>
        simp only [Option.some.injEq] at h1
        exact Or.inl (h1 ▸ List.mem_cons_self _ _)
      | some c =>
        simp only at h1
        split at h1
        · simp only [Option.some.injEq] at h1
          exact Or.inl (h1 ▸ List.mem_cons_self _ _)
        · exact Or.inr h1

theorem getLastBlock_range (chain : Nat → Block) (hnum : ∀ k, (chain k).Number = k)
    (S m : Nat) :
    BlockStore.GetLastBlock ((List.range' S (m + 1)).map chain) = some (chain (S + m)) := by
  unfold BlockStore.GetLastBlock
  rw [List.range'_concat, List.map_append, List.foldl_append]
  simp only [List.map_cons, List.map_nil, List.foldl_cons, List.foldl_nil, Nat.one_mul]
  cases hacc : ((List.range' S m).map chain).foldl (fun acc b =>
        match acc with
        | none => some b
        | some a => if a.Number < b.Number then some b else some a) none with
  | none => rfl
  | some a =>
    simp only
    rcases getLastBlock_mem _ _ a hacc with h1 | h1
    · rcases List.mem_map.1 h1 with ⟨k, hk, rfl⟩
      rw [List.mem_range'_1] at hk
      rw [hnum, hnum, if_pos hk.2]
    · cases h1

theorem getBlock_range (chain : Nat → Block) (hnum : ∀ k, (chain k).Number = k) (k : Nat) :
    ∀ (l : List Nat), k ∈ l →
      BlockStore.GetBlock (l.map chain) k = some (chain k) := by
  intro l
  induction l with
  | nil => intro h; cases h
  | cons j l ih =>
    intro h
    unfold BlockStore.GetBlock
    simp only [List.map_cons, List.find?_cons, hnum]
    by_cases hj : j = k
    · subst hj
      simp
    · have : (j == k) = false := by simpa using hj
      rw [this]
      rcases List.mem_cons.1 h with h1 | h1
      · exact absurd h1.symm hj
      · exact ih h1

theorem createBlock_range (chain : Nat → Block) (hnum : ∀ k, (chain k).Number = k)
    (S m : Nat) :
    BlockStore.CreateBlock ((List.range' S m).map chain) (chain (S + m)) =
      .ok ((List.range' S (m + 1)).map chain) := by
  unfold BlockStore.CreateBlock
  have hany : ((List.range' S m).map chain).any (fun b => b.Number == (chain (S + m)).Number) =
      false := by
    rw [Bool.eq_false_iff]
    intro h
    rcases List.any_eq_true.1 h with ⟨b, hb, hbn⟩
    rcases List.mem_map.1 hb with ⟨k, hk, rfl⟩
    rw [List.mem_range'_1] at hk
    simp only [hnum, beq_iff_eq] at hbn
    omega
  rw [hany]
  simp only [Bool.false_eq_true, if_false]
  rw [List.range'_concat, List.map_append]
  simp

end job

namespace job

open common_model cockroach service

theorem reorgs_linear (node : Node) (chain : Nat → Block) (fuel S m : Nat) (st : IndexerState)
    (hfuel : 0 < fuel)
    (hnum : ∀ k, (chain k).Number = k) (hhash : ∀ k, (chain k).Hash ≠ none)
    (hprev : ∀ k, (chain (k + 1)).PreviousHash = (chain k).Hash)
    (hlt : S + m < two64)
    (hblocks : st.blocks = (List.range' S m).map chain)
    (hblock : node.GetBlock (S + m) = .ok (chain (S + m))) :
    BlockFetcher.reorgs node Faults.none fuel (S + m) st = some (false, 0, st) := by
  obtain ⟨f, rfl⟩ : ∃ f, fuel = f + 1 := ⟨fuel - 1, by omega⟩
  unfold BlockFetcher.reorgs reorgsLoop
  simp only [Faults.none, Bool.false_eq_true, if_false]
  cases m with
  | zero =>
    have : BlockStore.GetBlock st.blocks (subU64 (S + 0) 1) = none := by
      rw [hblocks]; rfl
    rw [this]
    rfl
  | succ m =>
    have hsub : subU64 (S + (m + 1)) 1 = S + m := by
      rw [subU64_of_le _ _ (by omega) hlt]
      omega
    have hget : BlockStore.GetBlock st.blocks (S + m) = some (chain (S + m)) := by
      rw [hblocks]
      apply getBlock_range chain hnum
      rw [List.mem_range'_1]
      omega
    rw [hsub, hget]
    simp only [hblock]
    have hp : (chain (S + (m + 1))).PreviousHash = (chain (S + m)).Hash := hprev (S + m)
    cases hh : (chain (S + m)).Hash with
    | none => exact absurd hh (hhash _)
    | some sh =>
      rw [hp, hh]
      simp

theorem indexBlock_linear (bf : BlockFetcher) (v : String → Bool) (node : Node)
    (chain : Nat → Block) (transfers : Nat → List model.Transaction) (fuel m : Nat)
    (st : IndexerState)
    (hfuel : 0 < fuel) (hBP : 0 < bf.BatchSize * bf.ParallelBatch)
    (hnum : ∀ k, (chain k).Number = k) (hhash : ∀ k, (chain k).Hash ≠ none)
    (hprev : ∀ k, (chain (k + 1)).PreviousHash = (chain k).Hash)
    (hlt : bf.StartBlock + m < two64)
    (hblocks : st.blocks = (List.range' bf.StartBlock m).map chain)
    (hblock : node.GetBlock (bf.StartBlock + m) = .ok (chain (bf.StartBlock + m)))
    (htxs : node.GetTransactions (bf.StartBlock + m) = .ok (transfers (bf.StartBlock + m)))
    (hlen : (transfers (bf.StartBlock + m)).length < fuel)
    (hgood : ∀ tx ∈ transfers (bf.StartBlock + m), tx.Amount ≠ none ∧ v tx.Hash = true)
    (hkeys : (batchKeys (transfers (bf.StartBlock + m))).Nodup) :
    ∃ st' evs,
      bf.indexBlock v node Faults.none fuel (bf.StartBlock + m) st = some (.indexed st') ∧
      st'.blocks = (List.range' bf.StartBlock (m + 1)).map chain ∧
      st'.trace = st.trace ++ evs ∧
      createdBlocks evs = [bf.StartBlock + m] ∧
      insertedTransfers evs = transfers (bf.StartBlock + m) := by
  have hre := reorgs_linear node chain fuel bf.StartBlock m
    { st with trace := st.trace ++ [.fetchBlock (bf.StartBlock + m)] }
    hfuel hnum hhash hprev hlt hblocks hblock
  obtain ⟨st4, hst⟩ := storeLoop_good bf v node.now (transfers (bf.StartBlock + m)) hBP hgood
    hkeys fuel 0
    { st with trace := st.trace ++ [.fetchBlock (bf.StartBlock + m)] ++
        [.fetchTransactions (bf.StartBlock + m)] } (by omega)
  obtain ⟨s1, evs, s2, s3, s4, s5⟩ := storeLoop_spec bf v node.now _ fuel 0 _ st4 none hst
  have hok : hasFailedBatch evs = false := s4.1 rfl
  have hcb : BlockStore.CreateBlock st4.blocks (chain (bf.StartBlock + m)) =
      .ok ((List.range' bf.StartBlock (m + 1)).map chain) := by
    rw [s1]
    simp only
    rw [hblocks]
    exact createBlock_range chain hnum _ _
  refine ⟨{ st4 with
      blocks := (List.range' bf.StartBlock (m + 1)).map chain
      trace := st4.trace ++ [.createBlock (bf.StartBlock + m)] },
    [.fetchBlock (bf.StartBlock + m)] ++ [.fetchTransactions (bf.StartBlock + m)] ++ evs ++
      [.createBlock (bf.StartBlock + m)], ?_, rfl, ?_, ?_, ?_⟩
  · unfold BlockFetcher.indexBlock
    simp only [hblock, hre, htxs]
    unfold BlockFetcher.storeTransactions
    rw [hst]
    simp only [hcb, Faults.none, Bool.false_eq_true, if_false]
  · simp only [s2, List.append_assoc]
  · simp only [createdBlocks_append, s3]
    rfl
  · simp only [insertedTransfers_append, s5 hok, List.drop_zero]
    simp [insertedTransfers]

theorem doLoop_linear (bf : BlockFetcher) (v : String → Bool) (node : Node)
    (chain : Nat → Block) (transfers : Nat → List model.Transaction) (fuel headBlock : Nat)
    (hfuel : 0 < fuel) (hBP : 0 < bf.BatchSize * bf.ParallelBatch)
    (hnum : ∀ k, (chain k).Number = k) (hhash : ∀ k, (chain k).Hash ≠ none)
    (hprev : ∀ k, (chain (k + 1)).PreviousHash = (chain k).Hash)
    (hhead : headBlock + 1 < two64)
    (hnode : ∀ n, bf.StartBlock ≤ n → n ≤ headBlock →
      node.GetBlock n = .ok (chain n) ∧ node.GetTransactions n = .ok (transfers n) ∧
      (transfers n).length < fuel ∧
      (∀ tx ∈ transfers n, tx.Amount ≠ none ∧ v tx.Hash = true) ∧
      (batchKeys (transfers n)).Nodup) :
    ∀ (j n m : Nat) (st : IndexerState),
      st.blocks = (List.range' bf.StartBlock m).map chain →
      headBlock + 1 - (bf.StartBlock + m) = j → j < n →
      ∃ st' evs,
        doLoop bf v node Faults.none fuel n (bf.StartBlock + m) headBlock st = some (none, st') ∧
        st'.blocks = (List.range' bf.StartBlock (m + j)).map chain ∧
        st'.trace = st.trace ++ evs ∧
        createdBlocks evs = List.range' (bf.StartBlock + m) j ∧
        insertedTransfers evs = ((List.range' (bf.StartBlock + m) j).map transfers).flatten := by
  intro j
  induction j with
  | zero =>
    intro n m st hblocks hj hn
    obtain ⟨n, rfl⟩ : ∃ k, n = k + 1 := ⟨n - 1, by omega⟩
    refine ⟨st, [], ?_, hblocks, by simp, rfl, rfl⟩
    unfold doLoop
    rw [if_neg (by omega)]
  | succ j ih =>
    intro n m st hblocks hj hn
    obtain ⟨n, rfl⟩ : ∃ k, n = k + 1 := ⟨n - 1, by omega⟩
    have hle : bf.StartBlock + m ≤ headBlock := by omega
    obtain ⟨h1, h2, h3, h4, h5⟩ := hnode (bf.StartBlock + m) (by omega) hle
    obtain ⟨st1, evs1, i1, i2, i3, i4, i5⟩ := indexBlock_linear bf v node chain transfers fuel m
      st hfuel hBP hnum hhash hprev (by omega) hblocks h1 h2 h3 h4 h5
    have hadd : addU64 (bf.StartBlock + m) 1 = bf.StartBlock + (m + 1) := by
      unfold addU64
      rw [Nat.mod_eq_of_lt (by omega)]
      omega
    obtain ⟨st2, evs2, k1, k2, k3, k4, k5⟩ := ih n (m + 1) st1 i2 (by omega) (by omega)
    refine ⟨st2, evs1 ++ evs2, ?_, ?_, ?_, ?_, ?_⟩
    · unfold doLoop
      rw [if_pos hle, i1]
      simp only
      rw [hadd]
      exact k1
    · rw [k2]
      congr 2
      omega
    · rw [k3, i3, List.append_assoc]
    · rw [createdBlocks_append, i4, k4, List.range'_succ]
      rfl
    · rw [insertedTransfers_append, i5, k5, List.range'_succ]
      simp only [List.map_cons, List.flatten_cons]
      rfl

theorem do_linear (bf : BlockFetcher) (v : String → Bool) (node : Node)
    (chain : Nat → Block) (transfers : Nat → List model.Transaction) (fuel tip m : Nat)
    (st : IndexerState)
    (hBP : 0 < bf.BatchSize * bf.ParallelBatch)
    (hnum : ∀ k, (chain k).Number = k) (hhash : ∀ k, (chain k).Hash ≠ none)
    (hprev : ∀ k, (chain (k + 1)).PreviousHash = (chain k).Hash)
    (hheight : node.GetHeight = .ok tip) (hdepth : bf.MaxOffset ≤ tip) (htip : tip + 1 < two64)
    (hrounds : tip - bf.MaxOffset + 1 - bf.StartBlock < fuel)
    (hnode : ∀ n, bf.StartBlock ≤ n → n ≤ tip - bf.MaxOffset →
      node.GetBlock n = .ok (chain n) ∧ node.GetTransactions n = .ok (transfers n) ∧
      (transfers n).length < fuel ∧
      (∀ tx ∈ transfers n, tx.Amount ≠ none ∧ v tx.Hash = true) ∧
      (batchKeys (transfers n)).Nodup)
    (hblocks : st.blocks = (List.range' bf.StartBlock m).map chain)
    (hm : m = 0 ∨ bf.StartBlock + m < two64) :
    ∃ st' evs,
      bf.Do v node Faults.none fuel st = some (none, st') ∧
      st'.blocks = (List.range' bf.StartBlock
        (max m (tip - bf.MaxOffset + 1 - bf.StartBlock))).map chain ∧
      (max m (tip - bf.MaxOffset + 1 - bf.StartBlock) = 0 ∨
        bf.StartBlock + max m (tip - bf.MaxOffset + 1 - bf.StartBlock) < two64) ∧
      st'.trace = st.trace ++ evs ∧
      createdBlocks evs = List.range' (bf.StartBlock + m)
        (max m (tip - bf.MaxOffset + 1 - bf.StartBlock) - m) ∧
      insertedTransfers evs = ((List.range' (bf.StartBlock + m)
        (max m (tip - bf.MaxOffset + 1 - bf.StartBlock) - m)).map transfers).flatten := by
  have hnext : (match BlockStore.GetLastBlock st.blocks with
      | none => bf.StartBlock
      | some currentBlock => addU64 currentBlock.Number 1) = bf.StartBlock + m := by
    rw [hblocks]
    cases m with
    | zero => rfl
    | succ m =>
      rw [getLastBlock_range chain hnum]
      simp only [hnum]
      unfold addU64
      rw [Nat.mod_eq_of_lt (by omega)]
      omega
  have hmax : max m (tip - bf.MaxOffset + 1 - bf.StartBlock) =
      m + (tip - bf.MaxOffset + 1 - (bf.StartBlock + m)) := by
    rcases Nat.le_total m (tip - bf.MaxOffset + 1 - bf.StartBlock) with h | h
    · rw [max_eq_right h]; omega
    · rw [max_eq_left h]; omega
  obtain ⟨st', evs, d1, d2, d3, d4, d5⟩ := doLoop_linear bf v node chain transfers fuel
    (tip - bf.MaxOffset) (by omega) hBP hnum hhash hprev (by omega) hnode
    (tip - bf.MaxOffset + 1 - (bf.StartBlock + m)) fuel m st hblocks rfl (by omega)
  refine ⟨st', evs, ?_, ?_, ?_, d3, ?_, ?_⟩
  · unfold BlockFetcher.Do
    rw [hheight]
    simp only [Faults.none, Bool.false_eq_true, if_false]
    rw [hnext, subU64_of_le tip bf.MaxOffset hdepth (by omega)]
    exact d1
  · rw [hmax]; exact d2
  · rw [hmax]; omega
  · rw [hmax, Nat.add_sub_cancel_left]; exact d4
  · rw [hmax, Nat.add_sub_cancel_left]; exact d5

end job

namespace job

open common_model cockroach service

theorem le_foldl_max (g : Nat → Nat) :
    ∀ (tips : List Nat) (m : Nat), m ≤ tips.foldl (fun m tip => max m (g tip)) m := by
  intro tips
  induction tips with
  | nil => intro m; exact le_refl _
  | cons t rest ih =>
    intro m
    simp only [List.foldl_cons]
    exact le_trans (le_max_left _ _) (ih _)

theorem range_glue (s a b c : Nat) (hab : a ≤ b) (hbc : b ≤ c) :
    List.range' (s + a) (b - a) ++ List.range' (s + b) (c - b) = List.range' (s + a) (c - a) := by
  have h := List.range'_append (s + a) (b - a) (c - b) 1
  simp only [Nat.one_mul] at h
  have e1 : s + a + (b - a) = s + b := by omega
  have e2 : c - b + (b - a) = c - a := by omega
  rw [e1, e2] at h
  exact h

theorem runIndexer_linear (bf : BlockFetcher) (v : String → Bool)
    (chain : Nat → Block) (transfers : Nat → List model.Transaction) (nodeAt : Nat → Node)
    (fuel : Nat)
    (hBP : 0 < bf.BatchSize * bf.ParallelBatch)
    (hnum : ∀ k, (chain k).Number = k) (hhash : ∀ k, (chain k).Hash ≠ none)
    (hprev : ∀ k, (chain (k + 1)).PreviousHash = (chain k).Hash) :
    ∀ (tips : List Nat) (m : Nat) (st : IndexerState),
      (∀ tip ∈ tips,
        (nodeAt tip).GetHeight = .ok tip ∧ bf.MaxOffset ≤ tip ∧ tip + 1 < two64 ∧
        tip - bf.MaxOffset + 1 - bf.StartBlock < fuel ∧
        ∀ n, bf.StartBlock ≤ n → n ≤ tip - bf.MaxOffset →
          (nodeAt tip).GetBlock n = .ok (chain n) ∧
          (nodeAt tip).GetTransactions n = .ok (transfers n) ∧
          (transfers n).length < fuel ∧
          (∀ tx ∈ transfers n, tx.Amount ≠ none ∧ v tx.Hash = true) ∧
          (batchKeys (transfers n)).Nodup) →
      st.blocks = (List.range' bf.StartBlock m).map chain →
      (m = 0 ∨ bf.StartBlock + m < two64) →
      ∃ st' evs,
        runIndexer bf v Faults.none fuel (tips.map nodeAt) st = some st' ∧
        st'.blocks = (List.range' bf.StartBlock
          (tips.foldl (fun m tip => max m (tip - bf.MaxOffset + 1 - bf.StartBlock)) m)).map
            chain ∧
        st'.trace = st.trace ++ evs ∧
        createdBlocks evs = List.range' (bf.StartBlock + m)
          (tips.foldl (fun m tip => max m (tip - bf.MaxOffset + 1 - bf.StartBlock)) m - m) ∧
        insertedTransfers evs = ((List.range' (bf.StartBlock + m)
          (tips.foldl (fun m tip => max m (tip - bf.MaxOffset + 1 - bf.StartBlock)) m - m)).map
            transfers).flatten := by
  intro tips
  induction tips with
  | nil =>
    intro m st _ hblocks _
    refine ⟨st, [], rfl, hblocks, by simp, ?_, ?_⟩
    · simp [createdBlocks]
    · simp [insertedTransfers]
  | cons tip rest ih =>
    intro m st hticks hblocks hm
    obtain ⟨t1, t2, t3, t4, t5⟩ := hticks tip (List.mem_cons_self _ _)
    obtain ⟨st1, evs1, d1, d2, d3, d4, d5, d6⟩ := do_linear bf v (nodeAt tip) chain transfers
      fuel tip m st hBP hnum hhash hprev t1 t2 t3 t4 t5 hblocks hm
    obtain ⟨st2, evs2, r1, r2, r3, r4, r5⟩ := ih _ st1
      (fun t ht => hticks t (List.mem_cons_of_mem _ ht)) d2 d3
    have hle1 : m ≤ max m (tip - bf.MaxOffset + 1 - bf.StartBlock) := le_max_left _ _
    have hle2 := le_foldl_max (fun tip => tip - bf.MaxOffset + 1 - bf.StartBlock) rest
      (max m (tip - bf.MaxOffset + 1 - bf.StartBlock))
    refine ⟨st2, evs1 ++ evs2, ?_, ?_, ?_, ?_, ?_⟩
    · simp only [List.map_cons, runIndexer, d1]
      exact r1
    · simp only [List.foldl_cons]
      exact r2
    · rw [r3, d4, List.append_assoc]
    · simp only [List.foldl_cons]
      rw [createdBlocks_append, d5, r4]
      exact range_glue _ _ _ _ hle1 hle2
    · simp only [List.foldl_cons]
      rw [insertedTransfers_append, d6, r5, ← List.flatten_append, ← List.map_append,
        range_glue _ _ _ _ hle1 hle2]

/-- C16: over a linear chain (every block carries the hash of its
predecessor as previous-hash) and from the empty store, a sequence of ticks in
which no call fails (the node of the tick with tip `T` reports height `T >= D`
and answers for every height `S .. T-D` with the block and the transfers of
the chain, the transfers pass the checks of `CreateTransactions`, no store call
fails, the bounds are large enough) returns, and leaves as markers the blocks
of the contiguous range `S, S+1, ...` of length `max (T-D+1-S)` over the
ticks, written in increasing order, each once, and the transfers stored are
those of these heights, in the same order. For one tick the range is
`S .. T-D`. -/
theorem linear_chain_indexed_contiguously (bf : BlockFetcher) (v : String → Bool)
    (chain : Nat → Block) (transfers : Nat → List model.Transaction) (nodeAt : Nat → Node)
    (fuel : Nat) (tips : List Nat)
    (hB : 0 < bf.BatchSize) (hP : 0 < bf.ParallelBatch)
    (hnum : ∀ k, (chain k).Number = k) (hhash : ∀ k, (chain k).Hash ≠ none)
    (hprev : ∀ k, (chain (k + 1)).PreviousHash = (chain k).Hash)
    (hticks : ∀ tip ∈ tips,
      (nodeAt tip).GetHeight = .ok tip ∧ bf.MaxOffset ≤ tip ∧ tip + 1 < two64 ∧
      tip - bf.MaxOffset + 1 - bf.StartBlock < fuel ∧
      ∀ n, bf.StartBlock ≤ n → n ≤ tip - bf.MaxOffset →
        (nodeAt tip).GetBlock n = .ok (chain n) ∧
        (nodeAt tip).GetTransactions n = .ok (transfers n) ∧
        (transfers n).length < fuel ∧
        (∀ tx ∈ transfers n, tx.Amount ≠ none ∧ v tx.Hash = true) ∧
        (batchKeys (transfers n)).Nodup) :
    ∃ st',
      runIndexer bf v Faults.none fuel (tips.map nodeAt)
        { transactions := Store.empty, blocks := [], trace := [] } = some st' ∧
      st'.blocks = (List.range' bf.StartBlock
        (tips.foldl (fun m tip => max m (tip - bf.MaxOffset + 1 - bf.StartBlock)) 0)).map
          chain ∧
      createdBlocks st'.trace = List.range' bf.StartBlock
        (tips.foldl (fun m tip => max m (tip - bf.MaxOffset + 1 - bf.StartBlock)) 0) ∧
      insertedTransfers st'.trace = ((List.range' bf.StartBlock
        (tips.foldl (fun m tip => max m (tip - bf.MaxOffset + 1 - bf.StartBlock)) 0)).map
          transfers).flatten := by
  obtain ⟨st', evs, r1, r2, r3, r4, r5⟩ := runIndexer_linear bf v chain transfers nodeAt fuel
    (Nat.mul_pos hB hP) hnum hhash hprev tips 0
    { transactions := Store.empty, blocks := [], trace := [] } hticks rfl (Or.inl rfl)
  refine ⟨st', r1, r2, ?_, ?_⟩
  · rw [r3]
    simpa using r4
  · rw [r3]
    simpa using r5

end job

namespace job

open common_model cockroach service

/-- C13, at a concrete input: the markers of 91 and 92 are of an abandoned
branch; the reorg check at 93 deletes 92 and 91 and stops at 90, whose stored
hash is the previous-hash of block 91 on the chain. -/
theorem reorgs_deletes_only_diverging_heights_witness :
    ∃ st',
      BlockFetcher.reorgs (sample.linearNode 100) Faults.none 5 93 sample.forked =
        some (true, 90, st') ∧
      st'.blocks = [sample.blockOf 90] ∧
      ∃ k : Nat,
        st'.trace = sample.forked.trace ++
          (List.range k).map (fun i => Event.deleteBlockTransactions (subU64 93 (i + 1))) ++
          (if true then [Event.deleteBlocks ((List.range k).map (fun i => subU64 93 (i + 1)))]
            else []) ∧
        st'.blocks =
          (if true then
            BlockStore.DeleteBlocks sample.forked.blocks
              ((List.range k).map (fun i => subU64 93 (i + 1)))
            else sample.forked.blocks) ∧
        (∀ i, i < k → ∃ b c sh ph,
          BlockStore.GetBlock sample.forked.blocks (subU64 93 (i + 1)) = some b ∧
          b.Hash = some sh ∧
          (sample.linearNode 100).GetBlock (subU64 93 i) = .ok c ∧ c.PreviousHash = some ph ∧
          sh ≠ ph) ∧
        (true = true → ∃ b c sh,
          BlockStore.GetBlock sample.forked.blocks (subU64 93 (k + 1)) = some b ∧
          b.Hash = some sh ∧
          (sample.linearNode 100).GetBlock (subU64 93 k) = .ok c ∧ c.PreviousHash = some sh) :=
  ⟨_, rfl, rfl,
    reorgs_deletes_only_diverging_heights (sample.linearNode 100) Faults.none 5 93
      sample.forked _ true 90 (by decide) rfl⟩

/-- C14, at a concrete input: the loop at 93 over the forked state rewinds and
goes on with the height the walk stopped at. -/
theorem reorg_restarts_at_lowest_rewound_height_witness :
    ∃ st',
      BlockFetcher.reorgs (sample.linearNode 100) Faults.none 5 93
        { sample.forked with trace := sample.forked.trace ++ [.fetchBlock 93] } =
        some (true, 90, st') ∧
      createdBlocks st'.trace = [] ∧
      ∃ k : Nat, 1 ≤ k ∧
        st'.trace = sample.forked.trace ++ [.fetchBlock 93] ++
          (List.range k).map (fun i => Event.deleteBlockTransactions (subU64 93 (i + 1))) ++
          [Event.deleteBlocks ((List.range k).map (fun i => subU64 93 (i + 1)))] ∧
        st'.blocks =
          BlockStore.DeleteBlocks sample.forked.blocks
            ((List.range k).map (fun i => subU64 93 (i + 1))) ∧
        doLoop sample.fetcher sample.IsBase64Alphabet (sample.linearNode 100) Faults.none 5
            (3 + 1) 93 94 sample.forked =
          doLoop sample.fetcher sample.IsBase64Alphabet (sample.linearNode 100) Faults.none 5
            3 (subU64 93 k) 94 st' :=
  ⟨_, rfl, rfl,
    reorg_restarts_at_lowest_rewound_height sample.fetcher sample.IsBase64Alphabet
      (sample.linearNode 100) Faults.none 5 3 93 94 sample.forked _ (sample.blockOf 93) 90
      (by decide) (by decide) rfl rfl⟩

/-- C15, at a concrete input: the node reports five transfers for block 90,
the third without an amount; the first batch is stored, the second is refused,
the step fails and no marker is written. -/
theorem marker_written_after_all_batches_witness :
    ∃ r,
      sample.fetcher.indexBlock sample.IsBase64Alphabet sample.badNode Faults.none 5 90
        sample.emptyIndexer = some r ∧
      hasFailedBatch r.st.trace = true ∧ r.st.blocks = [] ∧
      ∃ pre : List Event, createdBlocks pre = [] ∧
        ((r.st.trace = sample.emptyIndexer.trace ++ pre ∧
            (∀ b ∈ r.st.blocks, b ∈ sample.emptyIndexer.blocks) ∧
            (hasFailedBatch pre = true → ∃ e, r = .failed e r.st ∧
              ∀ n headBlock, 90 ≤ headBlock →
                doLoop sample.fetcher sample.IsBase64Alphabet sample.badNode Faults.none 5
                    (n + 1) 90 headBlock sample.emptyIndexer =
                  some (some e, r.st))) ∨
          (r.st.trace = sample.emptyIndexer.trace ++ pre ++ [.createBlock 90] ∧
            hasFailedBatch pre = false ∧
            ∃ txs block, sample.badNode.GetTransactions 90 = .ok txs ∧
              sample.badNode.GetBlock 90 = .ok block ∧
              insertedTransfers pre = txs ∧
              r.st.blocks = sample.emptyIndexer.blocks ++ [block])) :=
  ⟨_, rfl, rfl, rfl,
    marker_written_after_all_batches sample.fetcher sample.IsBase64Alphabet sample.badNode
      Faults.none 5 90 sample.emptyIndexer _ (by decide) rfl⟩

/-- A tip above the confirmation depth: tip 95 and depth 6 give head 89, below
the start block 90; the tick leaves the empty state as it is. -/
theorem do_nothing_when_head_below_next_witness :
    sample.fetcher.Do sample.IsBase64Alphabet (sample.linearNode 95) Faults.none 5
      sample.emptyIndexer = some (none, sample.emptyIndexer) :=
  do_nothing_when_head_below_next sample.fetcher sample.IsBase64Alphabet
    (sample.linearNode 95) Faults.none 5 sample.emptyIndexer 95 (by decide) rfl (by decide)
    (by decide) rfl (by decide)

/-- C17 fails on the code: with a tip below the confirmation depth `head` is
below every start block, and the tick should do nothing. The subtraction
`height.Height - bf.MaxOffset` is made on `uint64` values and wraps around: tip
3 and depth 6 give head = 2^64 - 3. A tick from the empty store with start
block 0 fetches the blocks 0 to 3, stores their transfers and writes their
markers, none of these blocks being 6 blocks deep, and ends with the error of
the node, which has no block 4. -/
theorem do_wraps_when_tip_below_depth :
    (3 : Nat) < (BlockFetcher.mk 2 2 6 0).MaxOffset ∧
    (sample.linearNode 3).GetHeight = .ok 3 ∧
    subU64 3 (BlockFetcher.mk 2 2 6 0).MaxOffset = 18446744073709551613 ∧
    ∃ st',
      (BlockFetcher.mk 2 2 6 0).Do sample.IsBase64Alphabet (sample.linearNode 3) Faults.none 10
        sample.emptyIndexer = some (some "block not found", st') ∧
      createdBlocks st'.trace = [0, 1, 2, 3] ∧
      st'.blocks = [sample.blockOf 0, sample.blockOf 1, sample.blockOf 2, sample.blockOf 3] ∧
      insertedTransfers st'.trace =
        [sample.transferOf 0, sample.transferOf 1, sample.transferOf 2, sample.transferOf 3] :=
  ⟨by decide, rfl, by decide, _, rfl, rfl, rfl, rfl⟩

end job

namespace job

open common_model cockroach service

/-- C16, at concrete inputs. Tip 100, depth 6, start block 90 and the empty
store: the tick writes the markers of 90 to 94, in this order, and the transfer
of each of these blocks. Three ticks with tips 100, 98 and 103: the markers are
those of 90 to 97, each written once. -/
theorem linear_chain_indexed_contiguously_witness :
    (∃ st',
      runIndexer sample.fetcher sample.IsBase64Alphabet Faults.none 10
        [sample.linearNode 100]
        { transactions := Store.empty, blocks := [], trace := [] } = some st' ∧
      st'.blocks = [sample.blockOf 90, sample.blockOf 91, sample.blockOf 92, sample.blockOf 93,
        sample.blockOf 94] ∧
      createdBlocks st'.trace = [90, 91, 92, 93, 94] ∧
      insertedTransfers st'.trace = [sample.transferOf 90, sample.transferOf 91,
        sample.transferOf 92, sample.transferOf 93, sample.transferOf 94]) ∧
    (∃ st',
      runIndexer sample.fetcher sample.IsBase64Alphabet Faults.none 10
        [sample.linearNode 100, sample.linearNode 98, sample.linearNode 103]
        { transactions := Store.empty, blocks := [], trace := [] } = some st' ∧
      st'.blocks = (List.range' 90 8).map sample.blockOf ∧
      createdBlocks st'.trace = [90, 91, 92, 93, 94, 95, 96, 97] ∧
      insertedTransfers st'.trace =
        ((List.range' 90 8).map (fun n => [sample.transferOf n])).flatten) :=
  ⟨linear_chain_indexed_contiguously sample.fetcher sample.IsBase64Alphabet sample.blockOf
    (fun n => [sample.transferOf n]) sample.linearNode 10 [100] (by decide) (by decide)
    (fun _ => rfl) (fun k => by simp [sample.blockOf]) (fun k => by simp [sample.blockOf])
    (by
      intro tip ht
      rw [List.mem_singleton] at ht
      subst ht
      refine ⟨rfl, by decide, by decide, by decide, ?_⟩
      intro n h1 h2
      change 90 ≤ n at h1
      change n ≤ 94 at h2
      interval_cases n <;>
        exact ⟨rfl, rfl, by decide, by decide, by decide⟩),
   linear_chain_indexed_contiguously sample.fetcher sample.IsBase64Alphabet sample.blockOf
    (fun n => [sample.transferOf n]) sample.linearNode 10 [100, 98, 103] (by decide)
    (by decide) (fun _ => rfl) (fun k => by simp [sample.blockOf])
    (fun k => by simp [sample.blockOf])
    (by
      intro tip ht
      simp only [List.mem_cons, List.mem_singleton, List.not_mem_nil, or_false] at ht
      rcases ht with rfl | rfl | rfl
      · refine ⟨rfl, by decide, by decide, by decide, ?_⟩
        intro n h1 h2
        change 90 ≤ n at h1
        change n ≤ 94 at h2
        interval_cases n <;>
          exact ⟨rfl, rfl, by decide, by decide, by decide⟩
      · refine ⟨rfl, by decide, by decide, by decide, ?_⟩
        intro n h1 h2
        change 90 ≤ n at h1
        change n ≤ 92 at h2
        interval_cases n <;>
          exact ⟨rfl, rfl, by decide, by decide, by decide⟩
      · refine ⟨rfl, by decide, by decide, by decide, ?_⟩
        intro n h1 h2
        change 90 ≤ n at h1
        change n ≤ 97 at h2
        interval_cases n <;>
          exact ⟨rfl, rfl, by decide, by decide, by decide⟩)⟩

end job

namespace cockroach

open common_model

/-- C30: when the row stored under (hash, 0) is a broadcast-only row
(block_number -1) in status INVALID or TIMEOUT, it satisfies the selection
predicate of `GetPendingBroadcasts` for no `beforeBlock`; after `Broadcast` on
that hash the same row (same id, same raw transaction, block_number still -1)
has status NEW, broadcasted_at_block 0 and message NULL, and it satisfies the
selection predicate for every `beforeBlock`. -/
theorem broadcast_resets_invalid_or_timeout (now : Int) (s : Store) (tx : model.Transaction)
    (r : transaction) (hrow : s.lookup tx.Hash 0 = some r)
    (honly : r.BlockNumber = some (-1))
    (hst : r.Status = .INVALID ∨ r.Status = .TIMEOUT) :
    (∀ beforeBlock, pendingWhere beforeBlock r = false) ∧
    ∃ r', (Broadcast now s tx).lookup tx.Hash 0 = some r' ∧
      r'.ID = r.ID ∧ r'.RawTransaction = r.RawTransaction ∧ r'.BlockNumber = some (-1) ∧
      r'.Status = .NEW ∧ r'.BroadcastedAtBlock = some 0 ∧ r'.Message = none ∧
      ∀ beforeBlock, pendingWhere beforeBlock r' = true := by
  constructor
  · intro beforeBlock
    rw [Bool.eq_false_iff, Ne, pendingWhere_iff]
    rintro ⟨_, h, _⟩
    rcases hst with h1 | h1 <;> rw [h1] at h <;> simp at h
  · have h := lookup_insertOnConflict_same broadcastConflict broadcastConflict_key s
      (broadcastValues now tx) r hrow
    refine ⟨broadcastConflict r (broadcastValues now tx), h, rfl, rfl, honly, rfl, rfl, rfl, ?_⟩
    intro beforeBlock
    rw [pendingWhere_iff]
    exact ⟨rfl, Or.inl rfl, honly, 0, rfl, Nat.zero_le _⟩

/-- C30, at a concrete input: the row of `op5A` was given up at block 100; a
second `Broadcast` of `op5A` makes it eligible again. -/
theorem broadcast_resets_invalid_or_timeout_witness :
    (∀ beforeBlock, pendingWhere beforeBlock sample.invalidRow = false) ∧
    ∃ r', (Broadcast 8 (Store.mk [sample.invalidRow] 10) sample.minedTransfer).lookup
        sample.minedTransfer.Hash 0 = some r' ∧
      r'.ID = sample.invalidRow.ID ∧ r'.RawTransaction = sample.invalidRow.RawTransaction ∧
      r'.BlockNumber = some (-1) ∧
      r'.Status = .NEW ∧ r'.BroadcastedAtBlock = some 0 ∧ r'.Message = none ∧
      ∀ beforeBlock, pendingWhere beforeBlock r' = true :=
  broadcast_resets_invalid_or_timeout 8 (Store.mk [sample.invalidRow] 10) sample.minedTransfer
    sample.invalidRow (by decide) (by decide) (by decide)

/-- C25 (amended): on a table whose ids are unique, `GarbageCollectTransactions`
returns once it is given more rounds than the table has rows; a row that is not
mined (block_number -1) and is pinned or broadcasted, as every row `Broadcast`
writes is, is still in the table; a row that is not mined and is neither
pinned nor broadcasted is deleted, whatever `beforeBlock` is. -/
theorem garbageCollectTransactions_keeps_unmined_row_iff (fuel : Nat) (s : Store)
    (beforeBlock : Nat) (hid : s.IdsUnique) (hfuel : s.rows.length < fuel) :
    ∃ s1, GarbageCollectTransactions fuel s beforeBlock = some s1 ∧
      (∀ r ∈ s.rows, r.BlockNumber = some (-1) →
        (r.Pinned = true ∨ r.Broadcasted = true) → r ∈ s1.rows) ∧
      (∀ r ∈ s.rows, r.BlockNumber = some (-1) →
        r.Pinned = false → r.Broadcasted = false → r ∉ s1.rows) := by
  refine ⟨{ s with rows := s.rows.filter (fun r => !gcWhere beforeBlock r) }, ?_, ?_, ?_⟩
  · unfold GarbageCollectTransactions
    exact gcLoop_deletes 50000 beforeBlock (by decide) fuel s hid
      (lt_of_le_of_lt (List.length_filter_le _ _) hfuel)
  · intro r hr _ hkeep
    refine List.mem_filter.2 ⟨hr, ?_⟩
    have hnot : gcWhere beforeBlock r ≠ true := by
      intro hw
      obtain ⟨hp, hb, _⟩ := (gcWhere_iff beforeBlock r).1 hw
      rcases hkeep with h | h
      · rw [hp] at h; exact Bool.noConfusion h
      · rw [hb] at h; exact Bool.noConfusion h
    simpa using hnot
  · intro r _ hblock hp hb hmem
    have hf := (List.mem_filter.1 hmem).2
    have hw : gcWhere beforeBlock r = true :=
      (gcWhere_iff beforeBlock r).2 ⟨hp, hb, -1, hblock, by omega⟩
    rw [hw] at hf
    exact Bool.noConfusion hf

/-- C25 (amended), at a concrete input: of a failed broadcast (block_number
-1, broadcasted) and the last row of the table of
`TestGarbageCollectTransactions` (block_number -1, neither pinned nor
broadcasted), `GarbageCollectTransactions(500006)` keeps the first and deletes
the second. -/
theorem garbageCollectTransactions_keeps_unmined_row_iff_witness :
    (Store.mk [sample.broadcastRow, sample.unminedRow] 11).IdsUnique ∧
    ∃ s1, GarbageCollectTransactions 3 (Store.mk [sample.broadcastRow, sample.unminedRow] 11)
        500006 = some s1 ∧
      (∀ r ∈ [sample.broadcastRow, sample.unminedRow], r.BlockNumber = some (-1) →
        (r.Pinned = true ∨ r.Broadcasted = true) → r ∈ s1.rows) ∧
      (∀ r ∈ [sample.broadcastRow, sample.unminedRow], r.BlockNumber = some (-1) →
        r.Pinned = false → r.Broadcasted = false → r ∉ s1.rows) :=
  ⟨by unfold Store.IdsUnique; decide,
    garbageCollectTransactions_keeps_unmined_row_iff 3
      (Store.mk [sample.broadcastRow, sample.unminedRow] 11) 500006
      (by unfold Store.IdsUnique; decide) (by decide)⟩

/-- C25 fails as stated: the row `ootwy...` is not mined (block_number -1), not
pinned and not broadcasted; `GarbageCollectTransactions(500006)` deletes it
together with the transfer of block 500000, since -1 <= 500006 satisfies
`block_number <= $1`. The broadcasted row and the row of block 500007 stay. -/
theorem garbageCollectTransactions_deletes_unmined_row :
    sample.unminedRow ∈ sample.gcTestStore.rows ∧
    sample.unminedRow.BlockNumber = some (-1) ∧
    sample.unminedRow.Pinned = false ∧ sample.unminedRow.Broadcasted = false ∧
    gcWhere 500006 sample.unminedRow = true ∧
    (GarbageCollectTransactions 6 sample.gcTestStore 500006).map
      (fun s => s.rows.map (fun r => r.ID)) = some [5, 8] ∧
    (GarbageCollectTransactions 6 sample.gcTestStore 500006).map
      (fun s => decide (sample.unminedRow ∈ s.rows)) = some false := by
  decide

/-- C23 fails on the code: `MarkPinned` and `GarbageCollectBroadcasts` check
nothing. The address `tz1!` and the hash `op5!` are outside the alphabet and
hold no apostrophe, so the statements written with them are run as they are
meant: `MarkPinned` returns no error, whatever the database, and the transfer
from `tz1!` is pinned; `GarbageCollectBroadcasts` runs the statement naming
`op5!` and sets its row to TIMEOUT; `GetTransactions` refuses the same hash. -/
theorem markPinned_and_gcBroadcasts_do_not_check :
    sample.IsBase64Alphabet sample.strayAddress = false ∧
    sample.IsBase64Alphabet sample.strayHash = false ∧
    staysInLiteral sample.strayAddress = true ∧ staysInLiteral sample.strayHash = true ∧
    (∀ db : String → Store → Except String Store,
      (MarkPinned db sample.strayStore [sample.strayAddress]).1 = none ∧
      (MarkPinned db sample.strayStore [sample.strayAddress]).2.rows.map (fun r => r.Pinned) =
        [true, false]) ∧
    sample.strayStore.rows.map (fun r => r.Pinned) = [false, false] ∧
    (GarbageCollectBroadcasts 2 sample.strayStore [sample.strayHash]).map
      (fun res => (res.1.rows.map (fun r => r.Status), res.2)) =
      some ([.SUCCESS, .TIMEOUT], [[sample.strayHash]]) ∧
    sample.strayStore.rows.map (fun r => r.Status) = [.SUCCESS, .PENDING] ∧
    (match GetTransactions sample.IsBase64Alphabet sample.strayStore [sample.strayHash] with
      | .error _ => true
      | .ok _ => false) = true :=
  ⟨by decide, by decide, by decide, by decide, fun _ => ⟨rfl, rfl⟩, by decide, by decide,
    by decide, by decide⟩

end cockroach

namespace job

open common_model cockroach

theorem fold_worker_store (InjectionOperation : String → Option String) (now : Int)
    (blockNumber : Nat) :
    ∀ (L : List model.Transaction) (st : State),
      (L.foldl (worker InjectionOperation now blockNumber) st).store =
        L.foldl (fun s t =>
          match t.RawTransaction with
          | none => UpdateBroadcast s t.Hash (FromStatus .INVALID) "raw transaction is nil"
              blockNumber
          | some raw =>
            UpdateBroadcast s t.Hash
              (FromStatus (workerStatus t (client.BroadcastTransaction InjectionOperation raw)))
              (workerMessage t (client.BroadcastTransaction InjectionOperation raw))
              blockNumber) st.store := by
  intro L
  induction L with
  | nil => intro st; rfl
  | cons t L ih =>
    intro st
    simp only [List.foldl_cons]
    rw [ih]
    congr 1
    unfold worker
    cases t.RawTransaction <;> rfl

theorem fold_worker_trails (InjectionOperation : String → Option String) (now : Int)
    (blockNumber : Nat) :
    ∀ (L : List model.Transaction) (st : State),
      (L.foldl (worker InjectionOperation now blockNumber) st).trails =
        st.trails ++ L.filterMap (fun t =>
          t.RawTransaction.map (fun raw =>
            { Currency := currency
              Action := "broadcast"
              TransactionHash := t.Hash
              BroadcastStatus :=
                (workerStatus t (client.BroadcastTransaction InjectionOperation raw)).String
              Date := now })) := by
  intro L
  induction L with
  | nil => intro st; simp
  | cons t L ih =>
    intro st
    simp only [List.foldl_cons]
    rw [ih]
    unfold worker
    cases h : t.RawTransaction with
    | none => simp [List.filterMap_cons, h]
    | some raw => simp [List.filterMap_cons, h]

/-- C27 (amended): in a tick at tip `H` (not below the broadcast interval)
the table is rewritten by one `UpdateBroadcast(hash, status, message, H)` per
selected row, in the order of the selection: INVALID with the message `raw
transaction is nil` for a row without raw transaction, the status and message
derived from the result of the submit otherwise; and the trail gains, in the
same order, exactly one entry per selected row that has a raw transaction,
carrying the new status of that row, and no entry for a row without one. -/
theorem tick_updates_rows_and_trails_submitted (j : Broadcaster) (H : Nat)
    (InjectionOperation : String → Option String) (now : Int) (st : State)
    (hint : j.BroadcastBlockInterval ≤ H) :
    (Do j (.ok H) InjectionOperation now st).store =
      (GetPendingBroadcasts st.store (H - j.BroadcastBlockInterval) j.BatchSize).foldl
        (fun s t =>
          match t.RawTransaction with
          | none => UpdateBroadcast s t.Hash (FromStatus .INVALID) "raw transaction is nil" H
          | some raw =>
            UpdateBroadcast s t.Hash
              (FromStatus (workerStatus t (client.BroadcastTransaction InjectionOperation raw)))
              (workerMessage t (client.BroadcastTransaction InjectionOperation raw)) H)
        st.store ∧
    (Do j (.ok H) InjectionOperation now st).trails =
      st.trails ++
        (GetPendingBroadcasts st.store (H - j.BroadcastBlockInterval) j.BatchSize).filterMap
          (fun t =>
            t.RawTransaction.map (fun raw =>
              { Currency := currency
                Action := "broadcast"
                TransactionHash := t.Hash
                BroadcastStatus :=
                  (workerStatus t (client.BroadcastTransaction InjectionOperation raw)).String
                Date := now })) := by
  unfold Do
  simp only
  rw [if_neg (by omega)]
  split
  · rename_i hlen
    have hnil := List.length_eq_zero.1 hlen
    rw [hnil]
    simp
  · exact ⟨fold_worker_store _ _ _ _ _, fold_worker_trails _ _ _ _ _⟩

/-- C27 (amended), at a concrete input: the NEW row of `op5A` has a raw
transaction and the node accepts it; the tick at tip 100 sets the row to
PENDING and appends one trail entry with status pending. -/
theorem tick_updates_rows_and_trails_submitted_witness :
    (Do sample.broadcaster (.ok 100) sample.accepting 7 sample.newState).store =
      (GetPendingBroadcasts sample.newState.store
          (100 - sample.broadcaster.BroadcastBlockInterval) sample.broadcaster.BatchSize).foldl
        (fun s t =>
          match t.RawTransaction with
          | none => UpdateBroadcast s t.Hash (FromStatus .INVALID) "raw transaction is nil" 100
          | some raw =>
            UpdateBroadcast s t.Hash
              (FromStatus (workerStatus t (client.BroadcastTransaction sample.accepting raw)))
              (workerMessage t (client.BroadcastTransaction sample.accepting raw)) 100)
        sample.newState.store ∧
    (Do sample.broadcaster (.ok 100) sample.accepting 7 sample.newState).trails =
      sample.newState.trails ++
        (GetPendingBroadcasts sample.newState.store
            (100 - sample.broadcaster.BroadcastBlockInterval)
            sample.broadcaster.BatchSize).filterMap
          (fun t =>
            t.RawTransaction.map (fun raw =>
              { Currency := currency
                Action := "broadcast"
                TransactionHash := t.Hash
                BroadcastStatus :=
                  (workerStatus t (client.BroadcastTransaction sample.accepting raw)).String
                Date := 7 })) :=
  tick_updates_rows_and_trails_submitted sample.broadcaster 100 sample.accepting 7
    sample.newState (by decide)

/-- C27 as stated fails: the one row of the table was broadcast without a raw
transaction; the tick at tip 100 selects it and sets it to INVALID with the
message `raw transaction is nil` and broadcasted_at_block 100, and appends no
trail entry. -/
theorem tick_without_rawtx_appends_no_trail :
    (GetPendingBroadcasts sample.noRawState.store
        (100 - sample.broadcaster.BroadcastBlockInterval)
        sample.broadcaster.BatchSize).map (fun t => (t.Hash, t.RawTransaction)) =
      [("op5A", none)] ∧
    (Do sample.broadcaster (.ok 100) sample.accepting 7 sample.noRawState).store.rows.map
        (fun r => (r.Status, r.Message, r.BroadcastedAtBlock)) =
      [(.INVALID, some "raw transaction is nil", some 100)] ∧
    (Do sample.broadcaster (.ok 100) sample.accepting 7 sample.noRawState).trails = [] := by
  decide

end job

namespace client

open common_model cockroach

theorem contentStep_numbering (blockNumber : Nat) (ts : Int) (operation : Operations)
    (st : (String → Nat) × List model.Transaction) (content : Contents)
    (hidx : ∀ h, st.1 h = (st.2.map (fun t => t.Hash)).count h)
    (hnum : ∀ pre x post, st.2 = pre ++ x :: post →
      x.Index = (pre.map (fun t => t.Hash)).count x.Hash) :
    (∀ h, (contentStep blockNumber ts operation st content).1 h =
      ((contentStep blockNumber ts operation st content).2.map (fun t => t.Hash)).count h) ∧
    (∀ pre x post, (contentStep blockNumber ts operation st content).2 = pre ++ x :: post →
      x.Index = (pre.map (fun t => t.Hash)).count x.Hash) := by
  unfold contentStep
  split
  · constructor
    · intro h
      simp only [List.map_append, List.map_cons, List.map_nil, List.count_append,
        List.count_cons, List.count_nil, Function.update_apply]
      by_cases hh : h = operation.Hash
      · subst hh
        simp [hidx]
      · have hne : ¬ (operation.Hash = h) := fun e => hh e.symm
        simp [hh, hne, hidx]
    · intro pre x post heq
      simp only at heq
      rcases List.eq_nil_or_concat post with hpost | ⟨post', y, hpost⟩
      · subst hpost
        have h1 := List.append_inj_left' (by simpa using heq) (by simp)
        have h2 := List.append_inj_right' (by simpa using heq) (by simp)
        simp only [List.cons.injEq, and_true] at h2
        subst h1
        rw [← h2]
        simp only [hidx]
      · subst hpost
        rw [List.concat_eq_append, ← List.cons_append, ← List.append_assoc] at heq
        exact hnum pre x post' (List.append_inj_left' heq rfl)
  · exact ⟨hidx, hnum⟩

theorem contents_fold_numbering (blockNumber : Nat) (ts : Int) (operation : Operations) :
    ∀ (cs : List Contents) (st : (String → Nat) × List model.Transaction),
      ((∀ h, st.1 h = (st.2.map (fun t => t.Hash)).count h) ∧
        (∀ pre x post, st.2 = pre ++ x :: post →
          x.Index = (pre.map (fun t => t.Hash)).count x.Hash)) →
      ((∀ h, (cs.foldl (contentStep blockNumber ts operation) st).1 h =
          ((cs.foldl (contentStep blockNumber ts operation) st).2.map
            (fun t => t.Hash)).count h) ∧
        (∀ pre x post, (cs.foldl (contentStep blockNumber ts operation) st).2 =
            pre ++ x :: post →
          x.Index = (pre.map (fun t => t.Hash)).count x.Hash)) := by
  intro cs
  induction cs with
  | nil => intro st h; exact h
  | cons c cs ih =>
    intro st h
    exact ih _ (contentStep_numbering blockNumber ts operation st c h.1 h.2)

theorem operations_fold_numbering (blockNumber : Nat) (ts : Int) :
    ∀ (ops : List Operations) (st : (String → Nat) × List model.Transaction),
      ((∀ h, st.1 h = (st.2.map (fun t => t.Hash)).count h) ∧
        (∀ pre x post, st.2 = pre ++ x :: post →
          x.Index = (pre.map (fun t => t.Hash)).count x.Hash)) →
      ((∀ h, (ops.foldl
            (fun st operation =>
              operation.Contents.foldl (contentStep blockNumber ts operation) st) st).1 h =
          ((ops.foldl
            (fun st operation =>
              operation.Contents.foldl (contentStep blockNumber ts operation) st) st).2.map
            (fun t => t.Hash)).count h) ∧
        (∀ pre x post, (ops.foldl
            (fun st operation =>
              operation.Contents.foldl (contentStep blockNumber ts operation) st) st).2 =
            pre ++ x :: post →
          x.Index = (pre.map (fun t => t.Hash)).count x.Hash)) := by
  intro ops
  induction ops with
  | nil => intro st h; exact h
  | cons op ops ih =>
    intro st h
    exact ih _ (contents_fold_numbering blockNumber ts op op.Contents st h)

theorem blockTransfers_numbering (blockNumber : Nat) (block : Block) :
    ∀ pre x post, blockTransfers blockNumber block = pre ++ x :: post →
      x.Index = (pre.map (fun t => t.Hash)).count x.Hash := by
  unfold blockTransfers
  have h : ∀ (L : List (List Operations)) (st : (String → Nat) × List model.Transaction),
      ((∀ h, st.1 h = (st.2.map (fun t => t.Hash)).count h) ∧
        (∀ pre x post, st.2 = pre ++ x :: post →
          x.Index = (pre.map (fun t => t.Hash)).count x.Hash)) →
      ((∀ h, (L.foldl
            (fun st operations =>
              operations.foldl
                (fun st operation =>
                  operation.Contents.foldl
                    (contentStep blockNumber block.Timestamp operation) st) st) st).1 h =
          ((L.foldl
            (fun st operations =>
              operations.foldl
                (fun st operation =>
                  operation.Contents.foldl
                    (contentStep blockNumber block.Timestamp operation) st) st) st).2.map
            (fun t => t.Hash)).count h) ∧
        (∀ pre x post, (L.foldl
            (fun st operations =>
              operations.foldl
                (fun st operation =>
                  operation.Contents.foldl
                    (contentStep blockNumber block.Timestamp operation) st) st) st).2 =
            pre ++ x :: post →
          x.Index = (pre.map (fun t => t.Hash)).count x.Hash)) := by
    intro L
    induction L with
    | nil => intro st h; exact h
    | cons ops L ih =>
      intro st h
      exact ih _ (operations_fold_numbering blockNumber block.Timestamp ops st h)
  exact (h block.Operations ((fun _ => 0), [])
    ⟨by intro h; simp, by intro pre x post h; simp at h⟩).2

theorem numbering_nodup :
    ∀ (l : List model.Transaction),
      (∀ pre x post, l = pre ++ x :: post →
        x.Index = (pre.map (fun t => t.Hash)).count x.Hash) →
      (batchKeys l).Nodup := by
  intro l
  induction l using List.reverseRecOn with
  | nil => intro _; simp [batchKeys]
  | append_singleton init y ih =>
    intro h
    have hinit : (batchKeys init).Nodup := by
      apply ih
      intro pre x post heq
      apply h pre x (post ++ [y])
      rw [heq]; simp
    have hy : y.Index = (init.map (fun t => t.Hash)).count y.Hash := by
      apply h init y []
      rfl
    unfold batchKeys at hinit ⊢
    rw [List.map_append, List.nodup_append]
    refine ⟨hinit, by simp, ?_⟩
    intro k hk1 hk2
    simp only [List.map_cons, List.map_nil, List.mem_singleton] at hk2
    subst hk2
    rcases List.mem_map.1 hk1 with ⟨x, hx, hkey⟩
    simp only [Prod.mk.injEq] at hkey
    obtain ⟨pre, post, hsplit⟩ := List.append_of_mem hx
    have hxi : x.Index = (pre.map (fun t => t.Hash)).count x.Hash := by
      apply h pre x (post ++ [y])
      rw [hsplit]; simp
    rw [hsplit] at hy
    simp only [List.map_append, List.map_cons, List.count_append, List.count_cons] at hy
    rw [hkey.1] at hxi
    have hbeq : (x.Hash == y.Hash) = true := by simp [hkey.1]
    rw [hbeq] at hy
    simp only [if_true] at hy
    omega

theorem contents_fold_entries (blockNumber : Nat) (ts : Int) (operation : Operations) :
    ∀ (cs : List Contents) (st : (String → Nat) × List model.Transaction),
      (cs.foldl (contentStep blockNumber ts operation) st).2.map
          (fun t => (t.Hash, t.Amount, t.Counter, t.Fee)) =
        st.2.map (fun t => (t.Hash, t.Amount, t.Counter, t.Fee)) ++
          (cs.filter (fun c => c.Kind = "transaction")).map
            (fun c => (operation.Hash, c.Amount, c.Counter, c.Fee)) := by
  intro cs
  induction cs with
  | nil => intro st; simp
  | cons c cs ih =>
    intro st
    simp only [List.foldl_cons]
    rw [ih]
    unfold contentStep
    by_cases hk : c.Kind = "transaction"
    · simp [hk, List.filter_cons]
    · simp [hk, List.filter_cons]

theorem operations_fold_entries (blockNumber : Nat) (ts : Int) :
    ∀ (ops : List Operations) (st : (String → Nat) × List model.Transaction),
      (ops.foldl
          (fun st operation =>
            operation.Contents.foldl (contentStep blockNumber ts operation) st) st).2.map
          (fun t => (t.Hash, t.Amount, t.Counter, t.Fee)) =
        st.2.map (fun t => (t.Hash, t.Amount, t.Counter, t.Fee)) ++
          (ops.map (fun operation =>
            (operation.Contents.filter (fun c => c.Kind = "transaction")).map
              (fun c => (operation.Hash, c.Amount, c.Counter, c.Fee)))).flatten := by
  intro ops
  induction ops with
  | nil => intro st; simp
  | cons op ops ih =>
    intro st
    simp only [List.foldl_cons]
    rw [ih, contents_fold_entries]
    simp

theorem blockTransfers_entries (blockNumber : Nat) (block : Block) :
    (blockTransfers blockNumber block).map (fun t => (t.Hash, t.Amount, t.Counter, t.Fee)) =
      (block.Operations.flatten.map (fun operation =>
        (operation.Contents.filter (fun c => c.Kind = "transaction")).map
          (fun c => (operation.Hash, c.Amount, c.Counter, c.Fee)))).flatten := by
  unfold blockTransfers
  have h : ∀ (L : List (List Operations)) (st : (String → Nat) × List model.Transaction),
      (L.foldl
          (fun st operations =>
            operations.foldl
              (fun st operation =>
                operation.Contents.foldl (contentStep blockNumber block.Timestamp operation) st)
              st) st).2.map (fun t => (t.Hash, t.Amount, t.Counter, t.Fee)) =
        st.2.map (fun t => (t.Hash, t.Amount, t.Counter, t.Fee)) ++
          (L.flatten.map (fun operation =>
            (operation.Contents.filter (fun c => c.Kind = "transaction")).map
              (fun c => (operation.Hash, c.Amount, c.Counter, c.Fee)))).flatten := by
    intro L
    induction L with
    | nil => intro st; simp
    | cons ops L ih =>
      intro st
      simp only [List.foldl_cons]
      rw [ih, operations_fold_entries]
      simp
  rw [h]
  simp

/-- C21: when the node answers with a block, `GetTransactions` returns
transfers that are, in the order of the operations and of their contents, one
per content of kind `transaction` (with the hash of its operation and the
amount, counter and fee of that content) and none for any other content; for
every transfer of the result the index is the number of transfers before it
in the result that carry the same hash, so the numbering of a hash starts at 0
and follows the order; and the (hash, idx) pairs of the result are pairwise
distinct. -/
theorem getTransactions_numbers_transfers (Block : Int → Except String Block)
    (blockNumber : Nat) (block : client.Block)
    (hblock : Block (toInt blockNumber) = .ok block) :
    ∃ transactions, GetTransactions Block blockNumber = .ok transactions ∧
      transactions.map (fun t => (t.Hash, t.Amount, t.Counter, t.Fee)) =
        (block.Operations.flatten.map (fun operation =>
          (operation.Contents.filter (fun c => c.Kind = "transaction")).map
            (fun c => (operation.Hash, c.Amount, c.Counter, c.Fee)))).flatten ∧
      (∀ pre x post, transactions = pre ++ x :: post →
        x.Index = (pre.map (fun t => t.Hash)).count x.Hash) ∧
      (batchKeys transactions).Nodup := by
  refine ⟨blockTransfers blockNumber block, ?_, blockTransfers_entries blockNumber block,
    blockTransfers_numbering blockNumber block,
    numbering_nodup _ (blockTransfers_numbering blockNumber block)⟩
  unfold GetTransactions
  rw [hblock]

/-- C21, at a concrete input: a block whose first operation holds a reveal and
two transactions and whose third operation holds one. -/
theorem getTransactions_numbers_transfers_witness :
    ∃ transactions, GetTransactions sample.chainNode 7 = .ok transactions ∧
      transactions.map (fun t => (t.Hash, t.Amount, t.Counter, t.Fee)) =
        (sample.chainBlock.Operations.flatten.map (fun operation =>
          (operation.Contents.filter (fun c => c.Kind = "transaction")).map
            (fun c => (operation.Hash, c.Amount, c.Counter, c.Fee)))).flatten ∧
      (∀ pre x post, transactions = pre ++ x :: post →
        x.Index = (pre.map (fun t => t.Hash)).count x.Hash) ∧
      (batchKeys transactions).Nodup :=
  getTransactions_numbers_transfers sample.chainNode 7 sample.chainBlock rfl

/-- C29 fails on the code: the operation `op5A` holds a reveal and two
transactions, the first from `tz1a` to `tz1b` with amount 10, the second from
`tz1c` to `tz1d` with amount 20. Both transfers of `op5A` are returned with
source `tz1c` and destination `tz1d`, the addresses of the last content of the
operation; amount, counter and fee are those of their own content. -/
theorem getTransactions_addresses_of_last_content :
    (GetTransactions sample.chainNode 7).toOption.map
      (fun l => l.map (fun t =>
        (t.Hash, t.Index, t.SourceAddress, t.DestinationAddress, t.Amount, t.Counter, t.Fee))) =
      some [("op5A", 0, some "tz1c", some "tz1d", some 10, some 2, some 3),
        ("op5A", 1, some "tz1c", some "tz1d", some 20, some 4, some 5),
        ("op5C", 0, some "tz1f", some "tz1g", some 30, some 8, some 9)] := by
  rfl

end client

namespace middleware

open service

/-- C24: for each of the ten methods of the validation middleware, every
wrapped service, every request and every state of what lies behind the
service: if `validate.Struct` returns an error for the request, the method
returns that error with the zero values of its other results and the state is
the one it was called in, whatever the wrapped service is (it is not called);
if it returns nil, the results and the state are those of the same method of
the wrapped service, called with the same request on the same state. -/
theorem validation_guards_every_method {σ : Type} (validate : Request → Option String)
    (next : XTZFronter σ) (s : σ) :
    (∀ req,
      (∀ err, validate (.AddAddresses req) = some err →
        (Validation validate next).AddAddresses req s = (some err, s)) ∧
      (validate (.AddAddresses req) = none →
        (Validation validate next).AddAddresses req s = next.AddAddresses req s)) ∧
    (∀ req,
      (∀ err, validate (.Broadcast req) = some err →
        (Validation validate next).Broadcast req s = (("", some err), s)) ∧
      (validate (.Broadcast req) = none →
        (Validation validate next).Broadcast req s = next.Broadcast req s)) ∧
    (∀ req,
      (∀ err, validate (.GetBlockchainInfo req) = some err →
        (Validation validate next).GetBlockchainInfo req s = ((none, some err), s)) ∧
      (validate (.GetBlockchainInfo req) = none →
        (Validation validate next).GetBlockchainInfo req s = next.GetBlockchainInfo req s)) ∧
    (∀ req,
      (∀ err, validate (.GetEstimatedFee req) = some err →
        (Validation validate next).GetEstimatedFee req s = ((none, some err), s)) ∧
      (validate (.GetEstimatedFee req) = none →
        (Validation validate next).GetEstimatedFee req s = next.GetEstimatedFee req s)) ∧
    (∀ req,
      (∀ err, validate (.GetBalances req) = some err →
        (Validation validate next).GetBalances req s = (([], some err), s)) ∧
      (validate (.GetBalances req) = none →
        (Validation validate next).GetBalances req s = next.GetBalances req s)) ∧
    (∀ req,
      (∀ err, validate (.GetCounters req) = some err →
        (Validation validate next).GetCounters req s = (([], some err), s)) ∧
      (validate (.GetCounters req) = none →
        (Validation validate next).GetCounters req s = next.GetCounters req s)) ∧
    (∀ req,
      (∀ err, validate (.GetTransactionsByHashes req) = some err →
        (Validation validate next).GetTransactionsByHashes req s = (([], 0, some err), s)) ∧
      (validate (.GetTransactionsByHashes req) = none →
        (Validation validate next).GetTransactionsByHashes req s =
          next.GetTransactionsByHashes req s)) ∧
    (∀ req,
      (∀ err, validate (.GetTransactionsByBlocks req) = some err →
        (Validation validate next).GetTransactionsByBlocks req s =
          (([], 0, 0, some err), s)) ∧
      (validate (.GetTransactionsByBlocks req) = none →
        (Validation validate next).GetTransactionsByBlocks req s =
          next.GetTransactionsByBlocks req s)) ∧
    (∀ req,
      (∀ err, validate (.GetTransactionsByDates req) = some err →
        (Validation validate next).GetTransactionsByDates req s =
          (([], 0, 0, some err), s)) ∧
      (validate (.GetTransactionsByDates req) = none →
        (Validation validate next).GetTransactionsByDates req s =
          next.GetTransactionsByDates req s)) ∧
    (∀ req,
      (∀ err, validate (.GetTransactionsByAttributes req) = some err →
        (Validation validate next).GetTransactionsByAttributes req s =
          (([], 0, some err), s)) ∧
      (validate (.GetTransactionsByAttributes req) = none →
        (Validation validate next).GetTransactionsByAttributes req s =
          next.GetTransactionsByAttributes req s)) := by
  refine ⟨?_, ?_, ?_, ?_, ?_, ?_, ?_, ?_, ?_, ?_⟩ <;>
    · intro req
      constructor
      · intro err h
        simp only [Validation, h]
      · intro h
        simp only [Validation, h]

/-- C24, at a concrete input, with a wrapped service that records its calls:
a request for the network `testnet` is refused and no call is recorded; the
same request for `mainnet` is recorded once, as it was received, and the
answer of the service is returned. -/
theorem validation_guards_every_method_witness :
    (Validation sample.mainnetOnly sample.recorder).GetBalances
        (some { Network := "testnet", Addresses := ["tz1a"], BlockNumber := 0 }) [] =
      (([], some "Network"), []) ∧
    (Validation sample.mainnetOnly sample.recorder).GetBalances
        (some { Network := "mainnet", Addresses := ["tz1a"], BlockNumber := 0 }) [] =
      (([], none),
        [.GetBalances (some { Network := "mainnet", Addresses := ["tz1a"], BlockNumber := 0 })]) :=
  ⟨((validation_guards_every_method sample.mainnetOnly sample.recorder []).2.2.2.2.1
      (some { Network := "testnet", Addresses := ["tz1a"], BlockNumber := 0 })).1
      "Network" rfl,
    ((validation_guards_every_method sample.mainnetOnly sample.recorder []).2.2.2.2.1
      (some { Network := "mainnet", Addresses := ["tz1a"], BlockNumber := 0 })).2 rfl⟩

end middleware

namespace job

open common_model cockroach service

theorem windowSlices_eq_bounds (BatchSize : Nat) (batch : List model.Transaction)
    (mn mx : Nat) :
    ∀ (n j : Nat),
      windowSlices BatchSize batch mn mx n j =
        (windowBounds BatchSize mn mx n j).map (fun b => (batch.take b.2).drop b.1) := by
  intro n
  induction n with
  | zero => intro j; rfl
  | succ n ih =>
    intro j
    unfold windowSlices windowBounds
    simp only
    split
    · rfl
    · rw [List.map_cons, ih]

theorem windowBounds_length (BatchSize mn mx : Nat) :
    ∀ (n j : Nat), (windowBounds BatchSize mn mx n j).length ≤ n := by
  intro n
  induction n with
  | zero => intro j; simp [windowBounds]
  | succ n ih =>
    intro j
    unfold windowBounds
    simp only
    split
    · simp
    · simp only [List.length_cons]
      have := ih (j + 1)
      omega

theorem windowBounds_range (BatchSize mn mx : Nat) :
    ∀ (n j : Nat), ∀ b ∈ windowBounds BatchSize mn mx n j,
      b.1 ≤ b.2 ∧ b.2 ≤ mx ∧ b.2 - b.1 ≤ BatchSize := by
  intro n
  induction n with
  | zero => intro j b hb; simp [windowBounds] at hb
  | succ n ih =>
    intro j b hb
    unfold windowBounds at hb
    simp only at hb
    split at hb
    · simp at hb
    · rename_i hle
      rcases List.mem_cons.1 hb with h1 | h1
      · subst h1
        have hmul : BatchSize * (j + 1) = BatchSize * j + BatchSize := by ring
        simp only
        split <;> omega
      · exact ih _ b h1

theorem windowBounds_chain (BatchSize mn mx : Nat) :
    ∀ (n j : Nat),
      List.Chain' (fun a b : Nat × Nat => a.2 = b.1) (windowBounds BatchSize mn mx n j) ∧
      (∀ b ∈ (windowBounds BatchSize mn mx n j).head?,
        b.1 = mn + BatchSize * j ∧ mn + BatchSize * j ≤ mx) ∧
      (∀ b ∈ (windowBounds BatchSize mn mx n j).getLast?,
        b.2 = min (mn + BatchSize * (j + n)) mx) := by
  intro n
  induction n with
  | zero => intro j; simp [windowBounds]
  | succ n ih =>
    intro j
    obtain ⟨ih1, ih2, ih3⟩ := ih (j + 1)
    have hmul : BatchSize * (j + 1) = BatchSize * j + BatchSize := by ring
    have hmul2 : BatchSize * (j + (n + 1)) = BatchSize * j + BatchSize * n + BatchSize := by
      ring
    have hmul3 : BatchSize * (j + 1 + n) = BatchSize * j + BatchSize * n + BatchSize := by
      ring
    unfold windowBounds
    simp only
    split
    · simp
    · rename_i hle
      refine ⟨?_, ?_, ?_⟩
      · rw [List.chain'_cons']
        refine ⟨?_, ih1⟩
        intro y hy
        obtain ⟨hy1, hy2⟩ := ih2 y hy
        simp only
        rw [hy1]
        split <;> omega
      · intro b hb
        simp only [List.head?_cons, Option.mem_def, Option.some.injEq] at hb
        subst hb
        exact ⟨rfl, by omega⟩
      · intro b hb
        cases hrest : windowBounds BatchSize mn mx n (j + 1) with
        | nil =>
          rw [hrest] at hb
          simp only [List.getLast?_singleton, Option.mem_def, Option.some.injEq] at hb
          subst hb
          simp only
          cases n with
          | zero => split <;> omega
          | succ n =>
            unfold windowBounds at hrest
            simp only at hrest
            split at hrest
            · split <;> omega
            · cases hrest
        | cons y ys =>
          rw [hrest] at hb ih3
          rw [List.getLast?_cons_cons] at hb
          have := ih3 b hb
          rw [this, hmul2, hmul3]

theorem windowBounds_ne_nil (BatchSize mn mx n : Nat) (hmn : mn ≤ mx) :
    windowBounds BatchSize mn mx (n + 1) 0 ≠ [] := by
  unfold windowBounds
  simp only
  rw [if_neg (by omega)]
  simp

theorem storeWindows_parallel (bf : BlockFetcher) (len : Nat) :
    ∀ (fuel i : Nat), ∀ w ∈ storeWindows bf len fuel i, w.length ≤ bf.ParallelBatch := by
  intro fuel
  induction fuel with
  | zero => intro i w hw; simp [storeWindows] at hw
  | succ fuel ih =>
    intro i w hw
    unfold storeWindows at hw
    split at hw
    · rcases List.mem_cons.1 hw with h1 | h1
      · rw [h1]
        exact windowBounds_length _ _ _ _ _
      · exact ih _ w h1
    · simp at hw

theorem storeWindows_range (bf : BlockFetcher) (len : Nat) :
    ∀ (fuel i : Nat), ∀ b ∈ (storeWindows bf len fuel i).flatten,
      b.1 ≤ b.2 ∧ b.2 ≤ len ∧ b.2 - b.1 ≤ bf.BatchSize := by
  intro fuel
  induction fuel with
  | zero => intro i b hb; simp [storeWindows] at hb
  | succ fuel ih =>
    intro i b hb
    unfold storeWindows at hb
    split at hb
    · rw [List.flatten_cons, List.mem_append] at hb
      rcases hb with h1 | h1
      · have := windowBounds_range _ _ _ _ _ b h1
        refine ⟨this.1, ?_, this.2.2⟩
        have h2 := this.2.1
        split at h2 <;> omega
      · exact ih _ b h1
    · simp at hb

theorem storeWindows_chain (bf : BlockFetcher) (len : Nat) (hP : 1 ≤ bf.ParallelBatch) :
    ∀ (fuel i : Nat),
      List.Chain' (fun a b : Nat × Nat => a.2 = b.1) (storeWindows bf len fuel i).flatten ∧
      (∀ b ∈ (storeWindows bf len fuel i).flatten.head?, b.1 = i ∧ i < len) := by
  intro fuel
  induction fuel with
  | zero => intro i; simp [storeWindows]
  | succ fuel ih =>
    intro i
    obtain ⟨ih1, ih2⟩ := ih (i + bf.BatchSize * bf.ParallelBatch)
    unfold storeWindows
    split
    · rename_i hi
      obtain ⟨p, hp⟩ : ∃ p, bf.ParallelBatch = p + 1 := ⟨bf.ParallelBatch - 1, by omega⟩
      have hne := windowBounds_ne_nil bf.BatchSize i
        (if i + bf.BatchSize * bf.ParallelBatch > len then len
          else i + bf.BatchSize * bf.ParallelBatch) p (by split <;> omega)
      rw [← hp] at hne
      obtain ⟨c1, c2, c3⟩ := windowBounds_chain bf.BatchSize i
        (if i + bf.BatchSize * bf.ParallelBatch > len then len
          else i + bf.BatchSize * bf.ParallelBatch) bf.ParallelBatch 0
      simp only [List.flatten_cons]
      constructor
      · apply List.Chain'.append c1 ih1
        intro x hx y hy
        have hx2 := c3 x hx
        obtain ⟨hy1, hy2⟩ := ih2 y hy
        rw [hx2, hy1]
        simp only [Nat.zero_add]
        rw [if_neg (by omega)]
        omega
      · intro b hb
        rw [List.head?_append_of_ne_nil _ hne] at hb
        obtain ⟨hb1, _⟩ := c2 b hb
        exact ⟨by simpa using hb1, hi⟩
    · simp

theorem insertBatches_failed (v : String → Bool) (now : Int) :
    ∀ (slices : List (List model.Transaction)) (st : IndexerState) (a : String),
      (insertBatches v now slices st (some a)).2 ≠ none := by
  intro slices
  induction slices with
  | nil => intro st a; simp [insertBatches]
  | cons sl rest ih =>
    intro st a
    unfold insertBatches
    cases CreateTransactions v now st.transactions (sl.map some) with
    | ok s' => exact ih _ _
    | error e => exact ih _ _

theorem insertBatches_trace_ok (v : String → Bool) (now : Int) :
    ∀ (slices : List (List model.Transaction)) (st : IndexerState),
      (insertBatches v now slices st none).2 = none →
      (insertBatches v now slices st none).1.trace =
        st.trace ++ slices.map (fun sl => Event.createTransactions sl true) := by
  intro slices
  induction slices with
  | nil => intro st _; simp [insertBatches]
  | cons sl rest ih =>
    intro st h
    unfold insertBatches at h ⊢
    cases hc : CreateTransactions v now st.transactions (sl.map some) with
    | ok s' =>
      rw [hc] at h
      simp only at h ⊢
      rw [ih _ h]
      simp
    | error e =>
      rw [hc] at h
      simp only at h
      exact absurd h (insertBatches_failed v now rest _ _)

theorem storeLoop_trace_ok (bf : BlockFetcher) (v : String → Bool) (now : Int)
    (batch : List model.Transaction) :
    ∀ (fuel i : Nat) (st st' : IndexerState),
      storeLoop bf v now batch fuel i st = some (none, st') →
      st'.trace = st.trace ++
        (storeWindows bf batch.length fuel i).flatten.map
          (fun b => Event.createTransactions ((batch.take b.2).drop b.1) true) := by
  intro fuel
  induction fuel with
  | zero => intro i st st' h; simp [storeLoop] at h
  | succ fuel ih =>
    intro i st st' h
    unfold storeLoop at h
    unfold storeWindows
    split at h
    · rename_i hi
      rw [if_pos hi]
      simp only at h
      split at h
      · simp at h
      · rename_i hnone
        have ht := insertBatches_trace_ok v now _ st hnone
        rw [ih _ _ _ h, ht, windowSlices_eq_bounds]
        simp [List.map_map, Function.comp]
    · rename_i hi
      rw [if_neg hi]
      simp only [Option.some.injEq, Prod.mk.injEq, true_and] at h
      subst h
      simp

theorem storeLoop_terminates (bf : BlockFetcher) (v : String → Bool) (now : Int)
    (batch : List model.Transaction) (hBP : 0 < bf.BatchSize * bf.ParallelBatch) :
    ∀ (fuel i : Nat) (st : IndexerState), batch.length - i < fuel →
      ∃ r, storeLoop bf v now batch fuel i st = some r := by
  intro fuel
  induction fuel with
  | zero => intro i st h; omega
  | succ fuel ih =>
    intro i st h
    unfold storeLoop
    split
    · simp only
      split
      · exact ⟨_, rfl⟩
      · exact ih _ _ (by omega)
    · exact ⟨_, rfl⟩

theorem insertedTransfers_ok (slices : List (List model.Transaction)) :
    insertedTransfers (slices.map (fun sl => Event.createTransactions sl true)) =
      slices.flatten := by
  induction slices with
  | nil => rfl
  | cons sl rest ih => simp [insertedTransfers, ih]

theorem hasFailedBatch_ok (slices : List (List model.Transaction)) :
    hasFailedBatch (slices.map (fun sl => Event.createTransactions sl true)) = false := by
  induction slices with
  | nil => rfl
  | cons sl rest ih => simpa [hasFailedBatch] using ih

/-- C26: for batch size and parallelism at least 1 and more rounds than the
batch has transfers, `storeTransactions` returns. The index pairs of its slice
expressions `batch[minBatch:maxBatch]` are in range (`minBatch <= maxBatch <=
len(batch)`), each slice has at most `BatchSize` transfers, each window has at
most `ParallelBatch` slices, every slice starts where the one before it ends
and the first starts at 0; and when no insert fails the calls of
`CreateTransactions` are exactly those for these slices, in this order, and the
slices concatenated are the batch. -/
theorem storeTransactions_hands_every_transfer_once (bf : BlockFetcher) (v : String → Bool)
    (now : Int) (fuel : Nat) (batch : List model.Transaction) (st : IndexerState)
    (hB : 1 ≤ bf.BatchSize) (hP : 1 ≤ bf.ParallelBatch) (hfuel : batch.length < fuel) :
    (∃ err st', bf.storeTransactions v now fuel batch st = some (err, st') ∧
      (err = none →
        st'.trace = st.trace ++
          (storeWindows bf batch.length fuel 0).flatten.map
            (fun b => Event.createTransactions ((batch.take b.2).drop b.1) true) ∧
        ((storeWindows bf batch.length fuel 0).flatten.map
          (fun b => (batch.take b.2).drop b.1)).flatten = batch)) ∧
    (∀ w ∈ storeWindows bf batch.length fuel 0, w.length ≤ bf.ParallelBatch) ∧
    (∀ b ∈ (storeWindows bf batch.length fuel 0).flatten,
      b.1 ≤ b.2 ∧ b.2 ≤ batch.length ∧ b.2 - b.1 ≤ bf.BatchSize) ∧
    List.Chain' (fun a b : Nat × Nat => a.2 = b.1)
      (storeWindows bf batch.length fuel 0).flatten ∧
    (∀ b ∈ (storeWindows bf batch.length fuel 0).flatten.head?, b.1 = 0) := by
  refine ⟨?_, storeWindows_parallel bf _ fuel 0, storeWindows_range bf _ fuel 0,
    (storeWindows_chain bf _ hP fuel 0).1,
    fun b hb => ((storeWindows_chain bf _ hP fuel 0).2 b hb).1⟩
  obtain ⟨⟨err, st'⟩, hr⟩ := storeLoop_terminates bf v now batch (Nat.mul_pos hB hP) fuel 0 st
    (by omega)
  refine ⟨err, st', hr, ?_⟩
  intro herr
  subst herr
  have ht := storeLoop_trace_ok bf v now batch fuel 0 st st' hr
  refine ⟨ht, ?_⟩
  obtain ⟨_, evs, s2, _, s4, s5⟩ := storeLoop_spec bf v now batch fuel 0 st st' none hr
  have hev : evs = (storeWindows bf batch.length fuel 0).flatten.map
      (fun b => Event.createTransactions ((batch.take b.2).drop b.1) true) := by
    rw [s2] at ht
    exact List.append_cancel_left ht
  have h5 := s5 (s4.1 rfl)
  rw [hev] at h5
  have hmap : (storeWindows bf batch.length fuel 0).flatten.map
      (fun b => Event.createTransactions ((batch.take b.2).drop b.1) true) =
      ((storeWindows bf batch.length fuel 0).flatten.map
        (fun b => (batch.take b.2).drop b.1)).map
        (fun sl => Event.createTransactions sl true) := by
    rw [List.map_map]
    rfl
  rw [hmap, insertedTransfers_ok, List.drop_zero] at h5
  exact h5

end job

namespace job

open common_model cockroach service

/-- C26, at a concrete input: five transfers with batches of 2, 2 in
parallel: the windows hold the slices `[0:2]`, `[2:4]` and `[4:5]`. -/
theorem storeTransactions_hands_every_transfer_once_witness :
    storeWindows sample.fetcher sample.fiveTransfers.length 6 0 = [[(0, 2), (2, 4)], [(4, 5)]] ∧
    ((∃ err st', sample.fetcher.storeTransactions sample.IsBase64Alphabet 7 6
          sample.fiveTransfers sample.emptyIndexer = some (err, st') ∧
        (err = none →
          st'.trace = sample.emptyIndexer.trace ++
            (storeWindows sample.fetcher sample.fiveTransfers.length 6 0).flatten.map
              (fun b =>
                Event.createTransactions ((sample.fiveTransfers.take b.2).drop b.1) true) ∧
          ((storeWindows sample.fetcher sample.fiveTransfers.length 6 0).flatten.map
            (fun b => (sample.fiveTransfers.take b.2).drop b.1)).flatten =
              sample.fiveTransfers)) ∧
      (∀ w ∈ storeWindows sample.fetcher sample.fiveTransfers.length 6 0,
        w.length ≤ sample.fetcher.ParallelBatch) ∧
      (∀ b ∈ (storeWindows sample.fetcher sample.fiveTransfers.length 6 0).flatten,
        b.1 ≤ b.2 ∧ b.2 ≤ sample.fiveTransfers.length ∧
          b.2 - b.1 ≤ sample.fetcher.BatchSize) ∧
      List.Chain' (fun a b : Nat × Nat => a.2 = b.1)
        (storeWindows sample.fetcher sample.fiveTransfers.length 6 0).flatten ∧
      (∀ b ∈ (storeWindows sample.fetcher sample.fiveTransfers.length 6 0).flatten.head?,
        b.1 = 0)) :=
  ⟨by decide,
    storeTransactions_hands_every_transfer_once sample.fetcher sample.IsBase64Alphabet 7 6
      sample.fiveTransfers sample.emptyIndexer (by decide) (by decide) (by decide)⟩

/-- C28: let the walk of `reorgs` at height `p` end by one of its `return
false, 0` (a store read, a node read or a transfer delete failed, or a hash
was absent). Then the transfer deletes it has issued are those of `p-1, ...,
p-j` for some `j`, `reorgs` reports no reorg and no `DeleteBlocks` call is
made: the block table is as before. If the node then answers with the
transfers of `p`, their inserts succeed and the marker write does not fail,
the same step stores these transfers and writes the marker of `p` after all
the old markers, those of `p-1, ..., p-j` included. -/
theorem aborted_reorg_keeps_markers_and_indexes_block (bf : BlockFetcher)
    (v : String → Bool) (node : Node) (faults : Faults) (fuel p : Nat)
    (st : IndexerState) (w : Walk) (block : Block) (txs : List model.Transaction)
    (st4 : IndexerState)
    (hp : p < two64)
    (hblock : node.GetBlock p = .ok block)
    (hwalk : reorgsLoop node faults fuel fuel p (subU64 p 1) []
      { st with trace := st.trace ++ [.fetchBlock p] } = some w)
    (habort : w.aborted = true)
    (htxs : node.GetTransactions p = .ok txs)
    (hstore : bf.storeTransactions v node.now fuel txs
      { w.st with trace := w.st.trace ++ [.fetchTransactions p] } = some (none, st4))
    (hcreate : faults.CreateBlock p = false)
    (hfresh : ∀ b ∈ st.blocks, b.Number ≠ block.Number)
    (hmetric : faults.MetricPut p = false) :
    BlockFetcher.reorgs node faults fuel p { st with trace := st.trace ++ [.fetchBlock p] } =
      some (false, 0, w.st) ∧
    w.st.blocks = st.blocks ∧
    (∃ j : Nat,
      w.st.trace = st.trace ++ [.fetchBlock p] ++
        (List.range j).map (fun i => Event.deleteBlockTransactions (subU64 p (i + 1)))) ∧
    ∃ st5 evs,
      bf.indexBlock v node faults fuel p st = some (.indexed st5) ∧
      st5.blocks = st.blocks ++ [block] ∧
      st5.trace = w.st.trace ++ [.fetchTransactions p] ++ evs ++ [.createBlock p] ∧
      createdBlocks evs = [] ∧ hasFailedBatch evs = false ∧ insertedTransfers evs = txs := by
  obtain ⟨j, _, _, _, w4, w5, _, _⟩ := reorgsLoop_spec node faults fuel fuel p [] _ w hp hwalk
  have hre : BlockFetcher.reorgs node faults fuel p
      { st with trace := st.trace ++ [.fetchBlock p] } = some (false, 0, w.st) := by
    unfold BlockFetcher.reorgs
    rw [hwalk]
    simp only [habort, if_true]
  obtain ⟨s1, evs, s2, s3, s4, s5⟩ := storeLoop_spec bf v node.now txs fuel 0 _ st4 none hstore
  have hok : hasFailedBatch evs = false := s4.1 rfl
  have hb4 : st4.blocks = st.blocks := by
    rw [s1]
    exact w4
  have hany : st4.blocks.any (fun b => b.Number == block.Number) = false := by
    rw [Bool.eq_false_iff]
    intro h
    rcases List.any_eq_true.1 h with ⟨b, hb, hbn⟩
    rw [hb4] at hb
    simp only [beq_iff_eq] at hbn
    exact hfresh b hb hbn
  refine ⟨hre, w4, ⟨j, w5⟩, { st4 with
      blocks := st4.blocks ++ [block]
      trace := st4.trace ++ [.createBlock p] }, evs, ?_, ?_, ?_, s3, hok, ?_⟩
  · unfold BlockFetcher.indexBlock
    simp only [hblock, hre, htxs, hstore, hcreate, hmetric, Bool.false_eq_true, if_false]
    unfold BlockStore.CreateBlock
    simp only [hany, Bool.false_eq_true, if_false]
  · simp only [hb4]
  · simp only [s2]
  · simpa using s5 hok

end job

namespace job

open common_model cockroach service

/-- C28, at a concrete input: the markers of 91 and 92 are of an abandoned
branch and the node fails to answer for block 92. The walk at 93 deletes the
transfers of 92 and stops; the step reports no reorg, keeps the markers of 90,
91 and 92 and writes the marker of 93 with its transfer. -/
theorem aborted_reorg_keeps_markers_and_indexes_block_witness :
    ∃ w st4,
      reorgsLoop sample.flakyNode Faults.none 5 5 93 (subU64 93 1) []
        { sample.forked with trace := sample.forked.trace ++ [.fetchBlock 93] } = some w ∧
      w.aborted = true ∧
      w.st.trace = [.fetchBlock 93, .deleteBlockTransactions 92] ∧
      sample.fetcher.storeTransactions sample.IsBase64Alphabet sample.flakyNode.now 5
        [sample.transferOf 93]
        { w.st with trace := w.st.trace ++ [.fetchTransactions 93] } = some (none, st4) ∧
      (BlockFetcher.reorgs sample.flakyNode Faults.none 5 93
          { sample.forked with trace := sample.forked.trace ++ [.fetchBlock 93] } =
        some (false, 0, w.st) ∧
      w.st.blocks = sample.forked.blocks ∧
      (∃ j : Nat,
        w.st.trace = sample.forked.trace ++ [.fetchBlock 93] ++
          (List.range j).map (fun i => Event.deleteBlockTransactions (subU64 93 (i + 1)))) ∧
      ∃ st5 evs,
        sample.fetcher.indexBlock sample.IsBase64Alphabet sample.flakyNode Faults.none 5 93
          sample.forked = some (.indexed st5) ∧
        st5.blocks = sample.forked.blocks ++ [sample.blockOf 93] ∧
        st5.trace = w.st.trace ++ [.fetchTransactions 93] ++ evs ++ [.createBlock 93] ∧
        createdBlocks evs = [] ∧ hasFailedBatch evs = false ∧
        insertedTransfers evs = [sample.transferOf 93]) :=
  ⟨_, _, rfl, rfl, rfl, rfl,
    aborted_reorg_keeps_markers_and_indexes_block sample.fetcher sample.IsBase64Alphabet
      sample.flakyNode Faults.none 5 93 sample.forked _ (sample.blockOf 93)
      [sample.transferOf 93] _ (by decide) rfl rfl rfl rfl rfl rfl (by decide) rfl⟩

end job

namespace client

theorem fromHexChar_isSome (c : Char) :
    (fromHexChar c).isSome = true ↔ c ∈ "0123456789abcdefABCDEF".toList := by
  have hc : c = Char.ofNat c.toNat := (Char.ofNat_toNat c).symm
  constructor
  · intro h
    unfold fromHexChar at h
    split at h
    · rename_i h1
      rw [hc]
      obtain ⟨h2, h3⟩ := h1
      generalize c.toNat = n at h2 h3
      interval_cases n <;> decide
    · split at h
      · rename_i h1
        rw [hc]
        obtain ⟨h2, h3⟩ := h1
        generalize c.toNat = n at h2 h3
        interval_cases n <;> decide
      · split at h
        · rename_i h1
          rw [hc]
          obtain ⟨h2, h3⟩ := h1
          generalize c.toNat = n at h2 h3
          interval_cases n <;> decide
        · simp at h
  · intro h
    simp only [String.toList, List.mem_cons, List.mem_singleton, List.not_mem_nil,
      or_false] at h
    rcases h with h | h | h | h | h | h | h | h | h | h | h | h | h | h | h | h | h | h | h |
      h | h | h <;> subst h <;> decide

theorem hexDecode_isSome :
    ∀ (l : List Char),
      ((hexDecode l).isSome = true ↔
        (l.length % 2 = 0 ∧ ∀ c ∈ l, c ∈ "0123456789abcdefABCDEF".toList)) ∧
      ∀ p, ((hexDecode (p :: l)).isSome = true ↔
        ((p :: l).length % 2 = 0 ∧ ∀ c ∈ p :: l, c ∈ "0123456789abcdefABCDEF".toList)) := by
  intro l
  induction l with
  | nil =>
    refine ⟨by simp [hexDecode], ?_⟩
    intro p
    simp [hexDecode]
  | cons q rest ih =>
    refine ⟨ih.2 q, ?_⟩
    intro p
    have ih1 := ih.1
    unfold hexDecode
    cases hp : fromHexChar p with
    | none =>
      have hp' : ¬ (p ∈ "0123456789abcdefABCDEF".toList) := by
        rw [← fromHexChar_isSome, hp]; simp
      simp only [Option.isSome_none, Bool.false_eq_true, false_iff, not_and]
      intro _ hall
      exact hp' (hall p (List.mem_cons_self _ _))
    | some a =>
      have hp' : p ∈ "0123456789abcdefABCDEF".toList := by
        rw [← fromHexChar_isSome, hp]; rfl
      cases hq : fromHexChar q with
      | none =>
        have hq' : ¬ (q ∈ "0123456789abcdefABCDEF".toList) := by
          rw [← fromHexChar_isSome, hq]; simp
        simp only [Option.isSome_none, Bool.false_eq_true, false_iff, not_and]
        intro _ hall
        exact hq' (hall q (List.mem_cons_of_mem _ (List.mem_cons_self _ _)))
      | some b =>
        have hq' : q ∈ "0123456789abcdefABCDEF".toList := by
          rw [← fromHexChar_isSome, hq]; rfl
        simp only
        have hlen : (p :: q :: rest).length % 2 = rest.length % 2 := by
          simp only [List.length_cons]
          omega
        rw [hlen]
        cases hr : hexDecode rest with
        | none =>
          rw [hr] at ih1
          simp only [Option.isSome_none, Bool.false_eq_true, false_iff] at ih1 ⊢
          intro hc
          exact ih1 ⟨hc.1, fun c hcm =>
            hc.2 c (List.mem_cons_of_mem _ (List.mem_cons_of_mem _ hcm))⟩
        | some bytes =>
          rw [hr] at ih1
          simp only [Option.isSome_some, true_iff] at ih1 ⊢
          refine ⟨ih1.1, ?_⟩
          intro c hcm
          rcases List.mem_cons.1 hcm with h1 | h1
          · rw [h1]; exact hp'
          · rcases List.mem_cons.1 h1 with h2 | h2
            · rw [h2]; exact hq'
            · exact ih1.2 c h2

set_option maxRecDepth 1000000 in
/-- C22: `GetRawTransactionHash` is a function of the raw string alone. It
returns an error exactly when the string is not valid hex (an even number of
characters, all of them hexadecimal digits); for valid hex it returns the
base58check encoding, with version byte `0x05`, of the byte `0x74` followed by
the BLAKE2b-256 digest of the decoded bytes; and for the raw transaction of the
test it returns `ooV9NJ8uToUpaPV3ybvbF49gH8kFQ5E69XehwoMAPzeRVWmauba`. -/
theorem getRawTransactionHash_is_base58check_of_blake2b :
    (∀ rawTransaction : String,
      ((∃ e, GetRawTransactionHash rawTransaction = .error e) ↔
        ¬ (rawTransaction.toList.length % 2 = 0 ∧
          ∀ c ∈ rawTransaction.toList, c ∈ "0123456789abcdefABCDEF".toList)) ∧
      ((rawTransaction.toList.length % 2 = 0 ∧
          ∀ c ∈ rawTransaction.toList, c ∈ "0123456789abcdefABCDEF".toList) →
        ∃ data, hexDecode rawTransaction.toList = some data ∧
          GetRawTransactionHash rawTransaction =
            .ok (base58CheckEncode (0x74 :: blake2bSum256 data) 0x05))) ∧
    GetRawTransactionHash sample.rawVector =
      .ok "ooV9NJ8uToUpaPV3ybvbF49gH8kFQ5E69XehwoMAPzeRVWmauba" := by
  refine ⟨?_, by rfl⟩
  intro rawTransaction
  have hiff := (hexDecode_isSome rawTransaction.toList).1
  unfold GetRawTransactionHash
  cases hd : hexDecode rawTransaction.toList with
  | none =>
    rw [hd] at hiff
    simp only [Option.isSome_none, Bool.false_eq_true, false_iff] at hiff
    exact ⟨⟨fun _ => hiff, fun _ => ⟨_, rfl⟩⟩, fun h => absurd h hiff⟩
  | some data =>
    rw [hd] at hiff
    simp only [Option.isSome_some, true_iff] at hiff
    refine ⟨⟨?_, fun h => absurd hiff h⟩, fun _ => ⟨data, rfl, rfl⟩⟩
    rintro ⟨e, he⟩
    cases he

end client
